import Mathlib

/-!
# AVL ordered set (`src/avl.h`): heap-level embedding and verification

The C++ `Set<T>` is a pointer structure: nodes are allocated one by one, carry
`left`/`right`/`parent` pointers and a cached `height`, and the container keeps
`root_`, `size_` and the iterator `begin_`.  The embedding keeps all of that:

* the free store is a list of cells (`Heap`), a pointer is `Option Nat`
  (`none` is `nullptr`), `new` appends a cell, `delete` empties it;
* every member function is a function on the heap and the container fields,
  returning `none` where the C++ would dereference a pointer that is null or
  not allocated;
* recursion and `while` loops over pointers take a `fuel` argument; the
  theorems state that every fuel above the element count gives the result;
* a claim about the `rebalance` calls made inside `insert` and `erase` is stated
  with `insert_node_with`, `erase_node_with` and `remove_min_with`, the same
  functions with the `rebalance` they call as a parameter: run with a
  `rebalance` that fails when a call breaks the property, they return what the
  plain functions return exactly when no call breaks it;
* two containers share the one heap (`Reachable2`), so that a copy being
  independent of its source is a statement about which cells a call writes.

Keys are any type with a decidable linear order (the spec asks for a strict
total order).  `int` heights are `Int`; `size_t` is `Nat`, its decrement wraps
as in C++ and its increment does not (a heap cannot hold `2 ^ 64` nodes).

Layout: all definitions come first (the heap model translated from the source,
then the tree a heap region represents with the tree-level effect of each member
function, the invariants and the reachability relation), then the theorems
(refinement of each member function, the invariants, the claims `C1` ... and
evaluations of concrete runs).
-/

namespace Avl

variable {T : Type}

/-! ## The heap, the nodes and the member functions that do not compare keys -/

/-- The `struct Node` of `avl.h`: three pointers, the cached height and the key. -/
structure Node (T : Type) where
  left : Option Nat
  right : Option Nat
  parent : Option Nat
  height : Int
  value : T
deriving DecidableEq

/-- The free store: cell `p` is `some n` while a node is allocated at address `p`. -/
abbrev Heap (T : Type) := List (Option (Node T))

/-- Read through a pointer, `none` when nothing is allocated there. -/
def rd (h : Heap T) (p : Nat) : Option (Node T) :=
  match h[p]? with
  | some (some n) => some n
  | _ => none

/-- Overwrite the cell at `p`. -/
def wr (h : Heap T) (p : Nat) (n : Node T) : Heap T := h.set p (some n)

/-- The `new Node(key)` expression: `explicit Node(T _value)` leaves the pointers null and
`height` at its default member initialiser `0`. -/
def alloc (h : Heap T) (key : T) : Heap T × Nat :=
  (h ++ [some ⟨none, none, none, 0, key⟩], h.length)

/-- The `delete u` statement. -/
def dealloc (h : Heap T) (p : Nat) : Heap T := h.set p none

/-- The data members of `Set<T>`; `begin_` is the `ptr` of the cached iterator. -/
structure Set (T : Type) where
  root_ : Option Nat
  size_ : Nat
  begin_ : Option Nat
deriving DecidableEq

/-- The default-constructed container `Set<T>()`. -/
def Set.fresh : Set T := ⟨none, 0, none⟩

/-- Member `size()`. -/
def Set.size (s : Set T) : Nat := s.size_

/-- Member `empty()`. -/
def Set.empty (s : Set T) : Bool := s.size_ == 0

/-- Member `begin()`. -/
def Set.begin (s : Set T) : Option Nat := s.begin_

/-- Member `end()`: the iterator whose `ptr` is null. -/
def Set.end (_s : Set T) : Option Nat := none

/-- Decrement of a `size_t`. -/
def dec_size (n : Nat) : Nat := if n = 0 then 2 ^ 64 - 1 else n - 1

/-- Source `get_height`: `u ? u->height : 0`. -/
def get_height (h : Heap T) : Option Nat → Option Int
  | none => some 0
  | some u => (rd h u).map fun n => n.height

/-- Source `get_diff`: `get_height(u->left) - get_height(u->right)`. -/
def get_diff (h : Heap T) (u : Nat) : Option Int := do
  let n ← rd h u
  let a ← get_height h n.left
  let b ← get_height h n.right
  pure (a - b)

/-- Source `update`: `u->height = max(get_height(u->left), get_height(u->right)) + 1`. -/
def update (h : Heap T) (u : Nat) : Option (Heap T) := do
  let n ← rd h u
  let a ← get_height h n.left
  let b ← get_height h n.right
  pure (wr h u { n with height := max a b + 1 })

/-- Source `link_left`: `u->left = v; if (v) v->parent = u;`. -/
def link_left (h : Heap T) (u : Nat) (v : Option Nat) : Option (Heap T) := do
  let n ← rd h u
  let h1 := wr h u { n with left := v }
  match v with
  | none => pure h1
  | some c => do
    let m ← rd h1 c
    pure (wr h1 c { m with parent := some u })

/-- Source `link_right`: `u->right = v; if (v) v->parent = u;`. -/
def link_right (h : Heap T) (u : Nat) (v : Option Nat) : Option (Heap T) := do
  let n ← rd h u
  let h1 := wr h u { n with right := v }
  match v with
  | none => pure h1
  | some c => do
    let m ← rd h1 c
    pure (wr h1 c { m with parent := some u })

/-- Source `rotate_right`. -/
def rotate_right (h : Heap T) (u : Nat) : Option (Heap T × Nat) := do
  let n ← rd h u
  let res ← n.left
  let m ← rd h res
  let h1 ← link_left h u m.right
  let h2 ← link_right h1 res (some u)
  let h3 ← update h2 u
  let h4 ← update h3 res
  pure (h4, res)

/-- Source `rotate_left`. -/
def rotate_left (h : Heap T) (u : Nat) : Option (Heap T × Nat) := do
  let n ← rd h u
  let res ← n.right
  let m ← rd h res
  let h1 ← link_right h u m.left
  let h2 ← link_left h1 res (some u)
  let h3 ← update h2 u
  let h4 ← update h3 res
  pure (h4, res)

/-- Source `rotate_left_big`: `link_right(u, rotate_right(u->right)); return rotate_left(u);`. -/
def rotate_left_big (h : Heap T) (u : Nat) : Option (Heap T × Nat) := do
  let n ← rd h u
  let r ← n.right
  let (h1, x) ← rotate_right h r
  let h2 ← link_right h1 u (some x)
  rotate_left h2 u

/-- Source `rotate_right_big`: `link_left(u, rotate_left(u->left)); return rotate_right(u);`. -/
def rotate_right_big (h : Heap T) (u : Nat) : Option (Heap T × Nat) := do
  let n ← rd h u
  let l ← n.left
  let (h1, x) ← rotate_left h l
  let h2 ← link_left h1 u (some x)
  rotate_right h2 u

/-- Source `rebalance`. -/
def rebalance (h : Heap T) (u : Nat) : Option (Heap T × Nat) := do
  let d ← get_diff h u
  if |d| < 2 then pure (h, u)
  else if d = -2 then do
    let n ← rd h u
    let r ← n.right
    let dr ← get_diff h r
    if dr ≤ 0 then rotate_left h u else rotate_left_big h u
  else do
    let n ← rd h u
    let l ← n.left
    let dl ← get_diff h l
    if dl ≥ 0 then rotate_right h u else rotate_right_big h u

/-- Source `find_min`: `u->left ? find_min(u->left) : u`. -/
def find_min : Nat → Heap T → Nat → Option Nat
  | 0, _, _ => none
  | fuel + 1, h, u => do
    let n ← rd h u
    match n.left with
    | some l => find_min fuel h l
    | none => pure u

/-- Source `remove_min`. -/
def remove_min : Nat → Heap T → Nat → Option (Heap T × Option Nat)
  | 0, _, _ => none
  | fuel + 1, h, u => do
    let n ← rd h u
    match n.left with
    | none => pure (h, n.right)
    | some l => do
      let (h1, v) ← remove_min fuel h l
      let h2 ← link_left h1 u v
      let h3 ← update h2 u
      let (h4, r) ← rebalance h3 u
      pure (h4, some r)

/-- The loop `while (ptr->left != nullptr) ptr = ptr->left;` of `operator++`. -/
def walk_left : Nat → Heap T → Nat → Option Nat
  | 0, _, _ => none
  | fuel + 1, h, p => do
    let n ← rd h p
    match n.left with
    | none => pure p
    | some l => walk_left fuel h l

/-- The loop `while (ptr->right != nullptr) ptr = ptr->right;` of `operator--`. -/
def walk_right : Nat → Heap T → Nat → Option Nat
  | 0, _, _ => none
  | fuel + 1, h, p => do
    let n ← rd h p
    match n.right with
    | none => pure p
    | some r => walk_right fuel h r

/-- The loop `while (ptr->parent != nullptr && ptr->parent->right == ptr) ptr = ptr->parent;`
of `operator++`. -/
def climb_from_right : Nat → Heap T → Nat → Option Nat
  | 0, _, _ => none
  | fuel + 1, h, p => do
    let n ← rd h p
    match n.parent with
    | none => pure p
    | some q => do
      let m ← rd h q
      if m.right = some p then climb_from_right fuel h q else pure p

/-- The loop `while (ptr->parent != nullptr && ptr->parent->left == ptr) ptr = ptr->parent;`
of `operator--`. -/
def climb_from_left : Nat → Heap T → Nat → Option Nat
  | 0, _, _ => none
  | fuel + 1, h, p => do
    let n ← rd h p
    match n.parent with
    | none => pure p
    | some q => do
      let m ← rd h q
      if m.left = some p then climb_from_left fuel h q else pure p

/-- Source `iterator::operator++` on the iterator's `ptr`. -/
def iterator_inc (fuel : Nat) (h : Heap T) : Option Nat → Option (Option Nat)
  | none => none
  | some p => do
    let n ← rd h p
    match n.right with
    | some r => do
      let q ← walk_left fuel h r
      pure (some q)
    | none => do
      let q ← climb_from_right fuel h p
      let m ← rd h q
      pure m.parent

/-- Source `iterator::operator--`; `s` is the container the iterator belongs to. -/
def iterator_dec (fuel : Nat) (h : Heap T) (s : Set T) : Option Nat → Option (Option Nat)
  | none => do
    let r ← s.root_
    let q ← walk_right fuel h r
    pure (some q)
  | some p => do
    let n ← rd h p
    match n.left with
    | some l => do
      let q ← walk_right fuel h l
      pure (some q)
    | none => do
      let q ← climb_from_left fuel h p
      let m ← rd h q
      pure m.parent

/-- Source `iterator::operator*`. -/
def iterator_deref (h : Heap T) : Option Nat → Option T
  | none => none
  | some p => (rd h p).map fun n => n.value

/-- The client loop `for (it = from; it != end(); ++it)` collecting `*it`: `steps` bounds the
number of iterations, `fuel` is what each `++it` gets. -/
def walk : Nat → Nat → Heap T → Option Nat → Option (List T)
  | _, _, _, none => some []
  | 0, _, _, some _ => none
  | steps + 1, fuel, h, some p => do
    let n ← rd h p
    let nx ← iterator_inc fuel h (some p)
    let rest ← walk steps fuel h nx
    pure (n.value :: rest)

/-- Keys seen walking the container from `begin()` to `end()`. -/
def Set.traverse (fuel : Nat) (h : Heap T) (s : Set T) : Option (List T) :=
  walk fuel fuel h s.begin_

/-! ## The tree a heap region represents

A `Tree` records, for a region of the heap, which node sits where: address, key and cached
height of every node.  `Rep h t p` says that heap `h` holds exactly this tree.  The functions
on `Tree` below are the effect of the member functions of the same name on the tree the heap
holds, `none` where the member function dereferences a null pointer; the refinement theorems
connect the two. -/

/-- The shape of a pointer tree: each node with its address, key and cached height. -/
inductive Tree (T : Type) where
  | nil : Tree T
  | node (l : Tree T) (a : Nat) (v : T) (ht : Int) (r : Tree T) : Tree T
deriving DecidableEq

/-- Pointer to the root node. -/
def Tree.ptr : Tree T → Option Nat
  | nil => none
  | node _ a _ _ _ => some a

/-- Cached height of the root, `0` for the empty tree (what `get_height` reads). -/
def Tree.hgt : Tree T → Int
  | nil => 0
  | node _ _ _ ht _ => ht

/-- Keys in in-order. -/
def Tree.keys : Tree T → List T
  | nil => []
  | node l _ v _ r => l.keys ++ v :: r.keys

/-- Node addresses in in-order. -/
def Tree.addrs : Tree T → List Nat
  | nil => []
  | node l a _ _ r => l.addrs ++ a :: r.addrs

/-- The nodes in in-order, each as (address, key). -/
def Tree.nodes : Tree T → List (Nat × T)
  | nil => []
  | node l a v _ r => l.nodes ++ (a, v) :: r.nodes

/-- Number of nodes. -/
def Tree.size : Tree T → Nat
  | nil => 0
  | node l _ _ _ r => l.size + 1 + r.size

/-- Number of nodes on the longest path from the root down (the true height). -/
def Tree.depth : Tree T → Nat
  | nil => 0
  | node l _ _ _ r => max l.depth r.depth + 1

/-- Heap `h` holds tree `t` with the root's `parent` field equal to `p`: every node's cell has
the children's addresses, the parent's address, the cached height and the key of `t`. -/
def Rep (h : Heap T) : Tree T → Option Nat → Prop
  | .nil, _ => True
  | .node l a v ht r, p =>
    rd h a = some ⟨l.ptr, r.ptr, p, ht, v⟩ ∧ Rep h l (some a) ∧ Rep h r (some a)

/-- Effect of `update` on the root. -/
def Tree.update : Tree T → Tree T
  | nil => nil
  | node l a v _ r => node l a v (max l.hgt r.hgt + 1) r

/-- What `get_diff` returns at the root. -/
def Tree.diff : Tree T → Option Int
  | nil => none
  | node l _ _ _ r => some (l.hgt - r.hgt)

/-- Effect of `rotate_right`. -/
def Tree.rotate_right : Tree T → Option (Tree T)
  | node (node ll b vb hb lr) a v ht r =>
    some (update (node ll b vb hb (update (node lr a v ht r))))
  | _ => none

/-- Effect of `rotate_left`. -/
def Tree.rotate_left : Tree T → Option (Tree T)
  | node l a v ht (node rl b vb hb rr) =>
    some (update (node (update (node l a v ht rl)) b vb hb rr))
  | _ => none

/-- Effect of `rotate_left_big`. -/
def Tree.rotate_left_big : Tree T → Option (Tree T)
  | nil => none
  | node l a v ht r => do
    let r1 ← rotate_right r
    rotate_left (node l a v ht r1)

/-- Effect of `rotate_right_big`. -/
def Tree.rotate_right_big : Tree T → Option (Tree T)
  | nil => none
  | node l a v ht r => do
    let l1 ← rotate_left l
    rotate_right (node l1 a v ht r)

/-- Effect of `rebalance`. -/
def Tree.rebalance : Tree T → Option (Tree T)
  | nil => none
  | node l a v ht r =>
    if |l.hgt - r.hgt| < 2 then some (node l a v ht r)
    else if l.hgt - r.hgt = -2 then do
      let dr ← r.diff
      if dr ≤ 0 then rotate_left (node l a v ht r) else rotate_left_big (node l a v ht r)
    else do
      let dl ← l.diff
      if dl ≥ 0 then rotate_right (node l a v ht r) else rotate_right_big (node l a v ht r)

/-- The heap function returned `(h1, b)`, and in `h1` the region that held `t` holds `t1`
rooted at `b`; no other cell changed and nothing was allocated. -/
def Refines (h : Heap T) (t : Tree T) (res : Option (Heap T × Nat)) (t1 : Tree T) : Prop :=
  ∃ h1 b, res = some (h1, b) ∧ t1.ptr = some b ∧ (∃ p1, Rep h1 t1 p1) ∧
    (∀ y, y ∉ t.addrs → rd h1 y = rd h y) ∧ h1.length = h.length

/-- The invariant the cached heights keep: at every node the children's cached heights differ
by at most one, and the node's cached height is one more than the larger of them, except
that a childless node may still carry the `0` its constructor gave it. -/
def Tree.Inv : Tree T → Prop
  | nil => True
  | node l _ _ ht r =>
    Inv l ∧ Inv r ∧ l.hgt ≤ r.hgt + 1 ∧ r.hgt ≤ l.hgt + 1 ∧
      (ht = max l.hgt r.hgt + 1 ∨ (l = nil ∧ r = nil ∧ ht = 0))

/-- What `find_min` returns on a non-empty tree: address and key of the leftmost node. -/
def Tree.first : Tree T → Option (Nat × T)
  | nil => none
  | node l a v _ _ =>
    match l.ptr with
    | none => some (a, v)
    | some _ => first l

/-- Effect of `remove_min`. -/
def Tree.remove_min : Tree T → Option (Tree T)
  | nil => none
  | node l a v ht r =>
    match l.ptr with
    | none => some r
    | some _ => do
      let l1 ← remove_min l
      rebalance (update (node l1 a v ht r))

/-- The container fields after the matching case of `erase(Node*, key)` ran at node `u`:
one element fewer, and `begin_` replaced by `nb`, the result of `++begin_`, when it pointed
at `u`. -/
def Set.without (s : Set T) (u : Nat) (nb : Option Nat) : Set T :=
  { root_ := s.root_
    size_ := dec_size s.size_
    begin_ := if s.begin_ = some u then nb else s.begin_ }

/-- The container fields after `erase(Node*, key)`, given the node the search found. -/
def Set.after_erase (s : Set T) (nb : Option Nat) : Option Nat → Set T
  | none => s
  | some u => s.without u nb

/-- The `else` branch of `operator++`: climb while the current node is a right child, then
step to the parent. -/
def exit_right (fuel : Nat) (h : Heap T) (x : Nat) : Option (Option Nat) :=
  (climb_from_right fuel h x).bind fun q => (rd h q).bind fun m => some m.parent

/-- The last branch of `operator--`: climb while the current node is a left child, then step
to the parent. -/
def exit_left (fuel : Nat) (h : Heap T) (x : Nat) : Option (Option Nat) :=
  (climb_from_left fuel h x).bind fun q => (rd h q).bind fun m => some m.parent

/-- One public call. -/
inductive Op (T : Type) where
  | ins (key : T) : Op T
  | del (key : T) : Op T

/-! ## Observed `rebalance` calls, `copy` and `free` -/

/-- Source `remove_min`, with the `rebalance` it calls as a parameter. -/
def remove_min_with (reb : Heap T → Nat → Option (Heap T × Nat)) :
    Nat → Heap T → Nat → Option (Heap T × Option Nat)
  | 0, _, _ => none
  | fuel + 1, h, u => do
    let n ← rd h u
    match n.left with
    | none => pure (h, n.right)
    | some l => do
      let (h1, v) ← remove_min_with reb fuel h l
      let h2 ← link_left h1 u v
      let h3 ← update h2 u
      let (h4, r) ← reb h3 u
      pure (h4, some r)

/-- Pointer `p` is not null and its cell is live. -/
def present (h : Heap T) (p : Option Nat) : Bool :=
  match p with
  | none => false
  | some a => (rd h a).isSome

/-- What the rotations of a `rebalance(u)` call that sees the cached difference `d`
dereference: for `d = -2` the right child `u->right`, and its left child too when the double
rotation is taken (`get_diff(u->right) > 0`); for `d = 2` the left child `u->left`, and its
right child too when `get_diff(u->left) < 0`. The value is `true` when they are all present. -/
def pivots_present (h : Heap T) (u : Nat) (d : Int) : Bool :=
  if d = -2 then
    match (rd h u).bind fun n => n.right with
    | none => false
    | some r =>
      match rd h r, get_diff h r with
      | some m, some dr => decide (dr ≤ 0) || present h m.left
      | _, _ => false
  else if d = 2 then
    match (rd h u).bind fun n => n.left with
    | none => false
    | some l =>
      match rd h l, get_diff h l with
      | some m, some dl => decide (dl ≥ 0) || present h m.right
      | _, _ => false
  else true

/-- Source `rebalance` under observation: the call fails unless the cached difference
`get_diff(u)` it sees lies in -2..2 and the nodes its rotations dereference are present. -/
def rebalance_checked (h : Heap T) (u : Nat) : Option (Heap T × Nat) := do
  let d ← get_diff h u
  if -2 ≤ d ∧ d ≤ 2 ∧ pivots_present h u d = true then rebalance h u else none

/-- Source `rebalance` under observation: the call fails when it rotates, that is when the
cached difference it sees is outside -1..1 or the node it returns is not `u`. -/
def rebalance_idle (h : Heap T) (u : Nat) : Option (Heap T × Nat) := do
  let d ← get_diff h u
  let (h1, r) ← rebalance h u
  if |d| < 2 ∧ r = u then pure (h1, r) else none

/-- Source `copy`; `new Node(*u)` copies `height` and `value` and leaves the links null. -/
def copy : Nat → Heap T → Option Nat → Option (Heap T × Option Nat)
  | 0, _, _ => none
  | _ + 1, h, none => some (h, none)
  | fuel + 1, h, some u => do
    let n ← rd h u
    let v := h.length
    let h0 := h ++ [some ⟨none, none, none, n.height, n.value⟩]
    let nl ← rd h0 u
    let (h1, cl) ← copy fuel h0 nl.left
    let h2 ← link_left h1 v cl
    let nr ← rd h2 u
    let (h3, cr) ← copy fuel h2 nr.right
    let h4 ← link_right h3 v cr
    pure (h4, some v)

/-- Source `free`. -/
def free : Nat → Heap T → Option Nat → Option (Heap T)
  | 0, _, _ => none
  | _ + 1, h, none => some h
  | fuel + 1, h, some u => do
    let n ← rd h u
    let h1 ← free fuel h n.left
    let n1 ← rd h1 u
    let h2 ← free fuel h1 n1.right
    let _ ← rd h2 u
    pure (dealloc h2 u)

/-- The `begin_` both copy operations compute:
`root_ ? iterator(find_min(root_), *this) : iterator(*this)`. -/
def begin_of (fuel : Nat) (h : Heap T) (root : Option Nat) : Option (Option Nat) :=
  match root with
  | none => some none
  | some a => (find_min fuel h a).map some

/-- Source `Set(const Set& other)`: the heap after the call and the fields of the new
container. -/
def Set.copy_construct (fuel : Nat) (h : Heap T) (other : Set T) : Option (Heap T × Set T) := do
  let (h1, r) ← copy fuel h other.root_
  let b ← begin_of fuel h1 r
  pure (h1, ⟨r, other.size_, b⟩)

/-- Source `operator=` on the container with fields `dst`; `same` is the outcome of the test
`this == &other`. -/
def Set.assign (fuel : Nat) (h : Heap T) (dst other : Set T) (same : Bool) :
    Option (Heap T × Set T) :=
  if same then some (h, dst)
  else do
    let h0 ← free fuel h dst.root_
    let (h1, r) ← copy fuel h0 other.root_
    let b ← begin_of fuel h1 r
    pure (h1, ⟨r, other.size_, b⟩)

/-- The tree `copy` builds from `t` in a heap of length `base`: the same shape, keys and
cached heights, at the addresses `copy` allocates (a node, then its left subtree, then its
right subtree). -/
def Tree.copy (base : Nat) : Tree T → Tree T
  | nil => nil
  | node l _ v ht r => node (l.copy (base + 1)) base v ht (r.copy (base + 1 + l.size))

/-! ## Heaps of concrete runs -/

/-- Height of the subtree at `p` as the claims count it: the number of nodes on the longest
path down from `p`, so `0` for an absent subtree and `1` for a leaf. -/
def true_height : Nat → Heap T → Option Nat → Option Nat
  | 0, _, _ => none
  | _ + 1, _, none => some 0
  | fuel + 1, h, some u => do
    let n ← rd h u
    let a ← true_height fuel h n.left
    let b ← true_height fuel h n.right
    pure (max a b + 1)

/-- Whether the subtree at `p` is balanced as the claims count it: at every node the true
heights of the left and the right subtree differ by at most 1. -/
def balanced : Nat → Heap T → Option Nat → Option Bool
  | 0, _, _ => none
  | _ + 1, _, none => some true
  | fuel + 1, h, some u => do
    let n ← rd h u
    let a ← true_height fuel h n.left
    let b ← true_height fuel h n.right
    let bl ← balanced fuel h n.left
    let br ← balanced fuel h n.right
    pure (bl && br && decide (a ≤ b + 1) && decide (b ≤ a + 1))

/-- The calls of the first example run: `insert` of 5, 3, 8, 1, 4, 7, 9. -/
def ops7 : List (Op Int) := [.ins 5, .ins 3, .ins 8, .ins 1, .ins 4, .ins 7, .ins 9]

/-- The heap after `insert` of 5, 3, 8, 1, 4, 7 into an empty set, starting from an empty
heap. -/
def heap6 : Heap Int :=
  [some ⟨some 1, some 2, none, 2, 5⟩, some ⟨some 3, some 4, some 0, 1, 3⟩,
    some ⟨some 5, none, some 0, 1, 8⟩, some ⟨none, none, some 1, 0, 1⟩,
    some ⟨none, none, some 1, 0, 4⟩, some ⟨none, none, some 2, 0, 7⟩]

/-- The container fields after `insert` of 5, 3, 8, 1, 4, 7. -/
def set6 : Set Int := ⟨some 0, 6, some 3⟩

/-- The heap after `insert` of 5, 3, 8, 1, 4, 7, 9. -/
def heap7 : Heap Int :=
  [some ⟨some 1, some 2, none, 2, 5⟩, some ⟨some 3, some 4, some 0, 1, 3⟩,
    some ⟨some 5, some 6, some 0, 1, 8⟩, some ⟨none, none, some 1, 0, 1⟩,
    some ⟨none, none, some 1, 0, 4⟩, some ⟨none, none, some 2, 0, 7⟩,
    some ⟨none, none, some 2, 0, 9⟩]

/-- The container fields after `insert` of 5, 3, 8, 1, 4, 7, 9. -/
def set7 : Set Int := ⟨some 0, 7, some 3⟩

/-- The heap after `insert` of 5, 3, 8, 1, 4, 7, 9 and `erase` of 5. -/
def heap7e : Heap Int :=
  [none, some ⟨some 3, some 4, some 5, 1, 3⟩, some ⟨none, some 6, some 5, 1, 8⟩,
    some ⟨none, none, some 1, 0, 1⟩, some ⟨none, none, some 1, 0, 4⟩,
    some ⟨some 1, some 2, none, 2, 7⟩, some ⟨none, none, some 2, 0, 9⟩]

/-- The container fields after `insert` of 5, 3, 8, 1, 4, 7, 9 and `erase` of 5. -/
def set7e : Set Int := ⟨some 5, 6, some 3⟩

/-- The heap after `insert` of 1, 2, 3: a chain to the right. -/
def heap123 : Heap Int :=
  [some ⟨none, some 1, none, 2, 1⟩, some ⟨none, some 2, some 0, 1, 2⟩,
    some ⟨none, none, some 1, 0, 3⟩]

/-- The container fields after `insert` of 1, 2, 3. -/
def set123 : Set Int := ⟨some 0, 3, some 0⟩

/-- The heap after `insert` of 3, 2, 1: a chain to the left. -/
def heap321 : Heap Int :=
  [some ⟨some 1, none, none, 2, 3⟩, some ⟨some 2, none, some 0, 1, 2⟩,
    some ⟨none, none, some 1, 0, 1⟩]

/-- The container fields after `insert` of 3, 2, 1. -/
def set321 : Set Int := ⟨some 0, 3, some 2⟩

/-- The heap after `insert` of 3, 2, 1 and `erase` of the absent key 0. -/
def heap321e : Heap Int :=
  [some ⟨none, none, some 1, 1, 3⟩, some ⟨some 2, some 0, none, 2, 2⟩,
    some ⟨none, none, some 1, 1, 1⟩]

/-- The container fields after `insert` of 3, 2, 1 and `erase` of the absent key 0. -/
def set321e : Set Int := ⟨some 1, 3, some 2⟩

/-- The heap after `insert` of 5 alone. -/
def heap5 : Heap Int := [some ⟨none, none, none, 0, 5⟩]

/-- The container fields after `insert` of 5 alone. -/
def set5 : Set Int := ⟨some 0, 1, some 0⟩

/-- The heap after `insert` of 5 and `erase` of the absent key 7. -/
def heap5e : Heap Int := [some ⟨none, none, none, 1, 5⟩]

/-- The heap after `insert` of 10, 20, 30, 40, 50 into an empty set, starting from an empty
heap. -/
def heap50 : Heap Int :=
  [some ⟨none, none, some 1, 1, 10⟩, some ⟨some 0, some 2, none, 3, 20⟩,
   some ⟨none, some 3, some 1, 2, 30⟩, some ⟨none, some 4, some 2, 1, 40⟩,
   some ⟨none, none, some 3, 0, 50⟩]

/-- The container fields after `insert` of 10, 20, 30, 40, 50. -/
def set50 : Set Int := ⟨some 1, 5, some 0⟩

/-- The heap `heap7` followed by the cells `copy` allocates for the copy of its tree. -/
def heap7c : Heap Int :=
  heap7 ++
  [some ⟨some 8, some 11, none, 2, 5⟩, some ⟨some 9, some 10, some 7, 1, 3⟩,
   some ⟨none, none, some 8, 0, 1⟩, some ⟨none, none, some 8, 0, 4⟩,
   some ⟨some 12, some 13, some 7, 1, 8⟩, some ⟨none, none, some 11, 0, 7⟩,
   some ⟨none, none, some 11, 0, 9⟩]

/-- The fields of the container copy-constructed from `set7` in `heap7`. -/
def set7c : Set Int := ⟨some 7, 7, some 9⟩

section ordered

variable [LinearOrder T]

/-! ## The member functions that compare keys -/

/-- Source `Set::insert(Node*, const T&)`. -/
def insert_node : Nat → Heap T → Set T → Option Nat → T → Option (Heap T × Set T × Nat)
  | 0, _, _, _, _ => none
  | _ + 1, h, s, none, key =>
    let s1 : Set T := { s with size_ := s.size_ + 1 }
    let (h1, v) := alloc h key
    match s1.begin_ with
    | none => some (h1, { s1 with begin_ := some v }, v)
    | some b => do
      let bn ← rd h1 b
      if key < bn.value then pure (h1, { s1 with begin_ := some v }, v)
      else pure (h1, s1, v)
  | fuel + 1, h, s, some u, key => do
    let n ← rd h u
    if key < n.value then do
      let (h1, s1, c) ← insert_node fuel h s n.left key
      let h2 ← link_left h1 u (some c)
      let h3 ← update h2 u
      let (h4, r) ← rebalance h3 u
      pure (h4, s1, r)
    else if n.value < key then do
      let (h1, s1, c) ← insert_node fuel h s n.right key
      let h2 ← link_right h1 u (some c)
      let h3 ← update h2 u
      let (h4, r) ← rebalance h3 u
      pure (h4, s1, r)
    else pure (h, s, u)

/-- Source `Set::erase(Node*, const T&)`. -/
def erase_node :
    Nat → Heap T → Set T → Option Nat → T → Option (Heap T × Set T × Option Nat)
  | 0, _, _, _, _ => none
  | _ + 1, h, s, none, _ => some (h, s, none)
  | fuel + 1, h, s, some u, key => do
    let n ← rd h u
    if key < n.value then do
      let (h1, s1, c) ← erase_node fuel h s n.left key
      let h2 ← link_left h1 u c
      let h3 ← update h2 u
      let (h4, r) ← rebalance h3 u
      pure (h4, s1, some r)
    else if n.value < key then do
      let (h1, s1, c) ← erase_node fuel h s n.right key
      let h2 ← link_right h1 u c
      let h3 ← update h2 u
      let (h4, r) ← rebalance h3 u
      pure (h4, s1, some r)
    else do
      let s1 : Set T := { s with size_ := dec_size s.size_ }
      let b ← if s1.begin_ = some u then iterator_inc fuel h s1.begin_ else pure s1.begin_
      let s2 : Set T := { s1 with begin_ := b }
      match n.right with
      | none => pure (dealloc h u, s2, n.left)
      | some r => do
        let v ← find_min fuel h r
        let (h1, r1) ← remove_min fuel h r
        let h2 ← link_right h1 v r1
        let n2 ← rd h2 u
        let h3 ← link_left h2 v n2.left
        let h4 ← update h3 v
        let h5 := dealloc h4 u
        let (h6, w) ← rebalance h5 v
        pure (h6, s2, some w)

/-- Source `Set::find(Node*, const T&)`. -/
def find_node : Nat → Heap T → Option Nat → T → Option (Option Nat)
  | 0, _, _, _ => none
  | _ + 1, _, none, _ => some none
  | fuel + 1, h, some u, key => do
    let n ← rd h u
    if key < n.value then find_node fuel h n.left key
    else if n.value < key then find_node fuel h n.right key
    else pure (some u)

/-- Source `Set::lower_bound(Node*, const T&)`. -/
def lower_bound_node : Nat → Heap T → Option Nat → T → Option Nat
  | 0, _, _, _ => none
  | _ + 1, _, none, _ => none
  | fuel + 1, h, some u, key => do
    let n ← rd h u
    if key < n.value then
      match n.left with
      | none => pure u
      | some l => lower_bound_node fuel h (some l) key
    else if n.value < key then
      match n.right with
      | none => pure u
      | some r => lower_bound_node fuel h (some r) key
    else pure u

/-- Source `Set::insert(const T&)`: `root_ = insert(root_, key); root_->parent = nullptr;`. -/
def Set.insert (fuel : Nat) (h : Heap T) (s : Set T) (key : T) : Option (Heap T × Set T) := do
  let (h1, s1, r) ← insert_node fuel h s s.root_ key
  let n ← rd h1 r
  pure (wr h1 r { n with parent := none }, { s1 with root_ := some r })

/-- Source `Set::erase(const T&)`. -/
def Set.erase (fuel : Nat) (h : Heap T) (s : Set T) (key : T) : Option (Heap T × Set T) := do
  let (h1, s1, r) ← erase_node fuel h s s.root_ key
  match r with
  | none => pure (h1, { s1 with root_ := none })
  | some a => do
    let n ← rd h1 a
    pure (wr h1 a { n with parent := none }, { s1 with root_ := some a })

/-- Source `Set::find(const T&)`: the `ptr` of the returned iterator. -/
def Set.find (fuel : Nat) (h : Heap T) (s : Set T) (key : T) : Option (Option Nat) :=
  find_node fuel h s.root_ key

/-- Source `Set::lower_bound(const T&)`: the `ptr` of the returned iterator. -/
def Set.lower_bound (fuel : Nat) (h : Heap T) (s : Set T) (key : T) : Option (Option Nat) :=
  if s.size_ = 0 then some none
  else do
    let p ← lower_bound_node fuel h s.root_ key
    let n ← rd h p
    if n.value < key then iterator_inc fuel h (some p) else pure (some p)

/-! ## Their effect on the represented tree, the invariants and reachability -/

/-- What `find(Node*, key)` returns on the represented tree. -/
def Tree.find : Tree T → T → Option Nat
  | nil, _ => none
  | node l a v _ r, key =>
    if key < v then find l key else if v < key then find r key else some a

/-- Effect of `insert(Node*, key)`; `fresh` is the address `new` returns. -/
def Tree.insert (fresh : Nat) : Tree T → T → Option (Tree T)
  | nil, key => some (node nil fresh key 0 nil)
  | node l a v ht r, key =>
    if key < v then do
      let l1 ← insert fresh l key
      rebalance (update (node l1 a v ht r))
    else if v < key then do
      let r1 ← insert fresh r key
      rebalance (update (node l a v ht r1))
    else some (node l a v ht r)

/-- The container fields after the null-pointer case of `insert(Node*, key)` ran in heap `h`:
one more element, and `begin_` moved to the new node when the set was empty or the key is
below `*begin_`. -/
def Set.with_new (h : Heap T) (s : Set T) (key : T) : Set T :=
  { root_ := s.root_
    size_ := s.size_ + 1
    begin_ :=
      match s.begin_ with
      | none => some h.length
      | some b =>
        match rd h b with
        | some bn => if key < bn.value then some h.length else some b
        | none => some b }

/-- Effect of `erase(Node*, key)`. -/
def Tree.erase : Tree T → T → Option (Tree T)
  | nil, _ => some nil
  | node l a v ht r, key =>
    if key < v then do
      let l1 ← erase l key
      rebalance (update (node l1 a v ht r))
    else if v < key then do
      let r1 ← erase r key
      rebalance (update (node l a v ht r1))
    else
      match r.ptr with
      | none => some l
      | some _ => do
        let m ← r.first
        let r1 ← r.remove_min
        rebalance (update (node l m.1 m.2 0 r1))

/-- True height of the subtree rooted at the node where the search for `key` ends. -/
def Tree.subdepth : Tree T → T → Nat
  | nil, _ => 0
  | node l a v ht r, key =>
    if key < v then subdepth l key
    else if v < key then subdepth r key
    else (node l a v ht r).depth

/-- BST ordering: at every node the keys on the left are smaller and those on the right are
larger than the node's key. -/
def Tree.Bst : Tree T → Prop
  | nil => True
  | node l _ v _ r => Bst l ∧ Bst r ∧ (∀ x ∈ l.keys, x < v) ∧ (∀ y ∈ r.keys, v < y)

/-- What `lower_bound(Node*, key)` returns: the node where the descent stops. -/
def Tree.lower_bound : Tree T → T → Option (Nat × T)
  | nil, _ => none
  | node l a v _ r, key =>
    if key < v then
      match l.ptr with
      | none => some (a, v)
      | some _ => lower_bound l key
    else if v < key then
      match r.ptr with
      | none => some (a, v)
      | some _ => lower_bound r key
    else some (a, v)

/-- Heap `h` and container fields `s` hold the tree `t`: the heap represents `t` with a null
parent at the root, no address occurs twice, the cached heights and the keys satisfy their
invariants, and `root_`, `size_`, `begin_` are the root, the node count and the leftmost
node. -/
structure Good (h : Heap T) (s : Set T) (t : Tree T) : Prop where
  rep : Rep h t none
  nodup : t.addrs.Nodup
  inv : t.Inv
  bst : t.Bst
  root : s.root_ = t.ptr
  size : s.size_ = t.size
  first : s.begin_ = t.addrs.head?

/-- The states a container can be in: default-constructed in any heap, then any finite
sequence of public `insert` and `erase` calls, each run with fuel above the element
count. -/
inductive Reachable : Heap T → Set T → Prop
  | empty (h : Heap T) : Reachable h Set.fresh
  | insert {h h1 : Heap T} {s s1 : Set T} (fuel : Nat) (key : T) :
      Reachable h s → s.size_ < fuel → Set.insert fuel h s key = some (h1, s1) →
      Reachable h1 s1
  | erase {h h1 : Heap T} {s s1 : Set T} (fuel : Nat) (key : T) :
      Reachable h s → s.size_ < fuel → Set.erase fuel h s key = some (h1, s1) →
      Reachable h1 s1

/-- A sequence of public calls, each with the same fuel; `none` when a call fails or the fuel
is not above the element count. -/
def run (fuel : Nat) : List (Op T) → Heap T × Set T → Option (Heap T × Set T)
  | [], st => some st
  | .ins key :: ops, st =>
    if st.2.size_ < fuel then (Set.insert fuel st.1 st.2 key).bind (run fuel ops) else none
  | .del key :: ops, st =>
    if st.2.size_ < fuel then (Set.erase fuel st.1 st.2 key).bind (run fuel ops) else none

/-! ## The same functions with `rebalance` as a parameter; two containers in one heap -/

/-- Source `Set::insert(Node*, const T&)`, with the `rebalance` it calls as a parameter. -/
def insert_node_with (reb : Heap T → Nat → Option (Heap T × Nat)) :
    Nat → Heap T → Set T → Option Nat → T → Option (Heap T × Set T × Nat)
  | 0, _, _, _, _ => none
  | _ + 1, h, s, none, key =>
    let s1 : Set T := { s with size_ := s.size_ + 1 }
    let (h1, v) := alloc h key
    match s1.begin_ with
    | none => some (h1, { s1 with begin_ := some v }, v)
    | some b => do
      let bn ← rd h1 b
      if key < bn.value then pure (h1, { s1 with begin_ := some v }, v)
      else pure (h1, s1, v)
  | fuel + 1, h, s, some u, key => do
    let n ← rd h u
    if key < n.value then do
      let (h1, s1, c) ← insert_node_with reb fuel h s n.left key
      let h2 ← link_left h1 u (some c)
      let h3 ← update h2 u
      let (h4, r) ← reb h3 u
      pure (h4, s1, r)
    else if n.value < key then do
      let (h1, s1, c) ← insert_node_with reb fuel h s n.right key
      let h2 ← link_right h1 u (some c)
      let h3 ← update h2 u
      let (h4, r) ← reb h3 u
      pure (h4, s1, r)
    else pure (h, s, u)

/-- Source `Set::erase(Node*, const T&)`, with the `rebalance` it and `remove_min` call as a
parameter. -/
def erase_node_with (reb : Heap T → Nat → Option (Heap T × Nat)) :
    Nat → Heap T → Set T → Option Nat → T → Option (Heap T × Set T × Option Nat)
  | 0, _, _, _, _ => none
  | _ + 1, h, s, none, _ => some (h, s, none)
  | fuel + 1, h, s, some u, key => do
    let n ← rd h u
    if key < n.value then do
      let (h1, s1, c) ← erase_node_with reb fuel h s n.left key
      let h2 ← link_left h1 u c
      let h3 ← update h2 u
      let (h4, r) ← reb h3 u
      pure (h4, s1, some r)
    else if n.value < key then do
      let (h1, s1, c) ← erase_node_with reb fuel h s n.right key
      let h2 ← link_right h1 u c
      let h3 ← update h2 u
      let (h4, r) ← reb h3 u
      pure (h4, s1, some r)
    else do
      let s1 : Set T := { s with size_ := dec_size s.size_ }
      let b ← if s1.begin_ = some u then iterator_inc fuel h s1.begin_ else pure s1.begin_
      let s2 : Set T := { s1 with begin_ := b }
      match n.right with
      | none => pure (dealloc h u, s2, n.left)
      | some r => do
        let v ← find_min fuel h r
        let (h1, r1) ← remove_min_with reb fuel h r
        let h2 ← link_right h1 v r1
        let n2 ← rd h2 u
        let h3 ← link_left h2 v n2.left
        let h4 ← update h3 v
        let h5 := dealloc h4 u
        let (h6, w) ← reb h5 v
        pure (h6, s2, some w)

/-- Source `Set::insert(const T&)`, with the `rebalance` in use as a parameter. -/
def Set.insert_with (reb : Heap T → Nat → Option (Heap T × Nat)) (fuel : Nat) (h : Heap T)
    (s : Set T) (key : T) : Option (Heap T × Set T) := do
  let (h1, s1, r) ← insert_node_with reb fuel h s s.root_ key
  let n ← rd h1 r
  pure (wr h1 r { n with parent := none }, { s1 with root_ := some r })

/-- Source `Set::erase(const T&)`, with the `rebalance` in use as a parameter. -/
def Set.erase_with (reb : Heap T → Nat → Option (Heap T × Nat)) (fuel : Nat) (h : Heap T)
    (s : Set T) (key : T) : Option (Heap T × Set T) := do
  let (h1, s1, r) ← erase_node_with reb fuel h s s.root_ key
  match r with
  | none => pure (h1, { s1 with root_ := none })
  | some a => do
    let n ← rd h1 a
    pure (wr h1 a { n with parent := none }, { s1 with root_ := some a })

/-- A sequence of public calls as in `run`, with the `rebalance` in use as a parameter. -/
def run_with (reb : Heap T → Nat → Option (Heap T × Nat)) (fuel : Nat) :
    List (Op T) → Heap T × Set T → Option (Heap T × Set T)
  | [], st => some st
  | .ins key :: ops, st =>
    if st.2.size_ < fuel then
      (Set.insert_with reb fuel st.1 st.2 key).bind (run_with reb fuel ops)
    else none
  | .del key :: ops, st =>
    if st.2.size_ < fuel then
      (Set.erase_with reb fuel st.1 st.2 key).bind (run_with reb fuel ops)
    else none

/-- Two containers in one heap: both default-constructed, then any finite sequence of
`insert` and `erase` calls on either, of copy constructions of a new second container from
the first, and of copy assignments of the first to the second; `swap` exchanges the roles. -/
inductive Reachable2 : Heap T → Set T → Set T → Prop
  | empty (h : Heap T) : Reachable2 h Set.fresh Set.fresh
  | swap {h : Heap T} {a b : Set T} : Reachable2 h a b → Reachable2 h b a
  | insert {h h1 : Heap T} {a a1 b : Set T} (fuel : Nat) (key : T) :
      Reachable2 h a b → a.size_ < fuel → Set.insert fuel h a key = some (h1, a1) →
      Reachable2 h1 a1 b
  | erase {h h1 : Heap T} {a a1 b : Set T} (fuel : Nat) (key : T) :
      Reachable2 h a b → a.size_ < fuel → Set.erase fuel h a key = some (h1, a1) →
      Reachable2 h1 a1 b
  | copy {h h1 : Heap T} {a b c : Set T} (fuel : Nat) :
      Reachable2 h a b → a.size_ < fuel → Set.copy_construct fuel h a = some (h1, c) →
      Reachable2 h1 a c
  | assign {h h1 : Heap T} {a b b1 : Set T} (fuel : Nat) :
      Reachable2 h a b → a.size_ < fuel → b.size_ < fuel →
      Set.assign fuel h b a false = some (h1, b1) → Reachable2 h1 a b1

end ordered

/-! ## Reading and writing cells; elementary facts about `Rep` -/

@[simp] theorem Tree.ptr_nil : (nil : Tree T).ptr = none := rfl

@[simp] theorem Tree.ptr_node (l : Tree T) (a : Nat) (v : T) (ht : Int) (r : Tree T) :
    (node l a v ht r).ptr = some a := rfl

@[simp] theorem Tree.hgt_nil : (nil : Tree T).hgt = 0 := rfl

@[simp] theorem Tree.hgt_node (l : Tree T) (a : Nat) (v : T) (ht : Int) (r : Tree T) :
    (node l a v ht r).hgt = ht := rfl

theorem rd_lt {h : Heap T} {a : Nat} {n : Node T} (hr : rd h a = some n) : a < h.length := by
  unfold rd at hr
  by_contra hc
  rw [List.getElem?_eq_none (by omega)] at hr
  simp at hr

theorem rd_wr_self {h : Heap T} {a : Nat} (n : Node T) (ha : a < h.length) :
    rd (wr h a n) a = some n := by
  simp [rd, wr, List.getElem?_set, ha]

theorem rd_wr_ne {h : Heap T} {a b : Nat} (n : Node T) (hne : a ≠ b) :
    rd (wr h a n) b = rd h b := by
  simp [rd, wr, List.getElem?_set, hne]

theorem length_wr (h : Heap T) (a : Nat) (n : Node T) : (wr h a n).length = h.length := by
  simp [wr]

theorem rd_dealloc_ne {h : Heap T} {a b : Nat} (hne : a ≠ b) :
    rd (dealloc h a) b = rd h b := by
  simp [rd, dealloc, List.getElem?_set, hne]

theorem length_dealloc (h : Heap T) (a : Nat) : (dealloc h a).length = h.length := by
  simp [dealloc]

theorem rd_append_old {h : Heap T} {a : Nat} (x : Option (Node T)) (ha : a < h.length) :
    rd (h ++ [x]) a = rd h a := by
  simp [rd, List.getElem?_append_left ha]

theorem rd_append_new (h : Heap T) (n : Node T) : rd (h ++ [some n]) h.length = some n := by
  simp [rd]

theorem Rep.lt {h : Heap T} : ∀ {t : Tree T} {p : Option Nat}, Rep h t p →
    ∀ x ∈ t.addrs, x < h.length
  | .nil, _, _, x, hx => by simp [Tree.addrs] at hx
  | .node l a v ht r, p, hrep, x, hx => by
    obtain ⟨h1, h2, h3⟩ := hrep
    simp [Tree.addrs] at hx
    rcases hx with hx | hx | hx
    · exact Rep.lt h2 x hx
    · subst hx; exact rd_lt h1
    · exact Rep.lt h3 x hx

theorem Rep.frame {h h' : Heap T} : ∀ {t : Tree T} {p : Option Nat}, Rep h t p →
    (∀ x ∈ t.addrs, rd h' x = rd h x) → Rep h' t p
  | .nil, _, _, _ => trivial
  | .node l a v ht r, p, hrep, hf => by
    obtain ⟨h1, h2, h3⟩ := hrep
    refine ⟨?_, Rep.frame h2 ?_, Rep.frame h3 ?_⟩
    · rw [hf a (by simp [Tree.addrs])]; exact h1
    · intro x hx; exact hf x (by simp [Tree.addrs, hx])
    · intro x hx; exact hf x (by simp [Tree.addrs, hx])

theorem Rep.height_eq {h : Heap T} {t : Tree T} {p : Option Nat} (hrep : Rep h t p) :
    get_height h t.ptr = some t.hgt := by
  cases t with
  | nil => rfl
  | node l a v ht r => simp [get_height, hrep.1]

theorem Tree.nodup_node {l : Tree T} {a : Nat} {v : T} {ht : Int} {r : Tree T} :
    (Tree.node l a v ht r).addrs.Nodup ↔
      l.addrs.Nodup ∧ r.addrs.Nodup ∧ a ∉ l.addrs ∧ a ∉ r.addrs ∧
        ∀ x ∈ l.addrs, x ∉ r.addrs := by
  simp only [Tree.addrs, List.nodup_append, List.nodup_cons, List.Disjoint, List.mem_cons]
  constructor
  · rintro ⟨h1, ⟨h2, h3⟩, h5⟩
    exact ⟨h1, h3, fun hx => h5 hx (Or.inl rfl), h2, fun x hx hr => h5 hx (Or.inr hr)⟩
  · rintro ⟨h1, h2, h3, h4, h5⟩
    refine ⟨h1, ⟨h4, h2⟩, ?_⟩
    intro x hx hr
    rcases hr with rfl | hr
    · exact h3 hx
    · exact h5 x hx hr

theorem Rep.wr_other {h : Heap T} {t : Tree T} {p : Option Nat} (hrep : Rep h t p)
    {a : Nat} (ha : a ∉ t.addrs) (n : Node T) : Rep (wr h a n) t p :=
  hrep.frame fun _ hx => rd_wr_ne _ (fun e => ha (e ▸ hx))

theorem Rep.dealloc_other {h : Heap T} {t : Tree T} {p : Option Nat} (hrep : Rep h t p)
    {a : Nat} (ha : a ∉ t.addrs) : Rep (dealloc h a) t p :=
  hrep.frame fun _ hx => rd_dealloc_ne (fun e => ha (e ▸ hx))

/-- Writing a root cell above two subtrees already anchored at `a`. -/
theorem Rep.assemble {h : Heap T} {l r : Tree T} {a : Nat} (hl : Rep h l (some a))
    (hr : Rep h r (some a)) (ha : a < h.length) (hal : a ∉ l.addrs) (har : a ∉ r.addrs)
    (q : Option Nat) (ht : Int) (v : T) :
    Rep (wr h a ⟨l.ptr, r.ptr, q, ht, v⟩) (.node l a v ht r) q :=
  ⟨rd_wr_self _ ha, hl.wr_other hal _, hr.wr_other har _⟩

/-- Overwriting the root cell's `parent`, `height` and `value` fields. -/
theorem Rep.set_root {h : Heap T} {l : Tree T} {a : Nat} {v : T} {ht : Int} {r : Tree T}
    {p : Option Nat} (hrep : Rep h (.node l a v ht r) p)
    (hnd : (Tree.node l a v ht r).addrs.Nodup) (q : Option Nat) (ht1 : Int) (v1 : T) :
    Rep (wr h a ⟨l.ptr, r.ptr, q, ht1, v1⟩) (.node l a v1 ht1 r) q := by
  obtain ⟨h1, h2, h3⟩ := hrep
  obtain ⟨-, -, hl, hr, -⟩ := Tree.nodup_node.1 hnd
  exact Rep.assemble h2 h3 (rd_lt h1) hl hr q ht1 v1

/-! ## Refinement: `update`, `link_left`, `link_right` -/

theorem update_spec {h : Heap T} {l r : Tree T} {a : Nat} {v : T} {ht : Int} {p : Option Nat}
    (hrep : Rep h (.node l a v ht r) p) (hnd : (Tree.node l a v ht r).addrs.Nodup) :
    ∃ h', update h a = some h' ∧ Rep h' (Tree.update (.node l a v ht r)) p ∧
      (∀ y, y ≠ a → rd h' y = rd h y) ∧ h'.length = h.length := by
  refine ⟨wr h a ⟨l.ptr, r.ptr, p, max l.hgt r.hgt + 1, v⟩, ?_, ?_, ?_, length_wr _ _ _⟩
  · obtain ⟨h1, h2, h3⟩ := hrep
    simp [update, h1, h2.height_eq, h3.height_eq]
  · exact hrep.set_root hnd p _ v
  · intro y hy
    exact rd_wr_ne _ (Ne.symm hy)

/-- Linking `x` as the left child of `a`, whose cell already has `r` on the right. -/
theorem link_left_spec {h : Heap T} {x r : Tree T} {a : Nat} {v : T} {ht : Int}
    {p q c0 : Option Nat} (ha : rd h a = some ⟨c0, r.ptr, p, ht, v⟩)
    (hx : Rep h x q) (hr : Rep h r (some a)) (hnd : (Tree.node x a v ht r).addrs.Nodup) :
    ∃ h', link_left h a x.ptr = some h' ∧ Rep h' (.node x a v ht r) p ∧
      (∀ y, y ≠ a → y ∉ x.addrs → rd h' y = rd h y) ∧ h'.length = h.length := by
  obtain ⟨hxn, -, hax, har, hxr⟩ := Tree.nodup_node.1 hnd
  cases x with
  | nil =>
    refine ⟨wr h a ⟨none, r.ptr, p, ht, v⟩, ?_, ?_, ?_, length_wr _ _ _⟩
    · simp [link_left, ha]
    · exact Rep.assemble (l := .nil) trivial hr (rd_lt ha) hax har p ht v
    · intro y hy _
      exact rd_wr_ne _ (Ne.symm hy)
  | node xl c vc hc xr =>
    have hca : a ≠ c := fun e => hax (by simp [Tree.addrs, e])
    set h1 := wr h a ⟨some c, r.ptr, p, ht, v⟩ with hh1
    have hx1 : Rep h1 (.node xl c vc hc xr) q := hx.wr_other hax _
    have hx2 := hx1.set_root hxn (some a) hc vc
    refine ⟨wr h1 c ⟨xl.ptr, xr.ptr, some a, hc, vc⟩, ?_, ?_, ?_, ?_⟩
    · simp [link_left, ha, ← hh1, hx1.1]
    · refine ⟨?_, hx2, ?_⟩
      · rw [rd_wr_ne _ (Ne.symm hca), hh1, rd_wr_self _ (rd_lt ha)]
        rfl
      · refine (hr.wr_other har _).wr_other ?_ _
        exact hxr c (by simp [Tree.addrs])
    · intro y hy hyx
      rw [rd_wr_ne _ (fun e => hyx (by simp [Tree.addrs, e])), hh1, rd_wr_ne _ (Ne.symm hy)]
    · simp [length_wr, hh1]

/-- Linking `x` as the right child of `a`, whose cell already has `l` on the left. -/
theorem link_right_spec {h : Heap T} {l x : Tree T} {a : Nat} {v : T} {ht : Int}
    {p q c0 : Option Nat} (ha : rd h a = some ⟨l.ptr, c0, p, ht, v⟩)
    (hl : Rep h l (some a)) (hx : Rep h x q) (hnd : (Tree.node l a v ht x).addrs.Nodup) :
    ∃ h', link_right h a x.ptr = some h' ∧ Rep h' (.node l a v ht x) p ∧
      (∀ y, y ≠ a → y ∉ x.addrs → rd h' y = rd h y) ∧ h'.length = h.length := by
  obtain ⟨-, hxn, hal, hax, hlx⟩ := Tree.nodup_node.1 hnd
  cases x with
  | nil =>
    refine ⟨wr h a ⟨l.ptr, none, p, ht, v⟩, ?_, ?_, ?_, length_wr _ _ _⟩
    · simp [link_right, ha]
    · exact Rep.assemble (r := .nil) hl trivial (rd_lt ha) hal hax p ht v
    · intro y hy _
      exact rd_wr_ne _ (Ne.symm hy)
  | node xl c vc hc xr =>
    have hca : a ≠ c := fun e => hax (by simp [Tree.addrs, e])
    set h1 := wr h a ⟨l.ptr, some c, p, ht, v⟩ with hh1
    have hx1 : Rep h1 (.node xl c vc hc xr) q := hx.wr_other hax _
    have hx2 := hx1.set_root hxn (some a) hc vc
    refine ⟨wr h1 c ⟨xl.ptr, xr.ptr, some a, hc, vc⟩, ?_, ?_, ?_, ?_⟩
    · simp [link_right, ha, ← hh1, hx1.1]
    · refine ⟨?_, ?_, hx2⟩
      · rw [rd_wr_ne _ (Ne.symm hca), hh1, rd_wr_self _ (rd_lt ha)]
        rfl
      · refine (hl.wr_other hal _).wr_other ?_ _
        intro hcl
        exact hlx c hcl (by simp [Tree.addrs])
    · intro y hy hyx
      rw [rd_wr_ne _ (fun e => hyx (by simp [Tree.addrs, e])), hh1, rd_wr_ne _ (Ne.symm hy)]
    · simp [length_wr, hh1]

/-! ## Refinement: rotations and `rebalance` -/

@[simp] theorem Tree.update_node (l : Tree T) (a : Nat) (v : T) (ht : Int) (r : Tree T) :
    (node l a v ht r).update = node l a v (max l.hgt r.hgt + 1) r := rfl

@[simp] theorem Tree.addrs_nil : (nil : Tree T).addrs = [] := rfl

@[simp] theorem Tree.addrs_node (l : Tree T) (a : Nat) (v : T) (ht : Int) (r : Tree T) :
    (node l a v ht r).addrs = l.addrs ++ a :: r.addrs := rfl

@[simp] theorem Tree.keys_nil : (nil : Tree T).keys = [] := rfl

@[simp] theorem Tree.keys_node (l : Tree T) (a : Nat) (v : T) (ht : Int) (r : Tree T) :
    (node l a v ht r).keys = l.keys ++ v :: r.keys := rfl

@[simp] theorem Tree.nodes_nil : (nil : Tree T).nodes = [] := rfl

@[simp] theorem Tree.nodes_node (l : Tree T) (a : Nat) (v : T) (ht : Int) (r : Tree T) :
    (node l a v ht r).nodes = l.nodes ++ (a, v) :: r.nodes := rfl

theorem Tree.addrs_eq_map : ∀ t : Tree T, t.addrs = t.nodes.map Prod.fst
  | nil => rfl
  | node l a v ht r => by simp [addrs_eq_map l, addrs_eq_map r]

theorem Tree.keys_eq_map : ∀ t : Tree T, t.keys = t.nodes.map Prod.snd
  | nil => rfl
  | node l a v ht r => by simp [keys_eq_map l, keys_eq_map r]

theorem Tree.size_eq_length : ∀ t : Tree T, t.size = t.nodes.length
  | nil => rfl
  | node l a v ht r => by simp [size, size_eq_length l, size_eq_length r]; omega

theorem Tree.rotate_right_nodes {t t1 : Tree T} (hrot : t.rotate_right = some t1) :
    t1.nodes = t.nodes := by
  match t, hrot with
  | node (node ll b vb hb lr) a v ht r, hrot =>
    simp only [rotate_right, Option.some.injEq] at hrot
    subst hrot
    simp

theorem Tree.rotate_left_nodes {t t1 : Tree T} (hrot : t.rotate_left = some t1) :
    t1.nodes = t.nodes := by
  match t, hrot with
  | node l a v ht (node rl b vb hb rr), hrot =>
    simp only [rotate_left, Option.some.injEq] at hrot
    subst hrot
    simp

theorem Tree.rotate_right_addrs {t t1 : Tree T} (hrot : t.rotate_right = some t1) :
    t1.addrs = t.addrs ∧ t1.keys = t.keys := by
  match t, hrot with
  | node (node ll b vb hb lr) a v ht r, hrot =>
    simp only [rotate_right, Option.some.injEq] at hrot
    subst hrot
    simp

theorem Tree.rotate_left_addrs {t t1 : Tree T} (hrot : t.rotate_left = some t1) :
    t1.addrs = t.addrs ∧ t1.keys = t.keys := by
  match t, hrot with
  | node l a v ht (node rl b vb hb rr), hrot =>
    simp only [rotate_left, Option.some.injEq] at hrot
    subst hrot
    simp

theorem rotate_right_spec {h : Heap T} {l r t1 : Tree T} {a : Nat} {v : T} {ht : Int}
    {p : Option Nat} (hrep : Rep h (.node l a v ht r) p)
    (hnd : (Tree.node l a v ht r).addrs.Nodup)
    (hrot : (Tree.node l a v ht r).rotate_right = some t1) :
    Refines h (.node l a v ht r) (rotate_right h a) t1 := by
  match l, hrep, hnd, hrot with
  | .node ll b vb hb lr, hrep, hnd, hrot =>
    simp only [Tree.rotate_right, Option.some.injEq] at hrot
    subst hrot
    obtain ⟨ha, ⟨hb1, hll, hlr⟩, hr⟩ := hrep
    obtain ⟨hln, hrn, hal, har, hlr_disj⟩ := Tree.nodup_node.1 hnd
    obtain ⟨hlln, hlrn, hbll, hblr, hll_lr⟩ := Tree.nodup_node.1 hln
    have hab : a ≠ b := fun e => hal (by simp [e])
    -- link_left(u, res->right)
    have hnd1 : (Tree.node lr a v ht r).addrs.Nodup :=
      Tree.nodup_node.2 ⟨hlrn, hrn, fun hx => hal (by simp [hx]), har,
        fun x hx => hlr_disj x (by simp [hx])⟩
    obtain ⟨h1, e1, rep1, fr1, len1⟩ := link_left_spec ha hlr hr hnd1
    have hb2 : rd h1 b = some ⟨ll.ptr, lr.ptr, some a, hb, vb⟩ := by
      rw [fr1 b (Ne.symm hab) hblr]; exact hb1
    have hll1 : Rep h1 ll (some b) := hll.frame fun x hx =>
      fr1 x (fun e => hal (by simp [← e, hx])) (fun hx2 => hll_lr x hx hx2)
    -- link_right(res, u)
    have hnd2 : (Tree.node ll b vb hb (Tree.node lr a v ht r)).addrs.Nodup := by
      refine Tree.nodup_node.2 ⟨hlln, hnd1, hbll, ?_, ?_⟩
      · simp only [Tree.addrs_node, List.mem_append, List.mem_cons, not_or]
        exact ⟨hblr, Ne.symm hab, fun hx => hlr_disj b (by simp) hx⟩
      · intro x hx
        simp only [Tree.addrs_node, List.mem_append, List.mem_cons, not_or]
        exact ⟨hll_lr x hx, fun e => hal (by simp [← e, hx]),
          hlr_disj x (by simp [hx])⟩
    obtain ⟨h2, e2, rep2, fr2, len2⟩ := link_right_spec hb2 hll1 rep1 hnd2
    -- update(u)
    obtain ⟨hb3, hll2, rep2a⟩ := rep2
    obtain ⟨h3, e3, rep3, fr3, len3⟩ := update_spec rep2a hnd1
    have hnd3 : (Tree.node ll b vb hb (Tree.update (.node lr a v ht r))).addrs.Nodup := by
      simpa using hnd2
    have rep3b : Rep h3 (.node ll b vb hb (Tree.update (.node lr a v ht r))) (some a) := by
      refine ⟨?_, hll2.frame fun x hx => fr3 x (fun e => hal (by simp [← e, hx])), rep3⟩
      rw [fr3 b (Ne.symm hab)]
      exact hb3
    -- update(res)
    obtain ⟨h4, e4, rep4, fr4, len4⟩ := update_spec rep3b hnd3
    refine ⟨h4, b, ?_, rfl, ⟨_, rep4⟩, ?_, by omega⟩
    · simp only [Tree.ptr_node] at e1 e2
      simp [rotate_right, ha, hb1, e1, e2, e3, e4]
    · intro y hy
      simp only [Tree.addrs_node, List.mem_append, List.mem_cons, not_or] at hy
      obtain ⟨⟨hy1, hy2, hy3⟩, hy4, hy5⟩ := hy
      rw [fr4 y hy2, fr3 y hy4, fr2 y hy2 (by simp [hy3, hy4, hy5]), fr1 y hy4 hy3]

theorem rotate_left_spec {h : Heap T} {l r t1 : Tree T} {a : Nat} {v : T} {ht : Int}
    {p : Option Nat} (hrep : Rep h (.node l a v ht r) p)
    (hnd : (Tree.node l a v ht r).addrs.Nodup)
    (hrot : (Tree.node l a v ht r).rotate_left = some t1) :
    Refines h (.node l a v ht r) (rotate_left h a) t1 := by
  match r, hrep, hnd, hrot with
  | .node rl b vb hb rr, hrep, hnd, hrot =>
    simp only [Tree.rotate_left, Option.some.injEq] at hrot
    subst hrot
    obtain ⟨ha, hl, ⟨hb1, hrl, hrr⟩⟩ := hrep
    obtain ⟨hln, hrn, hal, har, hlr_disj⟩ := Tree.nodup_node.1 hnd
    obtain ⟨hrln, hrrn, hbrl, hbrr, hrl_rr⟩ := Tree.nodup_node.1 hrn
    have hab : a ≠ b := fun e => har (by simp [e])
    -- link_right(u, res->left)
    have hnd1 : (Tree.node l a v ht rl).addrs.Nodup :=
      Tree.nodup_node.2 ⟨hln, hrln, hal, fun hx => har (by simp [hx]),
        fun x hx hx2 => hlr_disj x hx (by simp [hx2])⟩
    obtain ⟨h1, e1, rep1, fr1, len1⟩ := link_right_spec ha hl hrl hnd1
    have hb2 : rd h1 b = some ⟨rl.ptr, rr.ptr, some a, hb, vb⟩ := by
      rw [fr1 b (Ne.symm hab) hbrl]; exact hb1
    have hrr1 : Rep h1 rr (some b) := hrr.frame fun x hx =>
      fr1 x (fun e => har (by simp [← e, hx])) (fun hx2 => hrl_rr x hx2 hx)
    -- link_left(res, u)
    have hnd2 : (Tree.node (Tree.node l a v ht rl) b vb hb rr).addrs.Nodup := by
      refine Tree.nodup_node.2 ⟨hnd1, hrrn, ?_, hbrr, ?_⟩
      · simp only [Tree.addrs_node, List.mem_append, List.mem_cons, not_or]
        exact ⟨fun hx => hlr_disj b hx (by simp), Ne.symm hab, hbrl⟩
      · intro x hx
        simp only [Tree.addrs_node, List.mem_append, List.mem_cons] at hx
        rcases hx with hx | rfl | hx
        · exact fun hx2 => hlr_disj x hx (by simp [hx2])
        · exact fun hx2 => har (by simp [hx2])
        · exact hrl_rr x hx
    obtain ⟨h2, e2, rep2, fr2, len2⟩ := link_left_spec hb2 rep1 hrr1 hnd2
    -- update(u)
    obtain ⟨hb3, rep2a, hrr2⟩ := rep2
    obtain ⟨h3, e3, rep3, fr3, len3⟩ := update_spec rep2a hnd1
    have hnd3 : (Tree.node (Tree.update (.node l a v ht rl)) b vb hb rr).addrs.Nodup := by
      simpa using hnd2
    have rep3b : Rep h3 (.node (Tree.update (.node l a v ht rl)) b vb hb rr) (some a) := by
      refine ⟨?_, rep3, hrr2.frame fun x hx => fr3 x (fun e => har (by simp [← e, hx]))⟩
      rw [fr3 b (Ne.symm hab)]
      exact hb3
    -- update(res)
    obtain ⟨h4, e4, rep4, fr4, len4⟩ := update_spec rep3b hnd3
    refine ⟨h4, b, ?_, rfl, ⟨_, rep4⟩, ?_, by omega⟩
    · simp only [Tree.ptr_node] at e1 e2
      simp [rotate_left, ha, hb1, e1, e2, e3, e4]
    · intro y hy
      simp only [Tree.addrs_node, List.mem_append, List.mem_cons, not_or] at hy
      obtain ⟨hy1, hy2, hy3, hy4, hy5⟩ := hy
      rw [fr4 y hy4, fr3 y hy2, fr2 y hy4 (by simp [hy1, hy2, hy3]), fr1 y hy2 hy3]

theorem get_diff_spec {h : Heap T} {l r : Tree T} {a : Nat} {v : T} {ht : Int}
    {p : Option Nat} (hrep : Rep h (.node l a v ht r) p) :
    get_diff h a = some (l.hgt - r.hgt) := by
  obtain ⟨ha, hl, hr⟩ := hrep
  simp [get_diff, ha, hl.height_eq, hr.height_eq]

theorem rotate_left_big_spec {h : Heap T} {l r t1 : Tree T} {a : Nat} {v : T} {ht : Int}
    {p : Option Nat} (hrep : Rep h (.node l a v ht r) p)
    (hnd : (Tree.node l a v ht r).addrs.Nodup)
    (hrot : (Tree.node l a v ht r).rotate_left_big = some t1) :
    Refines h (.node l a v ht r) (rotate_left_big h a) t1 := by
  simp only [Tree.rotate_left_big, Option.bind_eq_bind, Option.bind_eq_some] at hrot
  obtain ⟨r1, hr1, hrot2⟩ := hrot
  obtain ⟨ha, hl, hr⟩ := hrep
  obtain ⟨hln, hrn, hal, har, hlr_disj⟩ := Tree.nodup_node.1 hnd
  match r, hr1, hr, hrn, har, hlr_disj, ha with
  | .node rl b vb hb rr, hr1, hr, hrn, har, hlr_disj, ha =>
    obtain ⟨h1, x, e1, hx, ⟨p1, rep1⟩, fr1, len1⟩ := rotate_right_spec hr hrn hr1
    have hadd := (Tree.rotate_right_addrs hr1).1
    have ha1 : rd h1 a = some ⟨l.ptr, some b, p, ht, v⟩ := by rw [fr1 a har]; exact ha
    have hl1 : Rep h1 l (some a) := hl.frame fun y hy => fr1 y (hlr_disj y hy)
    have hnd2 : (Tree.node l a v ht r1).addrs.Nodup := by
      rw [Tree.addrs_node, hadd]; exact hnd
    obtain ⟨h2, e2, rep2, fr2, len2⟩ := link_right_spec ha1 hl1 rep1 hnd2
    obtain ⟨h3, c, e3, hc, rep3, fr3, len3⟩ := rotate_left_spec rep2 hnd2 hrot2
    refine ⟨h3, c, ?_, hc, rep3, ?_, by omega⟩
    · rw [hx] at e2
      simp [rotate_left_big, ha, e1, e2, e3]
    · intro y hy
      have hy2 : y ∉ (Tree.node l a v ht r1).addrs := by
        rw [Tree.addrs_node, hadd]; exact hy
      rw [fr3 y hy2]
      simp only [Tree.addrs_node, List.mem_append, List.mem_cons, not_or] at hy2 hy
      rw [fr2 y hy2.2.1 hy2.2.2, fr1 y (by simp [hy.2.2])]

theorem rotate_right_big_spec {h : Heap T} {l r t1 : Tree T} {a : Nat} {v : T} {ht : Int}
    {p : Option Nat} (hrep : Rep h (.node l a v ht r) p)
    (hnd : (Tree.node l a v ht r).addrs.Nodup)
    (hrot : (Tree.node l a v ht r).rotate_right_big = some t1) :
    Refines h (.node l a v ht r) (rotate_right_big h a) t1 := by
  simp only [Tree.rotate_right_big, Option.bind_eq_bind, Option.bind_eq_some] at hrot
  obtain ⟨l1, hl1, hrot2⟩ := hrot
  obtain ⟨ha, hl, hr⟩ := hrep
  obtain ⟨hln, hrn, hal, har, hlr_disj⟩ := Tree.nodup_node.1 hnd
  match l, hl1, hl, hln, hal, hlr_disj, ha with
  | .node ll b vb hb lr, hl1, hl, hln, hal, hlr_disj, ha =>
    obtain ⟨h1, x, e1, hx, ⟨p1, rep1⟩, fr1, len1⟩ := rotate_left_spec hl hln hl1
    have hadd := (Tree.rotate_left_addrs hl1).1
    have ha1 : rd h1 a = some ⟨some b, r.ptr, p, ht, v⟩ := by rw [fr1 a hal]; exact ha
    have hr1 : Rep h1 r (some a) := hr.frame fun y hy => fr1 y (fun hy2 => hlr_disj y hy2 hy)
    have hnd2 : (Tree.node l1 a v ht r).addrs.Nodup := by
      rw [Tree.addrs_node, hadd]; exact hnd
    obtain ⟨h2, e2, rep2, fr2, len2⟩ := link_left_spec ha1 rep1 hr1 hnd2
    obtain ⟨h3, c, e3, hc, rep3, fr3, len3⟩ := rotate_right_spec rep2 hnd2 hrot2
    refine ⟨h3, c, ?_, hc, rep3, ?_, by omega⟩
    · rw [hx] at e2
      simp [rotate_right_big, ha, e1, e2, e3]
    · intro y hy
      have hy2 : y ∉ (Tree.node l1 a v ht r).addrs := by
        rw [Tree.addrs_node, hadd]; exact hy
      rw [fr3 y hy2]
      simp only [Tree.addrs_node, List.mem_append, List.mem_cons, not_or] at hy2 hy
      rw [fr2 y hy2.2.1 hy2.1, fr1 y (by simp [hy.1])]

theorem rebalance_spec {h : Heap T} {l r t1 : Tree T} {a : Nat} {v : T} {ht : Int}
    {p : Option Nat} (hrep : Rep h (.node l a v ht r) p)
    (hnd : (Tree.node l a v ht r).addrs.Nodup)
    (hreb : (Tree.node l a v ht r).rebalance = some t1) :
    Refines h (.node l a v ht r) (rebalance h a) t1 := by
  have hd := get_diff_spec hrep
  simp only [Tree.rebalance] at hreb
  simp only [rebalance, hd, Option.bind_eq_bind, Option.some_bind]
  by_cases c1 : |l.hgt - r.hgt| < 2
  · simp only [c1, ↓reduceIte, Option.some.injEq] at hreb ⊢
    subst hreb
    exact ⟨h, a, rfl, rfl, ⟨p, hrep⟩, fun _ _ => rfl, rfl⟩
  by_cases c2 : l.hgt - r.hgt = -2
  · rw [if_neg c1, if_pos c2] at hreb ⊢
    simp only [Option.bind_eq_bind, Option.bind_eq_some] at hreb ⊢
    obtain ⟨dr, hdr, hreb⟩ := hreb
    match r, hdr, hrep, hnd, hreb with
    | .node rl b vb hb rr, hdr, hrep, hnd, hreb =>
      have hd2 := get_diff_spec hrep.2.2
      simp only [Tree.diff, Option.some.injEq] at hdr
      simp only [hrep.1, Option.some_bind, Tree.ptr_node, hd2, hdr]
      by_cases c3 : dr ≤ 0
      · simp only [c3, ↓reduceIte] at hreb ⊢
        exact rotate_left_spec hrep hnd hreb
      · simp only [c3, ↓reduceIte] at hreb ⊢
        exact rotate_left_big_spec hrep hnd hreb
  · rw [if_neg c1, if_neg c2] at hreb ⊢
    simp only [Option.bind_eq_bind, Option.bind_eq_some] at hreb ⊢
    obtain ⟨dl, hdl, hreb⟩ := hreb
    match l, hdl, hrep, hnd, hreb with
    | .node ll b vb hb lr, hdl, hrep, hnd, hreb =>
      have hd2 := get_diff_spec hrep.2.1
      simp only [Tree.diff, Option.some.injEq] at hdl
      simp only [hrep.1, Option.some_bind, Tree.ptr_node, hd2, hdl]
      by_cases c3 : dl ≥ 0
      · simp only [c3, ↓reduceIte] at hreb ⊢
        exact rotate_right_spec hrep hnd hreb
      · simp only [c3, ↓reduceIte] at hreb ⊢
        exact rotate_right_big_spec hrep hnd hreb

theorem Tree.rotate_left_big_nodes {t t1 : Tree T} (hrot : t.rotate_left_big = some t1) :
    t1.nodes = t.nodes := by
  match t, hrot with
  | node l a v ht r, hrot =>
    simp only [rotate_left_big, Option.bind_eq_bind, Option.bind_eq_some] at hrot
    obtain ⟨r1, h1, h2⟩ := hrot
    rw [rotate_left_nodes h2, nodes_node, rotate_right_nodes h1, nodes_node]

theorem Tree.rotate_right_big_nodes {t t1 : Tree T} (hrot : t.rotate_right_big = some t1) :
    t1.nodes = t.nodes := by
  match t, hrot with
  | node l a v ht r, hrot =>
    simp only [rotate_right_big, Option.bind_eq_bind, Option.bind_eq_some] at hrot
    obtain ⟨l1, h1, h2⟩ := hrot
    rw [rotate_right_nodes h2, nodes_node, rotate_left_nodes h1, nodes_node]

theorem Tree.rebalance_nodes {t t1 : Tree T} (hreb : t.rebalance = some t1) :
    t1.nodes = t.nodes := by
  match t, hreb with
  | node l a v ht r, hreb =>
    simp only [rebalance] at hreb
    split_ifs at hreb
    · simp only [Option.some.injEq] at hreb
      rw [← hreb]
    all_goals
      simp only [Option.bind_eq_bind, Option.bind_eq_some] at hreb
      obtain ⟨d, -, hreb⟩ := hreb
      split_ifs at hreb
    · exact rotate_left_nodes hreb
    · exact rotate_left_big_nodes hreb
    · exact rotate_right_nodes hreb
    · exact rotate_right_big_nodes hreb

theorem Tree.rebalance_addrs {t t1 : Tree T} (hreb : t.rebalance = some t1) :
    t1.addrs = t.addrs := by
  rw [addrs_eq_map, addrs_eq_map, rebalance_nodes hreb]

theorem Tree.rebalance_keys {t t1 : Tree T} (hreb : t.rebalance = some t1) :
    t1.keys = t.keys := by
  rw [keys_eq_map, keys_eq_map, rebalance_nodes hreb]

@[simp] theorem Tree.depth_nil : (Tree.nil : Tree T).depth = 0 := rfl

@[simp] theorem Tree.depth_node (l : Tree T) (a : Nat) (v : T) (ht : Int) (r : Tree T) :
    (Tree.node l a v ht r).depth = max l.depth r.depth + 1 := rfl

/-! ## The cached-height invariant through `rebalance` and `remove_min` -/

theorem Tree.Inv.hgt_nonneg : ∀ {t : Tree T}, Inv t → 0 ≤ t.hgt
  | nil, _ => le_refl _
  | node l a v ht r, hinv => by
    obtain ⟨hl, hr, -, -, hh⟩ := hinv
    have := hl.hgt_nonneg
    have := hr.hgt_nonneg
    rcases hh with hh | ⟨-, -, hh⟩ <;> simp only [hgt_node] <;> omega

/-- A tree whose cached height is positive is a node whose cached height is exact. -/
theorem Tree.Inv.of_pos {t : Tree T} (hinv : Inv t) (hpos : 0 < t.hgt) :
    ∃ l a v r, t = node l a v (max l.hgt r.hgt + 1) r ∧ Inv l ∧ Inv r ∧
      l.hgt ≤ r.hgt + 1 ∧ r.hgt ≤ l.hgt + 1 := by
  match t, hinv, hpos with
  | node l a v ht r, hinv, hpos =>
    obtain ⟨hl, hr, h1, h2, hh⟩ := hinv
    simp only [hgt_node] at hpos
    rcases hh with hh | ⟨-, -, hh⟩
    · exact ⟨l, a, v, r, by rw [hh], hl, hr, h1, h2⟩
    · omega

theorem Tree.Inv.mk_node {l r : Tree T} (hl : Inv l) (hr : Inv r) (a : Nat) (v : T)
    (h1 : l.hgt ≤ r.hgt + 1) (h2 : r.hgt ≤ l.hgt + 1) :
    Inv (node l a v (max l.hgt r.hgt + 1) r) :=
  ⟨hl, hr, h1, h2, Or.inl rfl⟩

/-- The step every mutation ends with: `update` then `rebalance` on a node whose subtrees
satisfy the invariant and whose cached heights differ by at most two. -/
theorem Tree.rebalance_inv {l r : Tree T} (a : Nat) (v : T) (hl : Inv l) (hr : Inv r)
    (h1 : l.hgt ≤ r.hgt + 2) (h2 : r.hgt ≤ l.hgt + 2) :
    ∃ t1, (node l a v (max l.hgt r.hgt + 1) r).rebalance = some t1 ∧ Inv t1 ∧
      max l.hgt r.hgt ≤ t1.hgt ∧ t1.hgt ≤ max l.hgt r.hgt + 1 ∧
      (l.hgt ≤ r.hgt + 1 → r.hgt ≤ l.hgt + 1 → t1.hgt = max l.hgt r.hgt + 1) ∧
      (l.hgt ≤ r.hgt + 1 → r.hgt ≤ l.hgt + 1 →
        t1 = node l a v (max l.hgt r.hgt + 1) r) := by
  have hl0 := hl.hgt_nonneg
  have hr0 := hr.hgt_nonneg
  by_cases c1 : |l.hgt - r.hgt| < 2
  · refine ⟨node l a v (max l.hgt r.hgt + 1) r, by simp only [rebalance, if_pos c1], ?_, ?_, ?_,
      fun _ _ => rfl, fun _ _ => rfl⟩
    · rw [abs_lt] at c1
      exact Inv.mk_node hl hr a v (by omega) (by omega)
    · simp only [hgt_node]; omega
    · simp only [hgt_node]; omega
  have c1' := c1
  rw [abs_lt] at c1'
  by_cases c2 : l.hgt - r.hgt = -2
  · obtain ⟨rl, b, vb, rr, rfl, hrl, hrr, g1, g2⟩ := hr.of_pos (by omega)
    have hrl0 := hrl.hgt_nonneg
    have hrr0 := hrr.hgt_nonneg
    simp only [hgt_node] at *
    by_cases c3 : rl.hgt - rr.hgt ≤ 0
    · refine ⟨_, (by simp only [rebalance, if_neg c1, if_pos c2, hgt_node, diff,
        Option.bind_eq_bind, Option.some_bind, if_pos c3, rotate_left]; exact rfl),
        ?_, ?_, ?_, ?_, ?_⟩
      · try simp only [update_node, hgt_node]
        exact Inv.mk_node (Inv.mk_node hl hrl a v (by omega) (by omega)) hrr b vb
          (by simp only [hgt_node]; omega) (by simp only [hgt_node]; omega)
      · simp only [update_node, hgt_node, true_and]; omega
      · simp only [update_node, hgt_node, true_and]; omega
      · intro _ _; omega
      · intro _ _; omega
    · obtain ⟨rll, c, vc, rlr, rfl, hrll, hrlr, g3, g4⟩ := hrl.of_pos (by omega)
      have hrll0 := hrll.hgt_nonneg
      have hrlr0 := hrlr.hgt_nonneg
      simp only [hgt_node] at *
      refine ⟨_, (by simp only [rebalance, if_neg c1, if_pos c2, hgt_node, diff,
        Option.bind_eq_bind, Option.some_bind, if_neg c3, rotate_left_big, rotate_right,
        rotate_left, update_node]; exact rfl), ?_, ?_, ?_, ?_, ?_⟩
      · try simp only [update_node, hgt_node]
        exact Inv.mk_node (Inv.mk_node hl hrll a v (by omega) (by omega))
          (Inv.mk_node hrlr hrr b vb (by omega) (by omega)) c vc
          (by simp only [hgt_node]; omega) (by simp only [hgt_node]; omega)
      · simp only [update_node, hgt_node, true_and]; omega
      · simp only [update_node, hgt_node, true_and]; omega
      · intro _ _; omega
      · intro _ _; omega
  · obtain ⟨ll, b, vb, lr, rfl, hll, hlr, g1, g2⟩ := hl.of_pos (by omega)
    have hll0 := hll.hgt_nonneg
    have hlr0 := hlr.hgt_nonneg
    simp only [hgt_node] at *
    by_cases c3 : ll.hgt - lr.hgt ≥ 0
    · refine ⟨_, (by simp only [rebalance, if_neg c1, if_neg c2, hgt_node, diff,
        Option.bind_eq_bind, Option.some_bind, if_pos c3, rotate_right]; exact rfl),
        ?_, ?_, ?_, ?_, ?_⟩
      · try simp only [update_node, hgt_node]
        exact Inv.mk_node hll (Inv.mk_node hlr hr a v (by omega) (by omega)) b vb
          (by simp only [hgt_node]; omega) (by simp only [hgt_node]; omega)
      · simp only [update_node, hgt_node, true_and]; omega
      · simp only [update_node, hgt_node, true_and]; omega
      · intro _ _; omega
      · intro _ _; omega
    · obtain ⟨lrl, c, vc, lrr, rfl, hlrl, hlrr, g3, g4⟩ := hlr.of_pos (by omega)
      have hlrl0 := hlrl.hgt_nonneg
      have hlrr0 := hlrr.hgt_nonneg
      simp only [hgt_node] at *
      refine ⟨_, (by simp only [rebalance, if_neg c1, if_neg c2, hgt_node, diff,
        Option.bind_eq_bind, Option.some_bind, if_neg c3, rotate_right_big, rotate_right,
        rotate_left, update_node]; exact rfl), ?_, ?_, ?_, ?_, ?_⟩
      · try simp only [update_node, hgt_node]
        exact Inv.mk_node (Inv.mk_node hll hlrl b vb (by omega) (by omega))
          (Inv.mk_node hlrr hr a v (by omega) (by omega)) c vc
          (by simp only [hgt_node]; omega) (by simp only [hgt_node]; omega)
      · simp only [update_node, hgt_node, true_and]; omega
      · simp only [update_node, hgt_node, true_and]; omega
      · intro _ _; omega
      · intro _ _; omega

theorem Tree.ptr_eq_none {t : Tree T} : t.ptr = none ↔ t = nil := by
  cases t <;> simp

theorem Tree.first_node_nil (a : Nat) (v : T) (ht : Int) (r : Tree T) :
    (node nil a v ht r).first = some (a, v) := rfl

theorem Tree.first_node_node (ll : Tree T) (b : Nat) (vb : T) (hb : Int) (lr : Tree T) (a : Nat)
    (v : T) (ht : Int) (r : Tree T) :
    (node (node ll b vb hb lr) a v ht r).first = (node ll b vb hb lr).first := rfl

theorem Tree.remove_min_node_nil (a : Nat) (v : T) (ht : Int) (r : Tree T) :
    (node nil a v ht r).remove_min = some r := rfl

theorem Tree.remove_min_node_node (ll : Tree T) (b : Nat) (vb : T) (hb : Int) (lr : Tree T)
    (a : Nat) (v : T) (ht : Int) (r : Tree T) :
    (node (node ll b vb hb lr) a v ht r).remove_min =
      (node ll b vb hb lr).remove_min.bind fun l1 => rebalance (update (node l1 a v ht r)) :=
  rfl

theorem Tree.first_eq_head : ∀ t : Tree T, t.first = t.nodes.head?
  | nil => rfl
  | node l a v ht r => by
    cases l with
    | nil => simp [first_node_nil]
    | node ll b vb hb lr =>
      have ih := first_eq_head (node ll b vb hb lr)
      rw [first_node_node, ih]
      simp [List.head?_append]

theorem Tree.remove_min_nodes : ∀ {t t1 : Tree T}, t.remove_min = some t1 → t1.nodes = t.nodes.tail
  | node l a v ht r, t1, hrm => by
    cases l with
    | nil =>
      simp only [remove_min_node_nil, Option.some.injEq] at hrm
      subst hrm
      simp
    | node ll b vb hb lr =>
      simp only [remove_min_node_node, Option.bind_eq_some] at hrm
      obtain ⟨l1, hl1, hreb⟩ := hrm
      have ih := remove_min_nodes hl1
      rw [rebalance_nodes hreb]
      have hne : ll.nodes ++ (b, vb) :: lr.nodes ≠ [] := by simp
      simp only [update_node, nodes_node, ih]
      rw [List.tail_append_of_ne_nil hne]

theorem Tree.first_some_of_ne_nil {t : Tree T} (hne : t ≠ nil) : ∃ m, t.first = some m := by
  rw [first_eq_head]
  cases t with
  | nil => exact absurd rfl hne
  | node l a v ht r =>
    cases hl : l.nodes with
    | nil => exact ⟨(a, v), by simp [hl]⟩
    | cons x xs => exact ⟨x, by simp [hl]⟩

theorem Tree.remove_min_inv : ∀ (t : Tree T), Inv t → t ≠ nil →
    ∃ t1, t.remove_min = some t1 ∧ Inv t1 ∧ t1.hgt ≤ t.hgt ∧ t.hgt ≤ t1.hgt + 1
  | nil, _, hne => absurd rfl hne
  | node l a v ht r, hinv, _ => by
    obtain ⟨hl, hr, g1, g2, hh⟩ := hinv
    have hl0 := hl.hgt_nonneg
    have hr0 := hr.hgt_nonneg
    cases l with
    | nil =>
      refine ⟨r, remove_min_node_nil _ _ _ _, hr, ?_, ?_⟩
      · rcases hh with hh | ⟨-, rfl, hh⟩ <;> simp only [hgt_node, hgt_nil] at * <;> omega
      · rcases hh with hh | ⟨-, rfl, hh⟩ <;> simp only [hgt_node, hgt_nil] at * <;> omega
    | node ll b vb hb lr =>
      obtain ⟨l1, e1, hl1, b1, b2⟩ := remove_min_inv (node ll b vb hb lr) hl (by simp)
      obtain ⟨t1, e2, ht1, b3, b4, b5, -⟩ :=
        rebalance_inv a v hl1 hr (by omega) (by omega)
      have hh2 : ht = max (node ll b vb hb lr).hgt r.hgt + 1 := by
        rcases hh with hh | ⟨hnil, -, -⟩
        · exact hh
        · simp at hnil
      refine ⟨t1, by rw [remove_min_node_node, e1]; simpa using e2, ht1, ?_, ?_⟩ <;>
        simp only [hgt_node] at * <;> omega

/-! ## Refinement: `find_min` and `remove_min` -/

theorem Tree.first_remove_min {t t1 : Tree T} {m : Nat × T} (hf : t.first = some m)
    (hrm : t.remove_min = some t1) : t.nodes = m :: t1.nodes := by
  rw [first_eq_head] at hf
  rw [remove_min_nodes hrm]
  cases hn : t.nodes with
  | nil => simp [hn] at hf
  | cons x xs =>
    simp only [hn, List.head?_cons, Option.some.injEq] at hf
    simp [hf]

theorem Tree.remove_min_addrs {t t1 : Tree T} (hrm : t.remove_min = some t1) :
    t1.addrs = t.addrs.tail := by
  rw [addrs_eq_map, addrs_eq_map, remove_min_nodes hrm, List.map_tail]

theorem Tree.first_remove_min_addrs {t t1 : Tree T} {m : Nat × T} (hf : t.first = some m)
    (hrm : t.remove_min = some t1) : t.addrs = m.1 :: t1.addrs := by
  rw [addrs_eq_map, addrs_eq_map, first_remove_min hf hrm, List.map_cons]

/-- The cell of the leftmost node has a null `left` and holds the leftmost key. -/
theorem Rep.first_cell {h : Heap T} : ∀ {t : Tree T} {p : Option Nat} {m : Nat × T},
    Rep h t p → t.first = some m → ∃ rt par hm, rd h m.1 = some ⟨none, rt, par, hm, m.2⟩
  | .node .nil a v ht r, p, m, hrep, hf => by
    simp only [Tree.first_node_nil, Option.some.injEq] at hf
    subst hf
    exact ⟨_, _, _, hrep.1⟩
  | .node (.node ll b vb hb lr) a v ht r, p, m, hrep, hf => by
    rw [Tree.first_node_node] at hf
    exact Rep.first_cell hrep.2.1 hf

theorem find_min_spec {h : Heap T} : ∀ (t : Tree T) {p : Option Nat} {m : Nat × T} {a : Nat}
    (fuel : Nat), Rep h t p → t.depth ≤ fuel → t.ptr = some a → t.first = some m →
    find_min fuel h a = some m.1
  | .node .nil a v ht r, p, m, a1, fuel, hrep, hfuel, hptr, hf => by
    obtain ⟨f, rfl⟩ : ∃ f, fuel = f + 1 := ⟨fuel - 1, by simp at hfuel; omega⟩
    simp only [Tree.first_node_nil, Option.some.injEq] at hf
    simp only [Tree.ptr_node, Option.some.injEq] at hptr
    subst hf hptr
    simp [find_min, hrep.1]
  | .node (.node ll b vb hb lr) a v ht r, p, m, a1, fuel, hrep, hfuel, hptr, hf => by
    obtain ⟨f, rfl⟩ : ∃ f, fuel = f + 1 := ⟨fuel - 1, by simp at hfuel; omega⟩
    rw [Tree.first_node_node] at hf
    simp only [Tree.ptr_node, Option.some.injEq] at hptr
    subst hptr
    have hd : (Tree.node ll b vb hb lr).depth ≤ f := by
      simp only [Tree.depth_node] at hfuel ⊢; omega
    have ih := find_min_spec (Tree.node ll b vb hb lr) f hrep.2.1 hd rfl hf
    simp [find_min, hrep.1, ih]

theorem remove_min_spec {h : Heap T} : ∀ (t : Tree T) {t1 : Tree T} {p : Option Nat} {a : Nat}
    (fuel : Nat), Rep h t p → t.addrs.Nodup → t.remove_min = some t1 → t.depth ≤ fuel →
    t.ptr = some a →
    ∃ h1, remove_min fuel h a = some (h1, t1.ptr) ∧ (∃ p1, Rep h1 t1 p1) ∧
      (∀ y, y ∉ t1.addrs → rd h1 y = rd h y) ∧ h1.length = h.length
  | .node .nil a v ht r, t1, p, a1, fuel, hrep, _, hrm, hfuel, hptr => by
    obtain ⟨f, rfl⟩ : ∃ f, fuel = f + 1 := ⟨fuel - 1, by simp at hfuel; omega⟩
    simp only [Tree.remove_min_node_nil, Option.some.injEq] at hrm
    simp only [Tree.ptr_node, Option.some.injEq] at hptr
    subst hrm hptr
    exact ⟨h, by simp [remove_min, hrep.1], ⟨_, hrep.2.2⟩, fun _ _ => rfl, rfl⟩
  | .node (.node ll b vb hb lr) a v ht r, t1, p, a1, fuel, hrep, hnd, hrm, hfuel, hptr => by
    obtain ⟨f, rfl⟩ : ∃ f, fuel = f + 1 := ⟨fuel - 1, by simp at hfuel; omega⟩
    simp only [Tree.remove_min_node_node, Option.bind_eq_some] at hrm
    obtain ⟨l1, hl1, hreb⟩ := hrm
    simp only [Tree.ptr_node, Option.some.injEq] at hptr
    subst hptr
    obtain ⟨ha, hl, hr⟩ := hrep
    obtain ⟨hln, hrn, hal, har, hlr⟩ := Tree.nodup_node.1 hnd
    have hd : (Tree.node ll b vb hb lr).depth ≤ f := by
      simp only [Tree.depth_node] at hfuel ⊢; omega
    obtain ⟨h1, e1, ⟨p1, rep1⟩, fr1, len1⟩ :=
      remove_min_spec (Tree.node ll b vb hb lr) f hl hln hl1 hd rfl
    have hsub : ∀ y ∈ l1.addrs, y ∈ (Tree.node ll b vb hb lr).addrs := by
      intro y hy
      rw [Tree.remove_min_addrs hl1] at hy
      exact List.mem_of_mem_tail hy
    have hl1n : l1.addrs.Nodup := by
      rw [Tree.remove_min_addrs hl1]
      exact hln.sublist (List.tail_sublist _)
    have hal1 : a ∉ l1.addrs := fun hx => hal (hsub a hx)
    have ha1 : rd h1 a = some ⟨some b, r.ptr, p, ht, v⟩ := by rw [fr1 a hal1]; exact ha
    have hr1 : Rep h1 r (some a) := hr.frame fun y hy =>
      fr1 y (fun hy2 => hlr y (hsub y hy2) hy)
    have hnd1 : (Tree.node l1 a v ht r).addrs.Nodup :=
      Tree.nodup_node.2 ⟨hl1n, hrn, hal1, har, fun y hy => hlr y (hsub y hy)⟩
    obtain ⟨h2, e2, rep2, fr2, len2⟩ := link_left_spec ha1 rep1 hr1 hnd1
    obtain ⟨h3, e3, rep3, fr3, len3⟩ := update_spec rep2 hnd1
    rw [Tree.update_node] at hreb rep3
    obtain ⟨h4, c, e4, hc4, rep4, fr4, len4⟩ := rebalance_spec rep3 hnd1 hreb
    refine ⟨h4, ?_, rep4, ?_, by omega⟩
    · simp [remove_min, ha, e1, e2, e3, e4, hc4]
    · intro y hy
      rw [Tree.rebalance_addrs hreb] at hy
      have hy' := hy
      simp only [Tree.addrs_node, List.mem_append, List.mem_cons, not_or] at hy'
      rw [fr4 y hy, fr3 y hy'.2.1, fr2 y hy'.2.1 hy'.1, fr1 y hy'.1]

/-! ## Iterator steps on a represented tree -/

theorem exit_right_top {h : Heap T} {x : Nat} {n : Node T} (hx : rd h x = some n)
    (hp : n.parent = none) (f : Nat) : exit_right (f + 1) h x = some none := by
  simp [exit_right, climb_from_right, hx, hp]

theorem exit_right_step {h : Heap T} {x q : Nat} {n m : Node T} (hx : rd h x = some n)
    (hp : n.parent = some q) (hq : rd h q = some m) (f : Nat) :
    exit_right (f + 1) h x = if m.right = some x then exit_right f h q else some (some q) := by
  by_cases c : m.right = some x <;> simp [exit_right, climb_from_right, hx, hp, hq, c]

theorem exit_left_top {h : Heap T} {x : Nat} {n : Node T} (hx : rd h x = some n)
    (hp : n.parent = none) (f : Nat) : exit_left (f + 1) h x = some none := by
  simp [exit_left, climb_from_left, hx, hp]

theorem exit_left_step {h : Heap T} {x q : Nat} {n m : Node T} (hx : rd h x = some n)
    (hp : n.parent = some q) (hq : rd h q = some m) (f : Nat) :
    exit_left (f + 1) h x = if m.left = some x then exit_left f h q else some (some q) := by
  by_cases c : m.left = some x <;> simp [exit_left, climb_from_left, hx, hp, hq, c]

theorem Tree.ptr_mem {t : Tree T} {a : Nat} (hp : t.ptr = some a) : a ∈ t.addrs := by
  cases t with
  | nil => simp at hp
  | node l b v ht r =>
    simp only [Tree.ptr_node, Option.some.injEq] at hp
    simp [hp]

theorem walk_left_spec {h : Heap T} : ∀ (t : Tree T) {p : Option Nat} {a : Nat} (fuel : Nat),
    Rep h t p → t.depth ≤ fuel → t.ptr = some a →
    ∃ b, t.addrs.head? = some b ∧ walk_left fuel h a = some b
  | .node l a v ht r, p, a1, fuel, hrep, hfuel, hptr => by
    obtain ⟨f, rfl⟩ : ∃ f, fuel = f + 1 := ⟨fuel - 1, by simp at hfuel; omega⟩
    simp only [Tree.ptr_node, Option.some.injEq] at hptr
    subst hptr
    cases l with
    | nil => exact ⟨a, by simp, by simp [walk_left, hrep.1]⟩
    | node ll b vb hb lr =>
      have hd : (Tree.node ll b vb hb lr).depth ≤ f := by
        simp only [Tree.depth_node] at hfuel ⊢; omega
      obtain ⟨c, hc, hw⟩ := walk_left_spec (Tree.node ll b vb hb lr) f hrep.2.1 hd rfl
      refine ⟨c, ?_, by simp [walk_left, hrep.1, hw]⟩
      rw [Tree.addrs_node, List.head?_append, hc, Option.or_some]

theorem walk_right_spec {h : Heap T} : ∀ (t : Tree T) {p : Option Nat} {a : Nat} (fuel : Nat),
    Rep h t p → t.depth ≤ fuel → t.ptr = some a →
    ∃ b, t.addrs.getLast? = some b ∧ walk_right fuel h a = some b
  | .node l a v ht r, p, a1, fuel, hrep, hfuel, hptr => by
    obtain ⟨f, rfl⟩ : ∃ f, fuel = f + 1 := ⟨fuel - 1, by simp at hfuel; omega⟩
    simp only [Tree.ptr_node, Option.some.injEq] at hptr
    subst hptr
    cases r with
    | nil => exact ⟨a, by simp, by simp [walk_right, hrep.1]⟩
    | node rl b vb hb rr =>
      have hd : (Tree.node rl b vb hb rr).depth ≤ f := by
        simp only [Tree.depth_node] at hfuel ⊢; omega
      obtain ⟨c, hc, hw⟩ := walk_right_spec (Tree.node rl b vb hb rr) f hrep.2.2 hd rfl
      refine ⟨c, ?_, by simp [walk_right, hrep.1, hw]⟩
      rw [Tree.addrs_node, show l.addrs ++ a :: (Tree.node rl b vb hb rr).addrs =
        (l.addrs ++ [a]) ++ (Tree.node rl b vb hb rr).addrs by simp]
      rw [List.getLast?_append, hc]
      rfl

theorem inc_at_root {h : Heap T} {l r : Tree T} {a : Nat} {v : T} {ht : Int}
    {p nx : Option Nat} {c : Nat} (hrep : Rep h (.node l a v ht r) p)
    (hup : ∀ f, c ≤ f → exit_right f h a = some nx) (f : Nat)
    (hc : c ≤ f) (hf : r.depth ≤ f) :
    iterator_inc f h (some a) = some (r.addrs.head?.or nx) := by
  obtain ⟨ha, -, hr⟩ := hrep
  cases r with
  | nil =>
    have := hup f hc
    simp only [exit_right] at this
    simp only [Tree.ptr_nil] at ha
    simp [iterator_inc, ha, this]
  | node rl d vd hd rr =>
    have hdep : (Tree.node rl d vd hd rr).depth ≤ f := hf
    obtain ⟨b, hb, hw⟩ := walk_left_spec (Tree.node rl d vd hd rr) f hr hdep rfl
    simp only [Tree.ptr_node] at ha
    rw [hb, Option.or_some]
    simp [iterator_inc, ha, hw]

theorem dec_at_root {h : Heap T} (s : Set T) {l r : Tree T} {a : Nat} {v : T} {ht : Int}
    {p px : Option Nat} {c : Nat} (hrep : Rep h (.node l a v ht r) p)
    (hup : ∀ f, c ≤ f → exit_left f h a = some px) (f : Nat)
    (hf : c + (Tree.node l a v ht r).depth ≤ f) :
    iterator_dec f h s (some a) = some (l.addrs.getLast?.or px) := by
  obtain ⟨ha, hl, -⟩ := hrep
  cases l with
  | nil =>
    have := hup f (by omega)
    simp only [exit_left] at this
    simp only [Tree.ptr_nil] at ha
    simp [iterator_dec, ha, this]
  | node ll d vd hd lr =>
    have hdep : (Tree.node ll d vd hd lr).depth ≤ f := by
      simp only [Tree.depth_node] at hf ⊢; omega
    obtain ⟨b, hb, hw⟩ := walk_right_spec (Tree.node ll d vd hd lr) f hl hdep rfl
    simp only [Tree.ptr_node] at ha
    rw [hb, Option.or_some]
    simp [iterator_dec, ha, hw]

/-- Climbing out of a left child stops at the parent. -/
theorem exit_right_of_left {h : Heap T} {l r : Tree T} {a : Nat} {v : T} {ht : Int}
    {p : Option Nat} (hrep : Rep h (.node l a v ht r) p)
    (hnd : (Tree.node l a v ht r).addrs.Nodup) {b : Nat} (hb : l.ptr = some b) (f : Nat)
    (hf : 1 ≤ f) : exit_right f h b = some (some a) := by
  obtain ⟨f, rfl⟩ : ∃ g, f = g + 1 := ⟨f - 1, by omega⟩
  obtain ⟨ha, hl, hr⟩ := hrep
  obtain ⟨-, -, -, -, hlr⟩ := Tree.nodup_node.1 hnd
  cases l with
  | nil => simp at hb
  | node ll b1 vb hb1 lr =>
    simp only [Tree.ptr_node, Option.some.injEq] at hb
    subst hb
    rw [exit_right_step hl.1 rfl ha f, if_neg]
    intro hc
    exact hlr b1 (by simp) (Tree.ptr_mem hc)

/-- Climbing out of a right child continues from the parent. -/
theorem exit_right_of_right {h : Heap T} {l r : Tree T} {a : Nat} {v : T} {ht : Int}
    {p : Option Nat} (hrep : Rep h (.node l a v ht r) p) {d : Nat} (hd : r.ptr = some d)
    (f : Nat) : exit_right (f + 1) h d = exit_right f h a := by
  obtain ⟨ha, hl, hr⟩ := hrep
  cases r with
  | nil => simp at hd
  | node rl d1 vd hd1 rr =>
    simp only [Tree.ptr_node, Option.some.injEq] at hd
    subst hd
    rw [exit_right_step hr.1 rfl ha f]
    simp

theorem exit_left_of_right {h : Heap T} {l r : Tree T} {a : Nat} {v : T} {ht : Int}
    {p : Option Nat} (hrep : Rep h (.node l a v ht r) p)
    (hnd : (Tree.node l a v ht r).addrs.Nodup) {d : Nat} (hd : r.ptr = some d) (f : Nat)
    (hf : 1 ≤ f) : exit_left f h d = some (some a) := by
  obtain ⟨f, rfl⟩ : ∃ g, f = g + 1 := ⟨f - 1, by omega⟩
  obtain ⟨ha, hl, hr⟩ := hrep
  obtain ⟨-, -, -, -, hlr⟩ := Tree.nodup_node.1 hnd
  cases r with
  | nil => simp at hd
  | node rl d1 vd hd1 rr =>
    simp only [Tree.ptr_node, Option.some.injEq] at hd
    subst hd
    rw [exit_left_step hr.1 rfl ha f, if_neg]
    intro hc
    exact hlr d1 (Tree.ptr_mem hc) (by simp)

theorem exit_left_of_left {h : Heap T} {l r : Tree T} {a : Nat} {v : T} {ht : Int}
    {p : Option Nat} (hrep : Rep h (.node l a v ht r) p) {b : Nat} (hb : l.ptr = some b)
    (f : Nat) : exit_left (f + 1) h b = exit_left f h a := by
  obtain ⟨ha, hl, hr⟩ := hrep
  cases l with
  | nil => simp at hb
  | node ll b1 vb hb1 lr =>
    simp only [Tree.ptr_node, Option.some.injEq] at hb
    subst hb
    rw [exit_left_step hl.1 rfl ha f]
    simp

/-- `operator++` at any node of a represented tree: the next address in in-order, or `nx`,
where climbing out of the tree's root leads, from the last node. -/
theorem inc_spec {h : Heap T} : ∀ (t : Tree T) {p nx : Option Nat} (c : Nat), Rep h t p →
    t.addrs.Nodup → (∀ a, t.ptr = some a → ∀ f, c ≤ f → exit_right f h a = some nx) →
    ∀ xs x ys, t.addrs = xs ++ x :: ys → ∀ f, c + t.depth ≤ f →
      iterator_inc f h (some x) = some (ys.head?.or nx)
  | .nil, _, _, _, _, _, _, xs, x, ys, hdec, _, _ => by simp at hdec
  | .node l a v ht r, p, nx, c, hrep, hnd, hup, xs, x, ys, hdec, f, hf => by
    obtain ⟨hln, hrn, -, -, -⟩ := Tree.nodup_node.1 hnd
    have hroot := inc_at_root hrep (hup a rfl) f
      (by omega) (by simp only [Tree.depth_node] at hf; omega)
    have hdl : 1 + l.depth ≤ f := by simp only [Tree.depth_node] at hf; omega
    have hdr : (c + 1) + r.depth ≤ f := by simp only [Tree.depth_node] at hf; omega
    have hupl : ∀ b, l.ptr = some b → ∀ f, 1 ≤ f → exit_right f h b = some (some a) :=
      fun b hb f hf => exit_right_of_left hrep hnd hb f hf
    have hupr : ∀ d, r.ptr = some d → ∀ f, c + 1 ≤ f → exit_right f h d = some nx := by
      intro d hd f hf
      obtain ⟨g, rfl⟩ : ∃ g, f = g + 1 := ⟨f - 1, by omega⟩
      rw [exit_right_of_right hrep hd g]
      exact hup a rfl g (by omega)
    rw [Tree.addrs_node, List.append_eq_append_iff] at hdec
    rcases hdec with ⟨a', h1, h2⟩ | ⟨c', h1, h2⟩
    · cases a' with
      | nil =>
        simp only [List.nil_append, List.cons.injEq] at h2
        obtain ⟨rfl, rfl⟩ := h2
        exact hroot
      | cons z zs =>
        simp only [List.cons_append, List.cons.injEq] at h2
        exact inc_spec r (c + 1) hrep.2.2 hrn hupr zs x ys h2.2 f hdr
    · cases c' with
      | nil =>
        simp only [List.nil_append, List.cons.injEq] at h2
        obtain ⟨rfl, rfl⟩ := h2
        exact hroot
      | cons z zs =>
        simp only [List.cons_append, List.cons.injEq] at h2
        obtain ⟨rfl, rfl⟩ := h2
        have ih := inc_spec l 1 hrep.2.1 hln hupl xs x zs h1 f hdl
        rw [ih, List.head?_append]
        cases zs <;> simp

/-- `operator--` at any node of a represented tree: the previous address in in-order, or
`px`, where climbing out of the tree's root leads, from the first node. -/
theorem dec_spec {h : Heap T} (s : Set T) : ∀ (t : Tree T) {p px : Option Nat} (c : Nat),
    Rep h t p → t.addrs.Nodup →
    (∀ a, t.ptr = some a → ∀ f, c ≤ f → exit_left f h a = some px) →
    ∀ xs x ys, t.addrs = xs ++ x :: ys → ∀ f, c + t.depth ≤ f →
      iterator_dec f h s (some x) = some (xs.getLast?.or px)
  | .nil, _, _, _, _, _, _, xs, x, ys, hdec, _, _ => by simp at hdec
  | .node l a v ht r, p, px, c, hrep, hnd, hup, xs, x, ys, hdec, f, hf => by
    obtain ⟨hln, hrn, -, -, -⟩ := Tree.nodup_node.1 hnd
    have hroot := dec_at_root s hrep (hup a rfl) f hf
    have hdl : (c + 1) + l.depth ≤ f := by simp only [Tree.depth_node] at hf; omega
    have hdr : 1 + r.depth ≤ f := by simp only [Tree.depth_node] at hf; omega
    have hupr : ∀ d, r.ptr = some d → ∀ f, 1 ≤ f → exit_left f h d = some (some a) :=
      fun d hd f hf => exit_left_of_right hrep hnd hd f hf
    have hupl : ∀ b, l.ptr = some b → ∀ f, c + 1 ≤ f → exit_left f h b = some px := by
      intro b hb f hf
      obtain ⟨g, rfl⟩ : ∃ g, f = g + 1 := ⟨f - 1, by omega⟩
      rw [exit_left_of_left hrep hb g]
      exact hup a rfl g (by omega)
    rw [Tree.addrs_node, List.append_eq_append_iff] at hdec
    rcases hdec with ⟨a', h1, h2⟩ | ⟨c', h1, h2⟩
    · cases a' with
      | nil =>
        simp only [List.nil_append, List.cons.injEq] at h2
        obtain ⟨rfl, rfl⟩ := h2
        simp only [List.append_nil] at h1
        subst h1
        exact hroot
      | cons z zs =>
        simp only [List.cons_append, List.cons.injEq] at h2
        obtain ⟨rfl, h2⟩ := h2
        have ih := dec_spec s r 1 hrep.2.2 hrn hupr zs x ys h2 f hdr
        rw [ih, h1, List.getLast?_append]
        cases hz : zs.getLast? with
        | none =>
          have : zs = [] := by simpa using hz
          subst this
          simp
        | some w =>
          have : (a :: zs).getLast? = some w := by
            cases zs with
            | nil => simp at hz
            | cons y ys => simpa [List.getLast?_cons_cons] using hz
          simp [this]
    · cases c' with
      | nil =>
        simp only [List.nil_append, List.cons.injEq] at h2
        obtain ⟨rfl, rfl⟩ := h2
        simp only [List.append_nil] at h1
        subst h1
        exact hroot
      | cons z zs =>
        simp only [List.cons_append, List.cons.injEq] at h2
        obtain ⟨rfl, rfl⟩ := h2
        exact dec_spec s l (c + 1) hrep.2.1 hln hupl xs x zs h1 f hdl

theorem Tree.depth_le_size : ∀ t : Tree T, t.depth ≤ t.size
  | .nil => le_refl _
  | .node l a v ht r => by
    have := Tree.depth_le_size l
    have := Tree.depth_le_size r
    simp only [Tree.depth_node, Tree.size]
    omega

/-- Every node of a represented tree has its cell in the heap, holding its key. -/
theorem Rep.cell_of_mem {h : Heap T} : ∀ {t : Tree T} {p : Option Nat} {x : Nat} {k : T},
    Rep h t p → (x, k) ∈ t.nodes → ∃ n, rd h x = some n ∧ n.value = k
  | .node l a v ht r, p, x, k, hrep, hx => by
    simp only [Tree.nodes_node, List.mem_append, List.mem_cons, Prod.mk.injEq] at hx
    rcases hx with hx | ⟨rfl, rfl⟩ | hx
    · exact hrep.2.1.cell_of_mem hx
    · exact ⟨_, hrep.1, rfl⟩
    · exact hrep.2.2.cell_of_mem hx

/-- The loop of `walk` over a represented tree: from any node on, it collects the keys of the
rest of the in-order sequence. -/
theorem walk_spec {h : Heap T} {t : Tree T} (hrep : Rep h t none) (hnd : t.addrs.Nodup)
    (fuel : Nat) (hfuel : t.depth < fuel) :
    ∀ (ys xs : List (Nat × T)), t.nodes = xs ++ ys → ∀ steps, ys.length ≤ steps →
      walk steps fuel h (ys.head?.map Prod.fst) = some (ys.map Prod.snd)
  | [], _, _, steps, _ => by cases steps <;> rfl
  | (x, k) :: ys, xs, hdec, steps, hsteps => by
    obtain ⟨st, rfl⟩ : ∃ st, steps = st + 1 := ⟨steps - 1, by simp at hsteps; omega⟩
    obtain ⟨n, hn, hk⟩ := hrep.cell_of_mem (x := x) (k := k) (by rw [hdec]; simp)
    have hup : ∀ a, t.ptr = some a → ∀ f, 1 ≤ f → exit_right f h a = some none := by
      intro a ha f hf
      obtain ⟨g, rfl⟩ : ∃ g, f = g + 1 := ⟨f - 1, by omega⟩
      cases t with
      | nil => simp at ha
      | node l a1 v ht r =>
        simp only [Tree.ptr_node, Option.some.injEq] at ha
        subst ha
        exact exit_right_top hrep.1 rfl g
    have hinc := inc_spec t 1 hrep hnd hup (xs.map Prod.fst) x (ys.map Prod.fst)
      (by rw [Tree.addrs_eq_map, hdec]; simp) fuel (by omega)
    have ih := walk_spec hrep hnd fuel hfuel ys (xs ++ [(x, k)]) (by rw [hdec]; simp) st
      (by simp at hsteps; omega)
    have hh : (ys.map Prod.fst).head?.or none = ys.head?.map Prod.fst := by
      cases ys <;> simp
    rw [hh] at hinc
    simp [walk, hn, hinc, ih, hk]

/-- Re-anchoring the root the way the public `insert` and `erase` do. -/
theorem Rep.clear_parent {h : Heap T} {t : Tree T} {p : Option Nat} {a : Nat}
    (hrep : Rep h t p) (hnd : t.addrs.Nodup) (ha : t.ptr = some a) :
    ∃ n, rd h a = some n ∧ Rep (wr h a { n with parent := none }) t none := by
  cases t with
  | nil => simp at ha
  | node l a1 v ht r =>
    simp only [Tree.ptr_node, Option.some.injEq] at ha
    subst ha
    exact ⟨_, hrep.1, hrep.set_root hnd none ht v⟩

/-- If no key has property `P`, the part holding the keys with `P` is empty. -/
theorem tail_empty_of_none {A B : List (Nat × T)} {P : T → Prop} (hB : ∀ b ∈ B, P b.2)
    (hnone : ∀ z ∈ (A ++ B).map Prod.snd, ¬ P z) : B = [] := by
  cases B with
  | nil => rfl
  | cons b B1 => exact absurd (hB b (by simp)) (hnone b.2 (by simp))

/-- Two heaps of the same length with the same content at every address are equal. -/
theorem heap_ext {h h1 : Heap T} (hlen : h1.length = h.length) (hrd : ∀ y, rd h1 y = rd h y) :
    h1 = h := by
  apply List.ext_getElem hlen
  intro i hi1 hi
  have := hrd i
  simp only [rd, List.getElem?_eq_getElem hi1, List.getElem?_eq_getElem hi] at this
  cases e1 : h1[i] <;> cases e : h[i] <;> simp_all

theorem rd_of_le {h : Heap T} {y : Nat} (hy : h.length ≤ y) : rd h y = none := by
  simp [rd, List.getElem?_eq_none hy]

/-- Two heaps that represent the same tree with the same root parent agree on its cells. -/
theorem Rep.rd_eq {h h1 : Heap T} : ∀ {t : Tree T} {p : Option Nat}, Rep h t p → Rep h1 t p →
    ∀ y ∈ t.addrs, rd h1 y = rd h y
  | .node l a v ht r, p, hrep, hrep1, y, hy => by
    simp only [Tree.addrs_node, List.mem_append, List.mem_cons] at hy
    rcases hy with hy | rfl | hy
    · exact Rep.rd_eq hrep.2.1 hrep1.2.1 y hy
    · rw [hrep.1, hrep1.1]
    · exact Rep.rd_eq hrep.2.2 hrep1.2.2 y hy

/-! ## Parent links, true heights and subtrees of a represented tree -/

/-- The root cell of a represented tree carries the given parent. -/
theorem Rep.root_cell {h : Heap T} {t : Tree T} {p : Option Nat} {c : Nat} (hrep : Rep h t p)
    (hc : t.ptr = some c) : ∃ m, rd h c = some m ∧ m.parent = p := by
  cases t with
  | nil => simp at hc
  | node l a v ht r =>
    simp only [Tree.ptr_node, Option.some.injEq] at hc
    subst hc
    exact ⟨_, hrep.1, rfl⟩

/-- In a represented tree every child's `parent` field names the node it hangs from. -/
theorem Rep.parents {h : Heap T} : ∀ {t : Tree T} {p : Option Nat}, Rep h t p →
    ∀ x ∈ t.addrs, ∃ n, rd h x = some n ∧
      (∀ c, n.left = some c → ∃ m, rd h c = some m ∧ m.parent = some x) ∧
      (∀ c, n.right = some c → ∃ m, rd h c = some m ∧ m.parent = some x)
  | .node l a v ht r, p, hrep, x, hx => by
    simp only [Tree.addrs_node, List.mem_append, List.mem_cons] at hx
    rcases hx with hx | rfl | hx
    · exact Rep.parents hrep.2.1 x hx
    · exact ⟨_, hrep.1, fun c hc => hrep.2.1.root_cell hc, fun c hc => hrep.2.2.root_cell hc⟩
    · exact Rep.parents hrep.2.2 x hx

/-- In a represented tree every node but the root is the left or the right child of the node
its `parent` field names. -/
theorem Rep.child_of_parent {h : Heap T} : ∀ {t : Tree T} {p : Option Nat}, Rep h t p →
    ∀ x ∈ t.addrs, t.ptr ≠ some x → ∃ n q m, rd h x = some n ∧ n.parent = some q ∧
      rd h q = some m ∧ (m.left = some x ∨ m.right = some x)
  | .node l a v ht r, p, hrep, x, hx, hne => by
    simp only [Tree.addrs_node, List.mem_append, List.mem_cons] at hx
    rcases hx with hx | rfl | hx
    · by_cases c : l.ptr = some x
      · obtain ⟨n, hn, hp⟩ := hrep.2.1.root_cell c
        exact ⟨n, a, _, hn, hp, hrep.1, Or.inl c⟩
      · exact Rep.child_of_parent hrep.2.1 x hx c
    · simp at hne
    · by_cases c : r.ptr = some x
      · obtain ⟨n, hn, hp⟩ := hrep.2.2.root_cell c
        exact ⟨n, a, _, hn, hp, hrep.1, Or.inr c⟩
      · exact Rep.child_of_parent hrep.2.2 x hx c

/-- The true height read off the heap is the depth of the represented tree. -/
theorem true_height_spec {h : Heap T} : ∀ (t : Tree T) {p : Option Nat} (fuel : Nat),
    Rep h t p → t.depth < fuel → true_height fuel h t.ptr = some t.depth
  | .nil, _, fuel, _, hf => by
    obtain ⟨f, rfl⟩ : ∃ f, fuel = f + 1 := ⟨fuel - 1, by omega⟩
    rfl
  | .node l a v ht r, p, fuel, hrep, hf => by
    obtain ⟨f, rfl⟩ : ∃ f, fuel = f + 1 := ⟨fuel - 1, by omega⟩
    simp only [Tree.depth_node] at hf
    have hl := true_height_spec l f hrep.2.1 (by omega)
    have hr := true_height_spec r f hrep.2.2 (by omega)
    simp [true_height, hrep.1, hl, hr]

/-- Under the cached-height invariant the true height exceeds the cached one by at most 1. -/
theorem Tree.Inv.depth_le : ∀ {t : Tree T}, t.Inv → (t.depth : Int) ≤ t.hgt + 1
  | .nil, _ => by simp [Tree.depth, Tree.hgt]
  | .node l a v ht r, hi => by
    obtain ⟨hl, hr, -, -, hh⟩ := hi
    have h1 := hl.depth_le
    have h2 := hr.depth_le
    rcases hh with hh | ⟨rfl, rfl, rfl⟩
    · simp only [Tree.depth_node, Tree.hgt_node, hh]
      push_cast
      omega
    · simp [Tree.depth, Tree.hgt]

/-- Every node of a represented tree is the root of a represented subtree, which inherits the
cached-height invariant and is no deeper than the whole tree. -/
theorem Rep.subtree {h : Heap T} : ∀ {t : Tree T} {p : Option Nat} {x : Nat}, Rep h t p →
    t.Inv → x ∈ t.addrs → ∃ l v ht r q, Rep h (.node l x v ht r) q ∧
      (Tree.node l x v ht r).Inv ∧ (Tree.node l x v ht r).depth ≤ t.depth
  | .node l a v ht r, p, x, hrep, hi, hx => by
    simp only [Tree.addrs_node, List.mem_append, List.mem_cons] at hx
    rcases hx with hx | rfl | hx
    · obtain ⟨l1, v1, ht1, r1, q, h1, h2, h3⟩ := Rep.subtree hrep.2.1 hi.1 hx
      exact ⟨l1, v1, ht1, r1, q, h1, h2, by rw [Tree.depth_node (l := l)]; omega⟩
    · exact ⟨l, v, ht, r, p, hrep, hi, le_refl _⟩
    · obtain ⟨l1, v1, ht1, r1, q, h1, h2, h3⟩ := Rep.subtree hrep.2.2 hi.2.1 hx
      exact ⟨l1, v1, ht1, r1, q, h1, h2, by rw [Tree.depth_node (l := l)]; omega⟩

/-! ## Observed `rebalance` calls -/

theorem remove_min_with_rebalance : ∀ (fuel : Nat) (h : Heap T) (u : Nat),
    remove_min_with rebalance fuel h u = remove_min fuel h u
  | 0, _, _ => rfl
  | fuel + 1, h, u => by
    simp only [remove_min_with, remove_min, remove_min_with_rebalance fuel]

/-- At a node whose subtrees satisfy the cached-height invariant and whose children's cached
heights differ by at most 2, the observed `rebalance` passes its checks. -/
theorem rebalance_checked_eq {h : Heap T} {l r : Tree T} {a : Nat} {v : T} {ht : Int}
    {p : Option Nat} (hrep : Rep h (.node l a v ht r) p) (hl : l.Inv) (hr : r.Inv)
    (h1 : l.hgt ≤ r.hgt + 2) (h2 : r.hgt ≤ l.hgt + 2) :
    rebalance_checked h a = rebalance h a := by
  have hd := get_diff_spec hrep
  have hl0 := hl.hgt_nonneg
  have hr0 := hr.hgt_nonneg
  have hp : pivots_present h a (l.hgt - r.hgt) = true := by
    unfold pivots_present
    by_cases c2 : l.hgt - r.hgt = -2
    · rw [if_pos c2]
      obtain ⟨rl, b, vb, rr, rfl, hrl, hrr, -, -⟩ := hr.of_pos (by omega)
      have hb := hrep.2.2.1
      simp only [hrep.1, hb, get_diff_spec hrep.2.2, Option.some_bind, Tree.ptr_node,
        Bool.or_eq_true, decide_eq_true_eq]
      by_cases c : rl.hgt - rr.hgt ≤ 0
      · exact Or.inl c
      · right
        have := hrr.hgt_nonneg
        obtain ⟨x1, x2, x3, x4, rfl, -⟩ := hrl.of_pos (by omega)
        simp [present, hrep.2.2.2.1.1]
    by_cases c3 : l.hgt - r.hgt = 2
    · rw [if_neg c2, if_pos c3]
      obtain ⟨ll, b, vb, lr, rfl, hll, hlr, -, -⟩ := hl.of_pos (by omega)
      have hb := hrep.2.1.1
      simp only [hrep.1, hb, get_diff_spec hrep.2.1, Option.some_bind, Tree.ptr_node,
        Bool.or_eq_true, decide_eq_true_eq]
      by_cases c : ll.hgt - lr.hgt ≥ 0
      · exact Or.inl c
      · right
        have := hll.hgt_nonneg
        obtain ⟨x1, x2, x3, x4, rfl, -⟩ := hlr.of_pos (by omega)
        simp [present, hrep.2.1.2.2.1]
    · rw [if_neg c2, if_neg c3]
  have hc : -2 ≤ l.hgt - r.hgt ∧ l.hgt - r.hgt ≤ 2 ∧
      pivots_present h a (l.hgt - r.hgt) = true := ⟨by omega, by omega, hp⟩
  simp only [rebalance_checked, hd, Option.bind_eq_bind, Option.some_bind, if_pos hc]

/-- Every `rebalance` call of `remove_min` passes the checks of the observed `rebalance`. -/
theorem remove_min_checked {h : Heap T} : ∀ (t : Tree T) {p : Option Nat} {a : Nat}
    (fuel : Nat), Rep h t p → t.addrs.Nodup → t.Inv → t.depth ≤ fuel → t.ptr = some a →
    remove_min_with rebalance_checked fuel h a = remove_min fuel h a
  | .node .nil a v ht r, p, a1, fuel, hrep, _, _, hfuel, hptr => by
    obtain ⟨f, rfl⟩ : ∃ f, fuel = f + 1 := ⟨fuel - 1, by simp at hfuel; omega⟩
    simp only [Tree.ptr_node, Option.some.injEq] at hptr
    subst hptr
    simp [remove_min_with, remove_min, hrep.1]
  | .node (.node ll b vb hb lr) a v ht r, p, a1, fuel, hrep, hnd, hinv, hfuel, hptr => by
    obtain ⟨f, rfl⟩ : ∃ f, fuel = f + 1 := ⟨fuel - 1, by simp at hfuel; omega⟩
    simp only [Tree.ptr_node, Option.some.injEq] at hptr
    subst hptr
    obtain ⟨ha, hl, hr⟩ := hrep
    obtain ⟨hln, hrn, hal, har, hlr⟩ := Tree.nodup_node.1 hnd
    obtain ⟨hil, hir, g1, g2, -⟩ := hinv
    have hd : (Tree.node ll b vb hb lr).depth ≤ f := by
      simp only [Tree.depth_node] at hfuel ⊢; omega
    obtain ⟨l1, hl1, hil1, b1, b2⟩ := Tree.remove_min_inv _ hil (by simp)
    have ih := remove_min_checked (Tree.node ll b vb hb lr) f hl hln hil hd rfl
    obtain ⟨h1, e1, ⟨p1, rep1⟩, fr1, len1⟩ :=
      remove_min_spec (Tree.node ll b vb hb lr) f hl hln hl1 hd rfl
    have hsub : ∀ y ∈ l1.addrs, y ∈ (Tree.node ll b vb hb lr).addrs := by
      intro y hy
      rw [Tree.remove_min_addrs hl1] at hy
      exact List.mem_of_mem_tail hy
    have hl1n : l1.addrs.Nodup := by
      rw [Tree.remove_min_addrs hl1]
      exact hln.sublist (List.tail_sublist _)
    have hal1 : a ∉ l1.addrs := fun hx => hal (hsub a hx)
    have ha1 : rd h1 a = some ⟨some b, r.ptr, p, ht, v⟩ := by rw [fr1 a hal1]; exact ha
    have hr1 : Rep h1 r (some a) := hr.frame fun y hy =>
      fr1 y (fun hy2 => hlr y (hsub y hy2) hy)
    have hnd1 : (Tree.node l1 a v ht r).addrs.Nodup :=
      Tree.nodup_node.2 ⟨hl1n, hrn, hal1, har, fun y hy => hlr y (hsub y hy)⟩
    obtain ⟨h2, e2, rep2, fr2, len2⟩ := link_left_spec ha1 rep1 hr1 hnd1
    obtain ⟨h3, e3, rep3, fr3, len3⟩ := update_spec rep2 hnd1
    have e4 := rebalance_checked_eq rep3 hil1 hir (by omega) (by omega)
    simp [remove_min_with, remove_min, ha, ih, e1, e2, e3, e4]

/-! ## `copy` and `free` -/

@[simp] theorem Tree.copy_nil (b : Nat) : (Tree.nil : Tree T).copy b = .nil := rfl

@[simp] theorem Tree.copy_node (b : Nat) (l : Tree T) (a : Nat) (v : T) (ht : Int)
    (r : Tree T) :
    (Tree.node l a v ht r).copy b = .node (l.copy (b + 1)) b v ht (r.copy (b + 1 + l.size)) :=
  rfl

theorem Tree.copy_eq_nil {b : Nat} {t : Tree T} : t.copy b = .nil ↔ t = .nil := by
  cases t <;> simp

theorem Tree.copy_hgt (b : Nat) (t : Tree T) : (t.copy b).hgt = t.hgt := by
  cases t <;> rfl

theorem Tree.copy_keys : ∀ (b : Nat) (t : Tree T), (t.copy b).keys = t.keys
  | _, .nil => rfl
  | b, .node l a v ht r => by
    simp [Tree.keys, Tree.copy_keys (b + 1) l, Tree.copy_keys (b + 1 + l.size) r]

theorem Tree.copy_size : ∀ (b : Nat) (t : Tree T), (t.copy b).size = t.size
  | _, .nil => rfl
  | b, .node l a v ht r => by
    simp [Tree.size, Tree.copy_size (b + 1) l, Tree.copy_size (b + 1 + l.size) r]

theorem Tree.copy_depth : ∀ (b : Nat) (t : Tree T), (t.copy b).depth = t.depth
  | _, .nil => rfl
  | b, .node l a v ht r => by
    simp [Tree.copy_depth (b + 1) l, Tree.copy_depth (b + 1 + l.size) r]

/-- The copy occupies the addresses from `b` up to `b + t.size`. -/
theorem Tree.copy_addrs_mem : ∀ (b : Nat) (t : Tree T), ∀ x ∈ (t.copy b).addrs,
    b ≤ x ∧ x < b + t.size
  | _, .nil, x, hx => by simp at hx
  | b, .node l a v ht r, x, hx => by
    simp only [Tree.copy_node, Tree.addrs_node, List.mem_append, List.mem_cons] at hx
    simp only [Tree.size]
    rcases hx with hx | rfl | hx
    · have := Tree.copy_addrs_mem (b + 1) l x hx
      omega
    · omega
    · have := Tree.copy_addrs_mem (b + 1 + l.size) r x hx
      omega

theorem Tree.copy_nodup : ∀ (b : Nat) (t : Tree T), (t.copy b).addrs.Nodup
  | _, .nil => List.nodup_nil
  | b, .node l a v ht r => by
    rw [Tree.copy_node]
    refine Tree.nodup_node.2 ⟨Tree.copy_nodup _ l, Tree.copy_nodup _ r, ?_, ?_, ?_⟩
    · intro hx
      have := Tree.copy_addrs_mem _ l b hx
      omega
    · intro hx
      have := Tree.copy_addrs_mem _ r b hx
      omega
    · intro x hx hx2
      have := Tree.copy_addrs_mem _ l x hx
      have := Tree.copy_addrs_mem _ r x hx2
      omega

theorem Tree.copy_inv : ∀ (b : Nat) {t : Tree T}, t.Inv → (t.copy b).Inv
  | _, .nil, _ => trivial
  | b, .node l a v ht r, hi => by
    obtain ⟨hl, hr, g1, g2, hh⟩ := hi
    refine ⟨Tree.copy_inv _ hl, Tree.copy_inv _ hr, ?_, ?_, ?_⟩
    · rw [Tree.copy_hgt, Tree.copy_hgt]; exact g1
    · rw [Tree.copy_hgt, Tree.copy_hgt]; exact g2
    · rw [Tree.copy_hgt, Tree.copy_hgt, Tree.copy_eq_nil, Tree.copy_eq_nil]; exact hh

/-- Refinement of `copy`: it returns, the new cells hold the copy of the tree with a null
parent at the root, and no cell of the heap it started from changes. -/
theorem copy_spec : ∀ (t : Tree T) {h : Heap T} {p : Option Nat} (fuel : Nat), Rep h t p →
    t.depth < fuel →
    ∃ h1, copy fuel h t.ptr = some (h1, (t.copy h.length).ptr) ∧
      Rep h1 (t.copy h.length) none ∧ (∀ y, y < h.length → rd h1 y = rd h y) ∧
      h1.length = h.length + t.size
  | .nil, h, _, fuel, _, hfuel => by
    obtain ⟨f, rfl⟩ : ∃ f, fuel = f + 1 := ⟨fuel - 1, by omega⟩
    exact ⟨h, rfl, trivial, fun _ _ => rfl, rfl⟩
  | .node l a v ht r, h, p, fuel, hrep, hfuel => by
    obtain ⟨f, rfl⟩ : ∃ f, fuel = f + 1 := ⟨fuel - 1, by omega⟩
    simp only [Tree.depth_node, Nat.add_lt_add_iff_right, max_lt_iff] at hfuel
    obtain ⟨ha, hl, hr⟩ := hrep
    have hlen := rd_lt ha
    -- new Node(*u)
    have hfr0 : ∀ y, y < h.length →
        rd (h ++ [some (⟨none, none, none, ht, v⟩ : Node T)]) y = rd h y :=
      fun y hy => rd_append_old _ hy
    have hlen0 : (h ++ [some (⟨none, none, none, ht, v⟩ : Node T)]).length = h.length + 1 := by
      simp
    have ha0 := (hfr0 a hlen).trans ha
    have hl0 : Rep (h ++ [some (⟨none, none, none, ht, v⟩ : Node T)]) l (some a) :=
      hl.frame fun y hy => hfr0 y (hl.lt y hy)
    -- copy(u->left)
    obtain ⟨h1, e1, rep1, fr1, len1⟩ := copy_spec l f hl0 hfuel.1
    rw [hlen0] at e1 rep1 fr1 len1
    have hv1 : rd h1 h.length = some ⟨none, (Tree.nil : Tree T).ptr, none, ht, v⟩ := by
      rw [fr1 _ (by omega)]
      exact rd_append_new _ _
    have hvl : h.length ∉ (l.copy (h.length + 1)).addrs := fun hx => by
      have := Tree.copy_addrs_mem _ l _ hx
      omega
    have hnd1 : (Tree.node (l.copy (h.length + 1)) h.length v ht .nil).addrs.Nodup :=
      Tree.nodup_node.2 ⟨Tree.copy_nodup _ l, List.nodup_nil, hvl, by simp, by simp⟩
    obtain ⟨h2, e2, rep2, fr2, len2⟩ := link_left_spec hv1 rep1 trivial hnd1
    have hold2 : ∀ y, y < h.length → rd h2 y = rd h y := by
      intro y hy
      rw [fr2 y (by omega) (fun hx => by have := Tree.copy_addrs_mem _ l _ hx; omega),
        fr1 y (by omega), hfr0 y hy]
    have ha2 := (hold2 a hlen).trans ha
    have hr2 : Rep h2 r (some a) := hr.frame fun y hy => hold2 y (hr.lt y hy)
    -- copy(u->right)
    obtain ⟨h3, e3, rep3, fr3, len3⟩ := copy_spec r f hr2 hfuel.2
    have hlen2 : h2.length = h.length + 1 + l.size := by omega
    rw [hlen2] at e3 rep3 fr3 len3
    have hv3 : rd h3 h.length = some ⟨(l.copy (h.length + 1)).ptr, none, none, ht, v⟩ := by
      rw [fr3 _ (by omega)]
      exact rep2.1
    have hl3 : Rep h3 (l.copy (h.length + 1)) (some h.length) :=
      rep2.2.1.frame fun y hy => fr3 y (by have := Tree.copy_addrs_mem _ l _ hy; omega)
    have hvr : h.length ∉ (r.copy (h.length + 1 + l.size)).addrs := fun hx => by
      have := Tree.copy_addrs_mem _ r _ hx
      omega
    have hnd3 : (Tree.node (l.copy (h.length + 1)) h.length v ht
        (r.copy (h.length + 1 + l.size))).addrs.Nodup := by
      have := Tree.copy_nodup h.length (.node l a v ht r)
      rwa [Tree.copy_node] at this
    obtain ⟨h4, e4, rep4, fr4, len4⟩ := link_right_spec hv3 hl3 rep3 hnd3
    refine ⟨h4, ?_, rep4, ?_, ?_⟩
    · simp only [copy, Tree.ptr_node, ha, Option.bind_eq_bind, Option.some_bind, ha0, e1, e2,
        ha2, e3, e4, Tree.copy_node]
      rfl
    · intro y hy
      rw [fr4 y (by omega) (fun hx => by have := Tree.copy_addrs_mem _ r _ hx; omega),
        fr3 y (by omega), hold2 y hy]
    · simp only [Tree.size]
      omega

/-- Refinement of `free`: it returns and changes no cell outside the tree. -/
theorem free_spec : ∀ (t : Tree T) {h : Heap T} {p : Option Nat} (fuel : Nat), Rep h t p →
    t.addrs.Nodup → t.depth < fuel →
    ∃ h1, free fuel h t.ptr = some h1 ∧ (∀ y, y ∉ t.addrs → rd h1 y = rd h y) ∧
      h1.length = h.length
  | .nil, h, _, fuel, _, _, hfuel => by
    obtain ⟨f, rfl⟩ : ∃ f, fuel = f + 1 := ⟨fuel - 1, by omega⟩
    exact ⟨h, rfl, fun _ _ => rfl, rfl⟩
  | .node l a v ht r, h, p, fuel, hrep, hnd, hfuel => by
    obtain ⟨f, rfl⟩ : ∃ f, fuel = f + 1 := ⟨fuel - 1, by omega⟩
    simp only [Tree.depth_node, Nat.add_lt_add_iff_right, max_lt_iff] at hfuel
    obtain ⟨ha, hl, hr⟩ := hrep
    obtain ⟨hln, hrn, hal, har, hlr⟩ := Tree.nodup_node.1 hnd
    obtain ⟨h1, e1, fr1, len1⟩ := free_spec l f hl hln hfuel.1
    have ha1 := (fr1 a hal).trans ha
    have hr1 : Rep h1 r (some a) := hr.frame fun y hy => fr1 y (fun hy2 => hlr y hy2 hy)
    obtain ⟨h2, e2, fr2, len2⟩ := free_spec r f hr1 hrn hfuel.2
    have ha2 := (fr2 a har).trans ha1
    refine ⟨dealloc h2 a, ?_, ?_, ?_⟩
    · simp only [free, Tree.ptr_node, ha, Option.bind_eq_bind, Option.some_bind, e1, ha1, e2,
        ha2]
      rfl
    · intro y hy
      simp only [Tree.addrs_node, List.mem_append, List.mem_cons, not_or] at hy
      rw [rd_dealloc_ne (Ne.symm hy.2.1), fr2 y hy.2.2, fr1 y hy.1]
    · rw [length_dealloc]
      omega

/-- On a represented tree `begin_of` is the leftmost node, or null for the empty tree. -/
theorem begin_of_spec {h : Heap T} {t : Tree T} {p : Option Nat} (fuel : Nat)
    (hrep : Rep h t p) (hfuel : t.depth < fuel) :
    begin_of fuel h t.ptr = some t.addrs.head? := by
  cases t with
  | nil => rfl
  | node l a v ht r =>
    obtain ⟨m, hm⟩ : ∃ m, (Tree.node l a v ht r).first = some m := by
      rw [Tree.first_eq_head]
      cases e : (Tree.node l a v ht r).nodes with
      | nil => simp at e
      | cons m ms => exact ⟨m, rfl⟩
    have := find_min_spec _ fuel hrep (le_of_lt hfuel) rfl hm
    rw [Tree.first_eq_head] at hm
    simp only [begin_of, Tree.ptr_node, this, Option.map_some', Tree.addrs_eq_map,
      List.head?_map, hm]

section ordered

variable [LinearOrder T]

/-! ## Insertion: in-order effect and refinement -/

/-- In-order effect of an insertion: nothing when the key is found, otherwise the new node
appears somewhere in the sequence. -/
theorem Tree.insert_nodes (f : Nat) (key : T) : ∀ (t : Tree T) {t1 : Tree T},
    t.insert f key = some t1 →
    (t.find key ≠ none → t1.nodes = t.nodes) ∧
    (t.find key = none → ∃ xs ys, t.nodes = xs ++ ys ∧ t1.nodes = xs ++ (f, key) :: ys)
  | nil, t1, hins => by
    simp only [insert, Option.some.injEq] at hins
    subst hins
    exact ⟨fun hc => absurd rfl hc, fun _ => ⟨[], [], rfl, rfl⟩⟩
  | node l a v ht r, t1, hins => by
    by_cases c1 : key < v
    · simp only [insert, c1, ↓reduceIte, Option.bind_eq_bind, Option.bind_eq_some] at hins
      obtain ⟨x1, hx1, hreb⟩ := hins
      have hn := rebalance_nodes hreb
      simp only [update_node, nodes_node] at hn
      have ih := insert_nodes f key l hx1
      simp only [find, c1, ↓reduceIte, nodes_node]
      refine ⟨fun hf => by rw [hn, ih.1 hf], fun hf => ?_⟩
      obtain ⟨xs, ys, e1, e2⟩ := ih.2 hf
      exact ⟨xs, ys ++ (a, v) :: r.nodes, by simp [e1], by simp [hn, e2]⟩
    by_cases c2 : v < key
    · simp only [insert, c1, c2, ↓reduceIte, Option.bind_eq_bind, Option.bind_eq_some] at hins
      obtain ⟨x1, hx1, hreb⟩ := hins
      have hn := rebalance_nodes hreb
      simp only [update_node, nodes_node] at hn
      have ih := insert_nodes f key r hx1
      simp only [find, c1, c2, ↓reduceIte, nodes_node]
      refine ⟨fun hf => by rw [hn, ih.1 hf], fun hf => ?_⟩
      obtain ⟨xs, ys, e1, e2⟩ := ih.2 hf
      exact ⟨l.nodes ++ (a, v) :: xs, ys, by simp [e1], by simp [hn, e2]⟩
    · simp only [insert, c1, c2, ↓reduceIte, Option.some.injEq] at hins
      subst hins
      simp [find, c1, c2]

theorem Tree.insert_addrs_mem {f : Nat} {key : T} {t t1 : Tree T} (hins : t.insert f key = some t1) :
    ∀ y ∈ t1.addrs, y ∈ t.addrs ∨ y = f := by
  intro y hy
  rw [addrs_eq_map] at hy ⊢
  by_cases hf : t.find key = none
  · obtain ⟨xs, ys, e1, e2⟩ := (insert_nodes f key t hins).2 hf
    rw [e2] at hy
    rw [e1]
    simp only [List.map_append, List.map_cons, List.mem_append, List.mem_cons] at hy ⊢
    tauto
  · rw [(insert_nodes f key t hins).1 hf] at hy
    exact Or.inl hy

theorem Tree.insert_nodup {f : Nat} {key : T} {t t1 : Tree T} (hins : t.insert f key = some t1)
    (hnd : t.addrs.Nodup) (hf : f ∉ t.addrs) : t1.addrs.Nodup := by
  rw [addrs_eq_map] at hnd hf ⊢
  by_cases hfind : t.find key = none
  · obtain ⟨xs, ys, e1, e2⟩ := (insert_nodes f key t hins).2 hfind
    rw [e1] at hnd hf
    rw [e2]
    simp only [List.map_append, List.map_cons, List.mem_append, not_or] at hnd hf ⊢
    have := List.nodup_middle.2 (List.nodup_cons.2 ⟨by
      simp only [List.mem_append, not_or]; exact hf, hnd⟩)
    exact this
  · rw [(insert_nodes f key t hins).1 hfind]
    exact hnd

theorem insert_node_nil {h : Heap T} (s : Set T) (key : T)
    (hb : ∀ b, s.begin_ = some b → ∃ bn, rd h b = some bn) (f : Nat) :
    insert_node (f + 1) h s none key =
      some (h ++ [some ⟨none, none, none, 0, key⟩], s.with_new h key, h.length) := by
  cases hs : s.begin_ with
  | none => simp [insert_node, alloc, hs, Set.with_new]
  | some b =>
    obtain ⟨bn, hbn⟩ := hb b hs
    have hbn1 : rd (h ++ [some ⟨none, none, none, 0, key⟩]) b = some bn := by
      rw [rd_append_old _ (rd_lt hbn)]; exact hbn
    by_cases c : key < bn.value <;> simp [insert_node, alloc, hs, Set.with_new, hbn, hbn1, c]

theorem insert_node_spec {h : Heap T} (s : Set T) (key : T)
    (hb : ∀ b, s.begin_ = some b → ∃ bn, rd h b = some bn) :
    ∀ (t : Tree T) {t1 : Tree T} {p : Option Nat} (fuel : Nat), Rep h t p → t.addrs.Nodup →
      t.insert h.length key = some t1 → t.depth < fuel →
      ∃ h1 c, insert_node fuel h s t.ptr key =
          some (h1, (if t.find key = none then s.with_new h key else s), c) ∧
        t1.ptr = some c ∧ (∃ p1, Rep h1 t1 p1) ∧
        (∀ y, y ∉ t.addrs → y < h.length → rd h1 y = rd h y) ∧
        h1.length = (if t.find key = none then h.length + 1 else h.length)
  | .nil, t1, p, fuel, _, _, hins, hfuel => by
    obtain ⟨f, rfl⟩ : ∃ f, fuel = f + 1 := ⟨fuel - 1, by simp at hfuel; omega⟩
    simp only [Tree.insert, Option.some.injEq] at hins
    subst hins
    refine ⟨h ++ [some ⟨none, none, none, 0, key⟩], h.length, ?_, rfl, ⟨none, ?_⟩,
      ?_, ?_⟩
    · simpa [Tree.find] using insert_node_nil s key hb f
    · exact ⟨rd_append_new _ _, trivial, trivial⟩
    · intro y _ hy
      exact rd_append_old _ hy
    · simp [Tree.find]
  | .node l a v ht r, t1, p, fuel, hrep, hnd, hins, hfuel => by
    obtain ⟨f, rfl⟩ : ∃ f, fuel = f + 1 := ⟨fuel - 1, by simp at hfuel; omega⟩
    simp only [Tree.depth_node, Nat.add_lt_add_iff_right, max_lt_iff] at hfuel
    obtain ⟨ha, hl, hr⟩ := hrep
    obtain ⟨hln, hrn, hal, har, hlr⟩ := Tree.nodup_node.1 hnd
    have hlen := rd_lt ha
    by_cases c1 : key < v
    · simp only [Tree.insert, c1, ↓reduceIte, Option.bind_eq_bind, Option.bind_eq_some] at hins
      obtain ⟨l1, hl1, hreb⟩ := hins
      obtain ⟨h1, c, e1, hc, ⟨p1, rep1⟩, fr1, len1⟩ :=
        insert_node_spec s key hb l f hl hln hl1 hfuel.1
      have hmem := Tree.insert_addrs_mem hl1
      have hfresh : h.length ∉ l.addrs := fun hx => absurd (hl.lt _ hx) (lt_irrefl _)
      have ha1 : rd h1 a = some ⟨l.ptr, r.ptr, p, ht, v⟩ := by rw [fr1 a hal hlen]; exact ha
      have hr1 : Rep h1 r (some a) := hr.frame fun y hy =>
        fr1 y (fun hy2 => hlr y hy2 hy) (hr.lt y hy)
      have hal1 : a ∉ l1.addrs := fun hx => by
        rcases hmem a hx with hx | hx
        · exact hal hx
        · omega
      have hnd1 : (Tree.node l1 a v ht r).addrs.Nodup := by
        refine Tree.nodup_node.2 ⟨Tree.insert_nodup hl1 hln hfresh, hrn, hal1, har, ?_⟩
        intro y hy hy2
        rcases hmem y hy with hx | hx
        · exact hlr y hx hy2
        · have := hr.lt y hy2; omega
      obtain ⟨h2, e2, rep2, fr2, len2⟩ := link_left_spec ha1 rep1 hr1 hnd1
      obtain ⟨h3, e3, rep3, fr3, len3⟩ := update_spec rep2 hnd1
      rw [Tree.update_node] at hreb rep3
      obtain ⟨h4, b, e4, hb4, rep4, fr4, len4⟩ := rebalance_spec rep3 hnd1 hreb
      refine ⟨h4, b, ?_, hb4, rep4, ?_, ?_⟩
      · rw [hc] at e2
        simp only [Tree.ptr_node, Tree.find, c1, ↓reduceIte]
        simp [insert_node, ha, c1, e1, e2, e3, e4]
      · intro y hy hylen
        simp only [Tree.addrs_node, List.mem_append, List.mem_cons, not_or] at hy
        have hy1 : y ∉ l1.addrs := fun hx => by
          rcases hmem y hx with hx | hx
          · exact hy.1 hx
          · omega
        rw [fr4 y (by simp [hy1, hy.2.1, hy.2.2]), fr3 y hy.2.1, fr2 y hy.2.1 hy1,
          fr1 y hy.1 hylen]
      · simp only [Tree.find, c1, ↓reduceIte]
        omega
    by_cases c2 : v < key
    · simp only [Tree.insert, c1, c2, ↓reduceIte, Option.bind_eq_bind, Option.bind_eq_some]
        at hins
      obtain ⟨r1, hr1, hreb⟩ := hins
      obtain ⟨h1, c, e1, hc, ⟨p1, rep1⟩, fr1, len1⟩ :=
        insert_node_spec s key hb r f hr hrn hr1 hfuel.2
      have hmem := Tree.insert_addrs_mem hr1
      have hfresh : h.length ∉ r.addrs := fun hx => absurd (hr.lt _ hx) (lt_irrefl _)
      have ha1 : rd h1 a = some ⟨l.ptr, r.ptr, p, ht, v⟩ := by rw [fr1 a har hlen]; exact ha
      have hl1 : Rep h1 l (some a) := hl.frame fun y hy =>
        fr1 y (fun hy2 => hlr y hy hy2) (hl.lt y hy)
      have har1 : a ∉ r1.addrs := fun hx => by
        rcases hmem a hx with hx | hx
        · exact har hx
        · omega
      have hnd1 : (Tree.node l a v ht r1).addrs.Nodup := by
        refine Tree.nodup_node.2 ⟨hln, Tree.insert_nodup hr1 hrn hfresh, hal, har1, ?_⟩
        intro y hy hy2
        rcases hmem y hy2 with hx | hx
        · exact hlr y hy hx
        · have := hl.lt y hy; omega
      obtain ⟨h2, e2, rep2, fr2, len2⟩ := link_right_spec ha1 hl1 rep1 hnd1
      obtain ⟨h3, e3, rep3, fr3, len3⟩ := update_spec rep2 hnd1
      rw [Tree.update_node] at hreb rep3
      obtain ⟨h4, b, e4, hb4, rep4, fr4, len4⟩ := rebalance_spec rep3 hnd1 hreb
      refine ⟨h4, b, ?_, hb4, rep4, ?_, ?_⟩
      · rw [hc] at e2
        simp only [Tree.ptr_node, Tree.find, c1, c2, ↓reduceIte]
        simp [insert_node, ha, c1, c2, e1, e2, e3, e4]
      · intro y hy hylen
        simp only [Tree.addrs_node, List.mem_append, List.mem_cons, not_or] at hy
        have hy1 : y ∉ r1.addrs := fun hx => by
          rcases hmem y hx with hx | hx
          · exact hy.2.2 hx
          · omega
        rw [fr4 y (by simp [hy1, hy.2.1, hy.1]), fr3 y hy.2.1, fr2 y hy.2.1 hy1,
          fr1 y hy.2.2 hylen]
      · simp only [Tree.find, c1, c2, ↓reduceIte]
        omega
    · simp only [Tree.insert, c1, c2, ↓reduceIte, Option.some.injEq] at hins
      subst hins
      refine ⟨h, a, ?_, rfl, ⟨p, ha, hl, hr⟩, fun _ _ _ => rfl, ?_⟩
      · simp [insert_node, ha, c1, c2, Tree.find]
      · simp [Tree.find, c1, c2]

/-! ## The cached-height invariant through `insert` and `erase` -/

theorem Tree.find_ne_none_ne_nil {t : Tree T} {key : T} (hf : t.find key ≠ none) : t ≠ nil := by
  rintro rfl
  exact hf rfl

/-- Insertion keeps the cached-height invariant, never fails on a tree that satisfies it,
changes the root's cached height by at most one, and changes nothing when the key is found. -/
theorem Tree.insert_inv (f : Nat) (key : T) : ∀ (t : Tree T), Inv t →
    ∃ t1, t.insert f key = some t1 ∧ Inv t1 ∧ t.hgt ≤ t1.hgt ∧ t1.hgt ≤ t.hgt + 1 ∧
      (t.find key ≠ none → t1 = t)
  | nil, _ =>
    ⟨node nil f key 0 nil, rfl,
      ⟨trivial, trivial, by simp, by simp, Or.inr ⟨rfl, rfl, rfl⟩⟩,
      le_refl _, by simp, fun hf => absurd rfl hf⟩
  | node l a v ht r, hinv => by
    obtain ⟨hl, hr, g1, g2, hh⟩ := hinv
    have hl0 := hl.hgt_nonneg
    have hr0 := hr.hgt_nonneg
    by_cases c1 : key < v
    · obtain ⟨l1, e1, hl1, b1, b2, same⟩ := insert_inv f key l hl
      obtain ⟨t1, e2, ht1, b3, b4, b5, b6⟩ :=
        rebalance_inv a v hl1 hr (by omega) (by omega)
      refine ⟨t1, by simp [insert, c1, e1, e2], ht1, ?_, ?_, ?_⟩
      · rcases hh with hh | ⟨-, -, hh⟩ <;> simp only [hgt_node] <;> omega
      · rcases hh with hh | ⟨rfl, rfl, hh⟩
        · simp only [hgt_node]; omega
        · simp only [insert, Option.some.injEq] at e1
          subst e1
          simp only [hgt_node, hgt_nil] at *
          omega
      · intro hf
        simp only [find, c1, ↓reduceIte] at hf
        have hl_eq := same hf
        subst hl_eq
        have hne := find_ne_none_ne_nil hf
        rcases hh with hh | ⟨hnil, -, -⟩
        · rw [b6 g1 g2, hh]
        · exact absurd hnil hne
    by_cases c2 : v < key
    · obtain ⟨r1, e1, hr1, b1, b2, same⟩ := insert_inv f key r hr
      obtain ⟨t1, e2, ht1, b3, b4, b5, b6⟩ :=
        rebalance_inv a v hl hr1 (by omega) (by omega)
      refine ⟨t1, by simp [insert, c1, c2, e1, e2], ht1, ?_, ?_, ?_⟩
      · rcases hh with hh | ⟨-, -, hh⟩ <;> simp only [hgt_node] <;> omega
      · rcases hh with hh | ⟨rfl, rfl, hh⟩
        · simp only [hgt_node]; omega
        · simp only [insert, Option.some.injEq] at e1
          subst e1
          simp only [hgt_node, hgt_nil] at *
          omega
      · intro hf
        simp only [find, c1, c2, ↓reduceIte] at hf
        have hr_eq := same hf
        subst hr_eq
        have hne := find_ne_none_ne_nil hf
        rcases hh with hh | ⟨-, hnil, -⟩
        · rw [b6 g1 g2, hh]
        · exact absurd hnil hne
    · exact ⟨node l a v ht r, by simp [insert, c1, c2], ⟨hl, hr, g1, g2, hh⟩, le_refl _,
        by omega, fun _ => rfl⟩

/-- Erasing keeps the cached-height invariant, never fails on a tree that satisfies it, and
changes the root's cached height by at most one. -/
theorem Tree.erase_inv (key : T) : ∀ (t : Tree T), Inv t →
    ∃ t1, t.erase key = some t1 ∧ Inv t1 ∧ t1.hgt ≤ t.hgt + 1 ∧ t.hgt ≤ t1.hgt + 1
  | nil, _ => ⟨nil, rfl, trivial, by simp, by simp⟩
  | node l a v ht r, hinv => by
    obtain ⟨hl, hr, g1, g2, hh⟩ := hinv
    have hl0 := hl.hgt_nonneg
    have hr0 := hr.hgt_nonneg
    by_cases c1 : key < v
    · obtain ⟨l1, e1, hl1, b1, b2⟩ := erase_inv key l hl
      obtain ⟨t1, e2, ht1, b3, b4, b5, -⟩ :=
        rebalance_inv a v hl1 hr (by omega) (by omega)
      refine ⟨t1, by simp [erase, c1, e1, e2], ht1, ?_, ?_⟩
      · rcases hh with hh | ⟨rfl, rfl, hh⟩
        · simp only [hgt_node]; omega
        · simp only [erase, Option.some.injEq] at e1
          subst e1
          simp only [hgt_node, hgt_nil] at *
          omega
      · rcases hh with hh | ⟨-, -, hh⟩ <;> simp only [hgt_node] <;> omega
    by_cases c2 : v < key
    · obtain ⟨r1, e1, hr1, b1, b2⟩ := erase_inv key r hr
      obtain ⟨t1, e2, ht1, b3, b4, b5, -⟩ :=
        rebalance_inv a v hl hr1 (by omega) (by omega)
      refine ⟨t1, by simp [erase, c1, c2, e1, e2], ht1, ?_, ?_⟩
      · rcases hh with hh | ⟨rfl, rfl, hh⟩
        · simp only [hgt_node]; omega
        · simp only [erase, Option.some.injEq] at e1
          subst e1
          simp only [hgt_node, hgt_nil] at *
          omega
      · rcases hh with hh | ⟨-, -, hh⟩ <;> simp only [hgt_node] <;> omega
    · cases r with
      | nil =>
        refine ⟨l, by simp [erase, c1, c2], hl, ?_, ?_⟩
        · rcases hh with hh | ⟨rfl, -, hh⟩ <;> simp only [hgt_node, hgt_nil] at * <;> omega
        · rcases hh with hh | ⟨rfl, -, hh⟩ <;> simp only [hgt_node, hgt_nil] at * <;> omega
      | node rl b vb hb rr =>
        obtain ⟨m, hm⟩ := first_some_of_ne_nil (t := node rl b vb hb rr) (by simp)
        obtain ⟨r1, e1, hr1, b1, b2⟩ := remove_min_inv (node rl b vb hb rr) hr (by simp)
        obtain ⟨t1, e2, ht1, b3, b4, b5, -⟩ :=
          rebalance_inv m.1 m.2 hl hr1 (by omega) (by omega)
        have hh2 : ht = max l.hgt (node rl b vb hb rr).hgt + 1 := by
          rcases hh with hh | ⟨-, hnil, -⟩
          · exact hh
          · simp at hnil
        refine ⟨t1, by simp [erase, c1, c2, hm, e1, e2], ht1, ?_, ?_⟩ <;>
          simp only [hgt_node] at * <;> omega

/-! ## Erasure: in-order effect and refinement -/

/-- In-order effect of erasing: nothing when the key is not found, otherwise the node found
leaves the sequence. -/
theorem Tree.erase_nodes (key : T) : ∀ (t : Tree T) {t1 : Tree T}, t.erase key = some t1 →
    (t.find key = none → t1.nodes = t.nodes) ∧
    (∀ u, t.find key = some u →
      ∃ xs ys, t.nodes = xs ++ (u, key) :: ys ∧ t1.nodes = xs ++ ys)
  | nil, t1, he => by
    simp only [erase, Option.some.injEq] at he
    subst he
    exact ⟨fun _ => rfl, fun u hu => by simp [find] at hu⟩
  | node l a v ht r, t1, he => by
    by_cases c1 : key < v
    · simp only [erase, c1, ↓reduceIte, Option.bind_eq_bind, Option.bind_eq_some] at he
      obtain ⟨l1, hl1, hreb⟩ := he
      have hn := rebalance_nodes hreb
      simp only [update_node, nodes_node] at hn
      have ih := erase_nodes key l hl1
      simp only [find, c1, ↓reduceIte, nodes_node]
      refine ⟨fun hf => by rw [hn, ih.1 hf], fun u hf => ?_⟩
      obtain ⟨xs, ys, e1, e2⟩ := ih.2 u hf
      exact ⟨xs, ys ++ (a, v) :: r.nodes, by simp [e1], by simp [hn, e2]⟩
    by_cases c2 : v < key
    · simp only [erase, c1, c2, ↓reduceIte, Option.bind_eq_bind, Option.bind_eq_some] at he
      obtain ⟨r1, hr1, hreb⟩ := he
      have hn := rebalance_nodes hreb
      simp only [update_node, nodes_node] at hn
      have ih := erase_nodes key r hr1
      simp only [find, c1, c2, ↓reduceIte, nodes_node]
      refine ⟨fun hf => by rw [hn, ih.1 hf], fun u hf => ?_⟩
      obtain ⟨xs, ys, e1, e2⟩ := ih.2 u hf
      exact ⟨l.nodes ++ (a, v) :: xs, ys, by simp [e1], by simp [hn, e2]⟩
    · have hkv : key = v := le_antisymm (not_lt.1 c2) (not_lt.1 c1)
      simp only [find, c1, c2, ↓reduceIte, nodes_node]
      refine ⟨fun hf => by simp at hf, fun u hf => ?_⟩
      simp only [Option.some.injEq] at hf
      subst hf hkv
      cases r with
      | nil =>
        simp only [erase, c1, ↓reduceIte, ptr_nil, Option.some.injEq] at he
        subst he
        exact ⟨l.nodes, [], by simp, by simp⟩
      | node rl b vb hb rr =>
        simp only [erase, c1, ↓reduceIte, ptr_node, Option.bind_eq_bind,
          Option.bind_eq_some] at he
        obtain ⟨m, hm, r1, hr1, hreb⟩ := he
        have hn := rebalance_nodes hreb
        simp only [update_node, nodes_node] at hn
        have hfr := first_remove_min hm hr1
        exact ⟨l.nodes, (node rl b vb hb rr).nodes, rfl, by rw [hn, hfr]⟩

theorem erase_node_spec {h : Heap T} (s : Set T) (key : T) (nb : Option Nat) :
    ∀ (t : Tree T) {t1 : Tree T} {p : Option Nat} (fuel : Nat), Rep h t p → t.addrs.Nodup →
      t.erase key = some t1 → t.depth < fuel →
      (∀ u, t.find key = some u → s.begin_ = some u →
        ∀ f, t.subdepth key ≤ f → iterator_inc f h (some u) = some nb) →
      ∃ h1, erase_node fuel h s t.ptr key =
          some (h1, s.after_erase nb (t.find key), t1.ptr) ∧
        (∃ p1, Rep h1 t1 p1) ∧ (∀ y, y ∉ t.addrs → rd h1 y = rd h y) ∧
        h1.length = h.length
  | .nil, t1, p, fuel, _, _, he, hfuel, _ => by
    obtain ⟨f, rfl⟩ : ∃ f, fuel = f + 1 := ⟨fuel - 1, by simp at hfuel; omega⟩
    simp only [Tree.erase, Option.some.injEq] at he
    subst he
    exact ⟨h, by simp [erase_node, Tree.find, Set.after_erase], ⟨none, trivial⟩,
      fun _ _ => rfl, rfl⟩
  | .node l a v ht r, t1, p, fuel, hrep, hnd, he, hfuel, hinc => by
    obtain ⟨f, rfl⟩ : ∃ f, fuel = f + 1 := ⟨fuel - 1, by simp at hfuel; omega⟩
    have hfuel' := hfuel
    simp only [Tree.depth_node, Nat.add_lt_add_iff_right, max_lt_iff] at hfuel
    obtain ⟨ha, hl, hr⟩ := hrep
    obtain ⟨hln, hrn, hal, har, hlr⟩ := Tree.nodup_node.1 hnd
    by_cases c1 : key < v
    · simp only [Tree.erase, c1, ↓reduceIte, Option.bind_eq_bind, Option.bind_eq_some] at he
      obtain ⟨l1, hl1, hreb⟩ := he
      simp only [Tree.find, Tree.subdepth, c1, ↓reduceIte] at hinc ⊢
      obtain ⟨h1, e1, ⟨p1, rep1⟩, fr1, len1⟩ :=
        erase_node_spec s key nb l f hl hln hl1 hfuel.1 hinc
      have hsub : ∀ y ∈ l1.addrs, y ∈ l.addrs := by
        intro y hy
        rw [Tree.addrs_eq_map] at hy ⊢
        cases hfind : l.find key with
        | none => rw [(Tree.erase_nodes key l hl1).1 hfind] at hy; exact hy
        | some u =>
          obtain ⟨xs, ys, e1, e2⟩ := (Tree.erase_nodes key l hl1).2 u hfind
          rw [e2] at hy
          rw [e1]
          simp only [List.map_append, List.map_cons, List.mem_append, List.mem_cons] at hy ⊢
          tauto
      have hl1n : l1.addrs.Nodup := by
        rw [Tree.addrs_eq_map] at hln ⊢
        cases hfind : l.find key with
        | none => rw [(Tree.erase_nodes key l hl1).1 hfind]; exact hln
        | some u =>
          obtain ⟨xs, ys, e1, e2⟩ := (Tree.erase_nodes key l hl1).2 u hfind
          rw [e1] at hln
          rw [e2]
          simp only [List.map_append, List.map_cons] at hln ⊢
          exact (List.nodup_cons.1 (List.nodup_middle.1 hln)).2
      have hal1 : a ∉ l1.addrs := fun hx => hal (hsub a hx)
      have ha1 : rd h1 a = some ⟨l.ptr, r.ptr, p, ht, v⟩ := by rw [fr1 a hal]; exact ha
      have hr1 : Rep h1 r (some a) := hr.frame fun y hy => fr1 y (fun hy2 => hlr y hy2 hy)
      have hnd1 : (Tree.node l1 a v ht r).addrs.Nodup :=
        Tree.nodup_node.2 ⟨hl1n, hrn, hal1, har, fun y hy => hlr y (hsub y hy)⟩
      obtain ⟨h2, e2, rep2, fr2, len2⟩ := link_left_spec ha1 rep1 hr1 hnd1
      obtain ⟨h3, e3, rep3, fr3, len3⟩ := update_spec rep2 hnd1
      rw [Tree.update_node] at hreb rep3
      obtain ⟨h4, c, e4, hc4, rep4, fr4, len4⟩ := rebalance_spec rep3 hnd1 hreb
      refine ⟨h4, ?_, rep4, ?_, by omega⟩
      · simp [erase_node, ha, c1, e1, e2, e3, e4, hc4]
      · intro y hy
        simp only [Tree.addrs_node, List.mem_append, List.mem_cons, not_or] at hy
        have hy1 : y ∉ l1.addrs := fun hx => hy.1 (hsub y hx)
        rw [fr4 y (by simp [hy1, hy.2.1, hy.2.2]), fr3 y hy.2.1, fr2 y hy.2.1 hy1, fr1 y hy.1]
    by_cases c2 : v < key
    · simp only [Tree.erase, c1, c2, ↓reduceIte, Option.bind_eq_bind, Option.bind_eq_some]
        at he
      obtain ⟨r1, hr1, hreb⟩ := he
      simp only [Tree.find, Tree.subdepth, c1, c2, ↓reduceIte] at hinc ⊢
      obtain ⟨h1, e1, ⟨p1, rep1⟩, fr1, len1⟩ :=
        erase_node_spec s key nb r f hr hrn hr1 hfuel.2 hinc
      have hsub : ∀ y ∈ r1.addrs, y ∈ r.addrs := by
        intro y hy
        rw [Tree.addrs_eq_map] at hy ⊢
        cases hfind : r.find key with
        | none => rw [(Tree.erase_nodes key r hr1).1 hfind] at hy; exact hy
        | some u =>
          obtain ⟨xs, ys, e1, e2⟩ := (Tree.erase_nodes key r hr1).2 u hfind
          rw [e2] at hy
          rw [e1]
          simp only [List.map_append, List.map_cons, List.mem_append, List.mem_cons] at hy ⊢
          tauto
      have hr1n : r1.addrs.Nodup := by
        rw [Tree.addrs_eq_map] at hrn ⊢
        cases hfind : r.find key with
        | none => rw [(Tree.erase_nodes key r hr1).1 hfind]; exact hrn
        | some u =>
          obtain ⟨xs, ys, e1, e2⟩ := (Tree.erase_nodes key r hr1).2 u hfind
          rw [e1] at hrn
          rw [e2]
          simp only [List.map_append, List.map_cons] at hrn ⊢
          exact (List.nodup_cons.1 (List.nodup_middle.1 hrn)).2
      have har1 : a ∉ r1.addrs := fun hx => har (hsub a hx)
      have ha1 : rd h1 a = some ⟨l.ptr, r.ptr, p, ht, v⟩ := by rw [fr1 a har]; exact ha
      have hl1 : Rep h1 l (some a) := hl.frame fun y hy => fr1 y (fun hy2 => hlr y hy hy2)
      have hnd1 : (Tree.node l a v ht r1).addrs.Nodup :=
        Tree.nodup_node.2 ⟨hln, hr1n, hal, har1, fun y hy hy2 => hlr y hy (hsub y hy2)⟩
      obtain ⟨h2, e2, rep2, fr2, len2⟩ := link_right_spec ha1 hl1 rep1 hnd1
      obtain ⟨h3, e3, rep3, fr3, len3⟩ := update_spec rep2 hnd1
      rw [Tree.update_node] at hreb rep3
      obtain ⟨h4, c, e4, hc4, rep4, fr4, len4⟩ := rebalance_spec rep3 hnd1 hreb
      refine ⟨h4, ?_, rep4, ?_, by omega⟩
      · simp [erase_node, ha, c1, c2, e1, e2, e3, e4, hc4]
      · intro y hy
        simp only [Tree.addrs_node, List.mem_append, List.mem_cons, not_or] at hy
        have hy1 : y ∉ r1.addrs := fun hx => hy.2.2 (hsub y hx)
        rw [fr4 y (by simp [hy1, hy.2.1, hy.1]), fr3 y hy.2.1, fr2 y hy.2.1 hy1, fr1 y hy.2.2]
    · simp only [Tree.find, Tree.subdepth, c1, c2, ↓reduceIte] at hinc ⊢
      have hi : s.begin_ = some a → iterator_inc f h (some a) = some nb :=
        fun hb => hinc a rfl hb f (by omega)
      cases r with
      | nil =>
        simp only [Tree.erase, c1, c2, ↓reduceIte, Tree.ptr_nil, Option.some.injEq] at he
        subst he
        refine ⟨dealloc h a, ?_, ⟨_, hl.dealloc_other hal⟩, ?_, length_dealloc _ _⟩
        · simp only [Tree.ptr_nil] at ha
          by_cases hb : s.begin_ = some a
          · simp [erase_node, ha, c1, c2, hb, hi hb, Set.without, Set.after_erase]
          · simp [erase_node, ha, c1, c2, hb, Set.without, Set.after_erase]
        · intro y hy
          simp only [Tree.addrs_node, List.mem_append, List.mem_cons, not_or] at hy
          exact rd_dealloc_ne (Ne.symm hy.2.1)
      | node rl b vb hb rr =>
        simp only [Tree.erase, c1, c2, ↓reduceIte, Tree.ptr_node, Option.bind_eq_bind,
          Option.bind_eq_some] at he
        obtain ⟨m, hm, r1, hr1, hreb⟩ := he
        have hdr : (Tree.node rl b vb hb rr).depth ≤ f := by omega
        have efm := find_min_spec (Tree.node rl b vb hb rr) f hr hdr rfl hm
        obtain ⟨h1, e1, ⟨p1, rep1⟩, fr1, len1⟩ :=
          remove_min_spec (Tree.node rl b vb hb rr) f hr hrn hr1 hdr rfl
        have hradd := Tree.first_remove_min_addrs hm hr1
        rw [hradd] at hrn har hlr
        obtain ⟨hm1, hr1n⟩ := List.nodup_cons.1 hrn
        simp only [List.mem_cons, not_or] at har hlr
        obtain ⟨rt, par, hm0, hcell⟩ := hr.first_cell hm
        have hcell1 : rd h1 m.1 = some ⟨(Tree.nil : Tree T).ptr, rt, par, hm0, m.2⟩ := by
          rw [fr1 _ hm1]; exact hcell
        -- link_right(v, remove_min(u->right))
        have hnd2 : (Tree.node .nil m.1 m.2 hm0 r1).addrs.Nodup :=
          Tree.nodup_node.2 ⟨List.nodup_nil, hr1n, by simp, hm1, by simp⟩
        obtain ⟨h2, e2, rep2, fr2, len2⟩ :=
          link_right_spec (l := .nil) hcell1 trivial rep1 hnd2
        have ha2 : rd h2 a = some ⟨l.ptr, some b, p, ht, v⟩ := by
          rw [fr2 a har.1 har.2, fr1 a har.2]; exact ha
        have hl2 : Rep h2 l (some a) := hl.frame fun y hy => by
          rw [fr2 y (hlr y hy).1 (hlr y hy).2, fr1 y (hlr y hy).2]
        -- link_left(v, u->left)
        have hml : m.1 ∉ l.addrs := fun hx => (hlr _ hx).1 rfl
        have hnd3 : (Tree.node l m.1 m.2 hm0 r1).addrs.Nodup :=
          Tree.nodup_node.2 ⟨hln, hr1n, hml, hm1, fun y hy => (hlr y hy).2⟩
        obtain ⟨h3, e3, rep3, fr3, len3⟩ := link_left_spec rep2.1 hl2 rep2.2.2 hnd3
        obtain ⟨h4, e4, rep4, fr4, len4⟩ := update_spec rep3 hnd3
        rw [Tree.update_node] at hreb rep4
        have ham : a ∉ (Tree.node l m.1 m.2 (max l.hgt r1.hgt + 1) r1).addrs := by
          simp only [Tree.addrs_node, List.mem_append, List.mem_cons, not_or]
          exact ⟨hal, har.1, har.2⟩
        have rep5 := rep4.dealloc_other ham
        obtain ⟨h6, c, e6, hc6, rep6, fr6, len6⟩ := rebalance_spec rep5 hnd3 hreb
        refine ⟨h6, ?_, rep6, ?_, ?_⟩
        · simp only [Tree.ptr_node] at ha
          by_cases hb : s.begin_ = some a
          · simp [erase_node, ha, c1, c2, hb, hi hb, Set.without, Set.after_erase, efm, e1,
              e2, ha2, e3, e4, e6, hc6]
          · simp [erase_node, ha, c1, c2, hb, Set.without, Set.after_erase, efm, e1, e2, ha2,
              e3, e4, e6, hc6]
        · intro y hy
          have hy' : y ∉ l.addrs ++ a :: (m.1 :: r1.addrs) := by rw [← hradd]; exact hy
          simp only [List.mem_append, List.mem_cons, not_or] at hy'
          obtain ⟨hy1, hy2, hy3, hy4⟩ := hy'
          rw [fr6 y (by simp [hy1, hy3, hy4]), rd_dealloc_ne (Ne.symm hy2), fr4 y hy3,
            fr3 y hy3 hy1, fr2 y hy3 hy4, fr1 y hy4]
        · rw [len6, length_dealloc]; omega

/-! ## Search-tree order, `find` and `lower_bound` -/

theorem Tree.bst_iff_sorted : ∀ t : Tree T, Bst t ↔ t.keys.Pairwise (· < ·)
  | nil => by simp [Bst]
  | node l a v ht r => by
    simp only [Bst, keys_node, List.pairwise_append, List.pairwise_cons, bst_iff_sorted l,
      bst_iff_sorted r, List.mem_cons]
    constructor
    · rintro ⟨h1, h2, h3, h4⟩
      refine ⟨h1, ⟨h4, h2⟩, ?_⟩
      rintro x hx y (rfl | hy)
      · exact h3 x hx
      · exact lt_trans (h3 x hx) (h4 y hy)
    · rintro ⟨h1, ⟨h4, h2⟩, h5⟩
      exact ⟨h1, h2, fun x hx => h5 x hx v (Or.inl rfl), h4⟩

theorem Tree.Bst.of_keys_eq {t t1 : Tree T} (hb : Bst t) (hk : t1.keys = t.keys) : Bst t1 := by
  rw [bst_iff_sorted] at hb ⊢
  rw [hk]
  exact hb

theorem Tree.insert_keys_mem {f : Nat} {key : T} {t t1 : Tree T} (hins : t.insert f key = some t1) :
    ∀ x ∈ t1.keys, x ∈ t.keys ∨ x = key := by
  intro y hy
  rw [keys_eq_map] at hy ⊢
  by_cases hf : t.find key = none
  · obtain ⟨xs, ys, e1, e2⟩ := (insert_nodes f key t hins).2 hf
    rw [e2] at hy
    rw [e1]
    simp only [List.map_append, List.map_cons, List.mem_append, List.mem_cons] at hy ⊢
    tauto
  · rw [(insert_nodes f key t hins).1 hf] at hy
    exact Or.inl hy

theorem Tree.insert_bst (f : Nat) (key : T) : ∀ (t : Tree T) {t1 : Tree T}, Bst t →
    t.insert f key = some t1 → Bst t1
  | nil, t1, _, hins => by
    simp only [insert, Option.some.injEq] at hins
    subst hins
    simp [Bst]
  | node l a v ht r, t1, hb, hins => by
    obtain ⟨hbl, hbr, hlv, hrv⟩ := hb
    by_cases c1 : key < v
    · simp only [insert, c1, ↓reduceIte, Option.bind_eq_bind, Option.bind_eq_some] at hins
      obtain ⟨l1, hl1, hreb⟩ := hins
      have hb1 : Bst (node l1 a v ht r) := by
        refine ⟨insert_bst f key l hbl hl1, hbr, ?_, hrv⟩
        intro x hx
        rcases insert_keys_mem hl1 x hx with hx | rfl
        · exact hlv x hx
        · exact c1
      exact hb1.of_keys_eq (by rw [rebalance_keys hreb]; simp)
    by_cases c2 : v < key
    · simp only [insert, c1, c2, ↓reduceIte, Option.bind_eq_bind, Option.bind_eq_some] at hins
      obtain ⟨r1, hr1, hreb⟩ := hins
      have hb1 : Bst (node l a v ht r1) := by
        refine ⟨hbl, insert_bst f key r hbr hr1, hlv, ?_⟩
        intro x hx
        rcases insert_keys_mem hr1 x hx with hx | rfl
        · exact hrv x hx
        · exact c2
      exact hb1.of_keys_eq (by rw [rebalance_keys hreb]; simp)
    · simp only [insert, c1, c2, ↓reduceIte, Option.some.injEq] at hins
      subst hins
      exact ⟨hbl, hbr, hlv, hrv⟩

theorem Tree.erase_keys_sublist {key : T} {t t1 : Tree T} (he : t.erase key = some t1) :
    t1.nodes.Sublist t.nodes := by
  cases hf : t.find key with
  | none => rw [(erase_nodes key t he).1 hf]
  | some u =>
    obtain ⟨xs, ys, e1, e2⟩ := (erase_nodes key t he).2 u hf
    rw [e1, e2]
    exact List.Sublist.append (List.Sublist.refl _) (List.sublist_cons_self _ _)

theorem Tree.erase_bst {key : T} {t t1 : Tree T} (hb : Bst t) (he : t.erase key = some t1) :
    Bst t1 := by
  rw [bst_iff_sorted, keys_eq_map] at hb ⊢
  exact hb.sublist ((erase_keys_sublist he).map _)

theorem Tree.erase_nodup {key : T} {t t1 : Tree T} (hn : t.addrs.Nodup) (he : t.erase key = some t1) :
    t1.addrs.Nodup := by
  rw [addrs_eq_map] at hn ⊢
  exact hn.sublist ((erase_keys_sublist he).map _)

/-- The search finds a node holding the key. -/
theorem Tree.find_some {key : T} : ∀ {t : Tree T} {u : Nat}, t.find key = some u →
    (u, key) ∈ t.nodes
  | node l a v ht r, u, hf => by
    by_cases c1 : key < v
    · simp only [find, c1, ↓reduceIte] at hf
      simp [find_some hf]
    by_cases c2 : v < key
    · simp only [find, c1, c2, ↓reduceIte] at hf
      simp [find_some hf]
    · simp only [find, c1, c2, ↓reduceIte, Option.some.injEq] at hf
      have hkv : key = v := le_antisymm (not_lt.1 c2) (not_lt.1 c1)
      simp [hf, hkv]

/-- In a search tree the search misses only keys that are not stored. -/
theorem Tree.find_none {key : T} : ∀ {t : Tree T}, Bst t → t.find key = none → key ∉ t.keys
  | nil, _, _ => by simp
  | node l a v ht r, hb, hf => by
    obtain ⟨hbl, hbr, hlv, hrv⟩ := hb
    simp only [keys_node, List.mem_append, List.mem_cons, not_or]
    by_cases c1 : key < v
    · simp only [find, c1, ↓reduceIte] at hf
      exact ⟨find_none hbl hf, ne_of_lt c1, fun hx => lt_asymm c1 (hrv key hx)⟩
    by_cases c2 : v < key
    · simp only [find, c1, c2, ↓reduceIte] at hf
      exact ⟨fun hx => lt_asymm c2 (hlv key hx), ne_of_gt c2, find_none hbr hf⟩
    · simp [find, c1, c2] at hf

theorem Tree.lower_bound_step (l : Tree T) (a : Nat) (v : T) (ht : Int) (r : Tree T) (key : T) :
    (node l a v ht r).lower_bound key =
      if key < v then
        match l.ptr with
        | none => some (a, v)
        | some _ => lower_bound l key
      else if v < key then
        match r.ptr with
        | none => some (a, v)
        | some _ => lower_bound r key
      else some (a, v) := rfl

/-- The descent of `lower_bound` stops at a node with every earlier key below `key` and every
later key above it. -/
theorem Tree.lower_bound_spec (key : T) : ∀ (t : Tree T), Bst t → t ≠ nil →
    ∃ m xs ys, t.lower_bound key = some m ∧ t.nodes = xs ++ m :: ys ∧
      (∀ x ∈ xs, x.2 < key) ∧ (∀ y ∈ ys, key < y.2)
  | nil, _, hne => absurd rfl hne
  | node l a v ht r, hb, _ => by
    obtain ⟨hbl, hbr, hlv, hrv⟩ := hb
    rw [keys_eq_map] at hlv hrv
    simp only [List.mem_map, forall_exists_index, and_imp] at hlv hrv
    by_cases c1 : key < v
    · cases l with
      | nil =>
        refine ⟨(a, v), [], r.nodes, by simp [lower_bound, c1], by simp, by simp, ?_⟩
        intro y hy
        exact lt_trans c1 (hrv y.2 y hy rfl)
      | node ll b vb hb lr =>
        obtain ⟨m, xs, ys, e1, e2, h1, h2⟩ :=
          lower_bound_spec key (node ll b vb hb lr) hbl (by simp)
        refine ⟨m, xs, ys ++ (a, v) :: r.nodes, by rw [lower_bound_step, if_pos c1]; exact e1,
          ?_, h1, ?_⟩
        · rw [nodes_node, e2]; simp
        · intro y hy
          simp only [List.mem_append, List.mem_cons] at hy
          rcases hy with hy | rfl | hy
          · exact h2 y hy
          · exact c1
          · exact lt_trans c1 (hrv y.2 y hy rfl)
    by_cases c2 : v < key
    · cases r with
      | nil =>
        refine ⟨(a, v), l.nodes, [], by simp [lower_bound, c1, c2], by simp, ?_, by simp⟩
        intro x hx
        exact lt_trans (hlv x.2 x hx rfl) c2
      | node rl b vb hb rr =>
        obtain ⟨m, xs, ys, e1, e2, h1, h2⟩ :=
          lower_bound_spec key (node rl b vb hb rr) hbr (by simp)
        refine ⟨m, l.nodes ++ (a, v) :: xs, ys,
          by rw [lower_bound_step, if_neg c1, if_pos c2]; exact e1, ?_, ?_, h2⟩
        · rw [nodes_node, e2]; simp
        · intro x hx
          simp only [List.mem_append, List.mem_cons] at hx
          rcases hx with hx | rfl | hx
          · exact lt_trans (hlv x.2 x hx rfl) c2
          · exact c2
          · exact h1 x hx
    · have hkv : key = v := le_antisymm (not_lt.1 c2) (not_lt.1 c1)
      subst hkv
      refine ⟨(a, key), l.nodes, r.nodes, by simp [lower_bound], rfl, ?_, ?_⟩
      · intro x hx; exact hlv x.2 x hx rfl
      · intro y hy; exact hrv y.2 y hy rfl

theorem find_node_spec {h : Heap T} (key : T) : ∀ (t : Tree T) {p : Option Nat} (fuel : Nat),
    Rep h t p → t.depth < fuel → find_node fuel h t.ptr key = some (t.find key)
  | .nil, _, fuel, _, hfuel => by
    obtain ⟨f, rfl⟩ : ∃ f, fuel = f + 1 := ⟨fuel - 1, by omega⟩
    rfl
  | .node l a v ht r, p, fuel, hrep, hfuel => by
    obtain ⟨f, rfl⟩ : ∃ f, fuel = f + 1 := ⟨fuel - 1, by omega⟩
    simp only [Tree.depth_node, Nat.add_lt_add_iff_right, max_lt_iff] at hfuel
    obtain ⟨ha, hl, hr⟩ := hrep
    by_cases c1 : key < v
    · simp [find_node, ha, c1, Tree.find, find_node_spec key l f hl hfuel.1]
    by_cases c2 : v < key
    · simp [find_node, ha, c1, c2, Tree.find, find_node_spec key r f hr hfuel.2]
    · simp [find_node, ha, c1, c2, Tree.find]

theorem lower_bound_node_spec {h : Heap T} (key : T) : ∀ (t : Tree T) {p : Option Nat}
    (fuel : Nat), Rep h t p → t.depth ≤ fuel → t ≠ .nil →
    lower_bound_node fuel h t.ptr key = (t.lower_bound key).map Prod.fst
  | .nil, _, _, _, _, hne => absurd rfl hne
  | .node l a v ht r, p, fuel, hrep, hfuel, _ => by
    obtain ⟨f, rfl⟩ : ∃ f, fuel = f + 1 := ⟨fuel - 1, by simp at hfuel; omega⟩
    simp only [Tree.depth_node, Nat.add_le_add_iff_right, max_le_iff] at hfuel
    obtain ⟨ha, hl, hr⟩ := hrep
    by_cases c1 : key < v
    · cases l with
      | nil =>
        simp only [Tree.ptr_nil] at ha
        simp [lower_bound_node, ha, c1, Tree.lower_bound]
      | node ll b vb hb lr =>
        have ih := lower_bound_node_spec key (Tree.node ll b vb hb lr) f hl hfuel.1 (by simp)
        simp only [Tree.ptr_node] at ha ih
        rw [Tree.lower_bound_step, if_pos c1]
        simp [lower_bound_node, ha, c1, ih]
    by_cases c2 : v < key
    · cases r with
      | nil =>
        simp only [Tree.ptr_nil] at ha
        simp [lower_bound_node, ha, c1, c2, Tree.lower_bound]
      | node rl b vb hb rr =>
        have ih := lower_bound_node_spec key (Tree.node rl b vb hb rr) f hr hfuel.2 (by simp)
        simp only [Tree.ptr_node] at ha ih
        rw [Tree.lower_bound_step, if_neg c1, if_pos c2]
        simp [lower_bound_node, ha, c1, c2, ih]
    · simp [lower_bound_node, ha, c1, c2, Tree.lower_bound]

theorem Tree.find_mem_addrs {key : T} {t : Tree T} {u : Nat} (hf : t.find key = some u) :
    u ∈ t.addrs := by
  rw [Tree.addrs_eq_map]
  exact List.mem_map.2 ⟨(u, key), Tree.find_some hf, rfl⟩

/-- `operator++` at the leftmost node, with only as much fuel as `erase` has left when it
finds that node. -/
theorem inc_first {h : Heap T} (key : T) : ∀ (t : Tree T) {p nx : Option Nat}, Rep h t p →
    t.addrs.Nodup → (∀ a, t.ptr = some a → ∀ f, 1 ≤ f → exit_right f h a = some nx) →
    ∀ u, t.find key = some u → t.addrs.head? = some u → ∀ f, t.subdepth key ≤ f →
      iterator_inc f h (some u) = some (t.addrs.tail.head?.or nx)
  | .nil, _, _, _, _, _, u, hf, _, _, _ => by simp [Tree.find] at hf
  | .node l a v ht r, p, nx, hrep, hnd, hup, u, hf, hhead, f, hfuel => by
    obtain ⟨hln, hrn, hal, har, hlr⟩ := Tree.nodup_node.1 hnd
    by_cases c1 : key < v
    · simp only [Tree.find, Tree.subdepth, c1, ↓reduceIte] at hf hfuel
      have hul := Tree.find_mem_addrs hf
      cases hla : l.addrs with
      | nil => rw [hla] at hul; simp at hul
      | cons z zs =>
        have hhead1 : l.addrs.head? = some u := by
          rw [Tree.addrs_node, hla] at hhead
          rw [hla]
          simpa using hhead
        have ih := inc_first key l hrep.2.1 hln
          (fun b hb f hf => exit_right_of_left hrep hnd hb f hf) u hf hhead1 f hfuel
        rw [ih, Tree.addrs_node, hla]
        cases zs <;> simp
    by_cases c2 : v < key
    · simp only [Tree.find, c1, c2, ↓reduceIte] at hf
      have hur := Tree.find_mem_addrs hf
      exfalso
      rw [Tree.addrs_node] at hhead
      cases hla : l.addrs with
      | nil =>
        rw [hla] at hhead
        simp only [List.nil_append, List.head?_cons, Option.some.injEq] at hhead
        exact har (hhead ▸ hur)
      | cons z zs =>
        rw [hla] at hhead
        simp only [List.cons_append, List.head?_cons, Option.some.injEq] at hhead
        exact hlr u (by rw [hla, ← hhead]; simp) hur
    · simp only [Tree.find, Tree.subdepth, c1, c2, ↓reduceIte, Option.some.injEq] at hf hfuel
      subst hf
      have hla : l.addrs = [] := by
        cases hla : l.addrs with
        | nil => rfl
        | cons z zs =>
          rw [Tree.addrs_node, hla] at hhead
          simp only [List.cons_append, List.head?_cons, Option.some.injEq] at hhead
          exact absurd (by rw [hla, hhead]; simp) hal
      have hroot := inc_at_root hrep (hup a rfl) f
        (by simp only [Tree.depth_node] at hfuel; omega)
        (by simp only [Tree.depth_node] at hfuel; omega)
      rw [hroot, Tree.addrs_node, hla]
      simp

/-! ## The invariant of reachable containers -/

theorem Good.exit_top {h : Heap T} {s : Set T} {t : Tree T} (hg : Good h s t) :
    ∀ a, t.ptr = some a → ∀ f, 1 ≤ f → exit_right f h a = some none := by
  intro a ha f hf
  obtain ⟨g, rfl⟩ : ∃ g, f = g + 1 := ⟨f - 1, by omega⟩
  cases t with
  | nil => simp at ha
  | node l a1 v ht r =>
    simp only [Tree.ptr_node, Option.some.injEq] at ha
    subst ha
    exact exit_right_top hg.rep.1 rfl g

theorem Good.depth_lt {h : Heap T} {s : Set T} {t : Tree T} (hg : Good h s t) {fuel : Nat}
    (hf : s.size_ < fuel) : t.depth < fuel := by
  have := t.depth_le_size
  have := hg.size
  omega

theorem insert_good {h : Heap T} {s : Set T} {t : Tree T} (hg : Good h s t) (key : T)
    (fuel : Nat) (hfuel : s.size_ < fuel) :
    ∃ h1 s1 t1, Set.insert fuel h s key = some (h1, s1) ∧ Good h1 s1 t1 ∧
      t.insert h.length key = some t1 ∧
      (∀ y, y ∉ t.addrs → y < h.length → rd h1 y = rd h y) ∧
      h1.length = (if t.find key = none then h.length + 1 else h.length) := by
  obtain ⟨t1, e1, hinv1, -, -, -⟩ := Tree.insert_inv h.length key t hg.inv
  have hfresh : h.length ∉ t.addrs := fun hx => absurd (hg.rep.lt _ hx) (lt_irrefl _)
  have hnd1 := Tree.insert_nodup e1 hg.nodup hfresh
  have hb : ∀ b, s.begin_ = some b → ∃ bn, rd h b = some bn := by
    intro b hb
    rw [hg.first] at hb
    have hmem : b ∈ t.addrs := List.mem_of_mem_head? hb
    rw [Tree.addrs_eq_map] at hmem
    obtain ⟨⟨x, k⟩, hxk, rfl⟩ := List.mem_map.1 hmem
    obtain ⟨n, hn, -⟩ := hg.rep.cell_of_mem hxk
    exact ⟨n, hn⟩
  obtain ⟨h1, c, e2, hc, ⟨p1, rep1⟩, fr1, len1⟩ :=
    insert_node_spec s key hb t fuel hg.rep hg.nodup e1 (hg.depth_lt hfuel)
  obtain ⟨n, hn, rep2⟩ := rep1.clear_parent hnd1 hc
  rw [← hg.root] at e2
  refine ⟨_, _, t1, by simp [Set.insert, e2, hn]; rfl, ⟨rep2, hnd1, hinv1,
    Tree.insert_bst _ _ t hg.bst e1, hc.symm, ?_, ?_⟩, e1, ?_, by rw [length_wr, len1]⟩
  · -- size
    by_cases hf : t.find key = none
    · obtain ⟨xs, ys, d1, d2⟩ := (Tree.insert_nodes _ key t e1).2 hf
      simp [hf, Set.with_new, hg.size, Tree.size_eq_length, d1, d2]
      omega
    · simp [hf, hg.size, Tree.size_eq_length, (Tree.insert_nodes _ key t e1).1 hf]
  · -- begin
    by_cases hf : t.find key = none
    · obtain ⟨xs, ys, d1, d2⟩ := (Tree.insert_nodes _ key t e1).2 hf
      have hs1 := (Tree.bst_iff_sorted t1).1 (Tree.insert_bst _ _ t hg.bst e1)
      rw [Tree.keys_eq_map, d2] at hs1
      simp only [List.map_append, List.map_cons, List.pairwise_append, List.pairwise_cons,
        List.mem_map, List.mem_cons, forall_exists_index, and_imp] at hs1
      simp only [hf, ↓reduceIte, Set.with_new]
      rw [Tree.addrs_eq_map, d2]
      have hfirst := hg.first
      rw [Tree.addrs_eq_map, d1] at hfirst
      cases xs with
      | nil =>
        cases ys with
        | nil =>
          simp only [List.append_nil, List.map_nil, List.head?_nil] at hfirst
          simp [hfirst]
        | cons y ys =>
          simp only [List.nil_append, List.map_cons, List.head?_cons] at hfirst
          obtain ⟨bn, hbn, hbv⟩ := hg.rep.cell_of_mem (x := y.1) (k := y.2) (by rw [d1]; simp)
          have hlt : key < bn.value := by
            rw [hbv]
            exact hs1.2.1.1 y.2 y (List.mem_cons_self _ _) rfl
          simp [hfirst, hbn, hlt]
      | cons x xs =>
        simp only [List.cons_append, List.map_cons, List.head?_cons] at hfirst
        obtain ⟨bn, hbn, hbv⟩ := hg.rep.cell_of_mem (x := x.1) (k := x.2) (by rw [d1]; simp)
        have hlt : ¬ key < bn.value := by
          rw [hbv]
          exact not_lt_of_gt (hs1.2.2 x.2 x (List.mem_cons_self _ _) rfl key (Or.inl rfl))
        simp [hfirst, hbn, hlt]
    · simp only [hf, ↓reduceIte]
      rw [hg.first, Tree.addrs_eq_map, Tree.addrs_eq_map, (Tree.insert_nodes _ key t e1).1 hf]
  · intro y hy hylen
    have hyc : c ≠ y := by
      intro hcy
      subst hcy
      have hc1 := Tree.insert_addrs_mem e1 c (Tree.ptr_mem hc)
      rcases hc1 with hc1 | hc1
      · exact hy hc1
      · omega
    rw [rd_wr_ne _ hyc]
    exact fr1 y hy hylen

theorem erase_good {h : Heap T} {s : Set T} {t : Tree T} (hg : Good h s t) (key : T)
    (fuel : Nat) (hfuel : s.size_ < fuel) :
    ∃ h1 s1 t1, Set.erase fuel h s key = some (h1, s1) ∧ Good h1 s1 t1 ∧
      t.erase key = some t1 ∧ (∀ y, y ∉ t.addrs → rd h1 y = rd h y) ∧
      h1.length = h.length := by
  obtain ⟨t1, e1, hinv1, -, -⟩ := Tree.erase_inv key t hg.inv
  have hnd1 := Tree.erase_nodup hg.nodup e1
  have hinc : ∀ u, t.find key = some u → s.begin_ = some u →
      ∀ f, t.subdepth key ≤ f → iterator_inc f h (some u) = some t.addrs.tail.head? := by
    intro u hu hb f hf
    rw [hg.first] at hb
    have := inc_first key t hg.rep hg.nodup hg.exit_top u hu hb f hf
    rwa [Option.or_none] at this
  obtain ⟨h1, e2, ⟨p1, rep1⟩, fr1, len1⟩ :=
    erase_node_spec s key t.addrs.tail.head? t fuel hg.rep hg.nodup e1 (hg.depth_lt hfuel) hinc
  rw [← hg.root] at e2
  -- the container fields after the recursive call
  obtain ⟨s2, hs2, hsize, hbegin⟩ : ∃ s2 : Set T,
      s2 = s.after_erase t.addrs.tail.head? (t.find key) ∧ s2.size_ = t1.size ∧
      s2.begin_ = t1.addrs.head? := by
    refine ⟨_, rfl, ?_, ?_⟩
    · cases hf : t.find key with
      | none =>
        simp only [Set.after_erase]
        rw [hg.size, Tree.size_eq_length, Tree.size_eq_length, (Tree.erase_nodes key t e1).1 hf]
      | some u =>
        obtain ⟨xs, ys, d1, d2⟩ := (Tree.erase_nodes key t e1).2 u hf
        simp only [Set.after_erase, Set.without, dec_size]
        rw [hg.size, Tree.size_eq_length, Tree.size_eq_length, d1, d2]
        simp
    · cases hf : t.find key with
      | none =>
        simp only [Set.after_erase]
        rw [hg.first, Tree.addrs_eq_map, Tree.addrs_eq_map, (Tree.erase_nodes key t e1).1 hf]
      | some u =>
        obtain ⟨xs, ys, d1, d2⟩ := (Tree.erase_nodes key t e1).2 u hf
        have hnd := hg.nodup
        simp only [Set.after_erase, Set.without]
        rw [hg.first]
        rw [Tree.addrs_eq_map, d1] at hnd ⊢
        rw [Tree.addrs_eq_map, d2]
        cases xs with
        | nil => simp
        | cons x xs =>
          have hne : x.1 ≠ u := by
            intro hxu
            simp only [List.cons_append, List.map_cons, List.map_append, List.nodup_cons,
              List.mem_append, List.mem_cons, not_or] at hnd
            exact hnd.1.2.1 hxu
          simp [hne]
  rw [← hs2] at e2
  cases hp : t1.ptr with
  | none =>
    have ht1 : t1 = .nil := Tree.ptr_eq_none.1 hp
    subst ht1
    refine ⟨h1, { s2 with root_ := none }, .nil, ?_, ⟨trivial, hnd1, hinv1,
      Tree.erase_bst hg.bst e1, rfl, hsize, hbegin⟩, e1, fr1, len1⟩
    simp [Set.erase, e2]
  | some a =>
    obtain ⟨n, hn, rep2⟩ := rep1.clear_parent hnd1 hp
    refine ⟨_, { s2 with root_ := some a }, t1, ?_, ⟨rep2, hnd1, hinv1,
      Tree.erase_bst hg.bst e1, hp.symm, hsize, hbegin⟩, e1, ?_, ?_⟩
    · simp [Set.erase, e2, hp, hn]
    · intro y hy
      have hya : a ≠ y := by
        intro hay
        subst hay
        have hmem := Tree.ptr_mem hp
        rw [Tree.addrs_eq_map] at hmem hy
        exact hy ((Tree.erase_keys_sublist e1).map _ |>.subset hmem)
      rw [rd_wr_ne _ hya]
      exact fr1 y hy
    · rw [length_wr, len1]

theorem good_empty (h : Heap T) : Good h (Set.fresh : Set T) .nil :=
  ⟨trivial, List.nodup_nil, trivial, trivial, rfl, rfl, rfl⟩

/-- Every reachable container holds a tree satisfying all the invariants. -/
theorem Reachable.good {h : Heap T} {s : Set T} (hr : Reachable h s) : ∃ t, Good h s t := by
  induction hr with
  | empty h => exact ⟨.nil, good_empty h⟩
  | insert fuel key _ hfuel hins ih =>
    obtain ⟨t, hg⟩ := ih
    obtain ⟨h2, s2, t1, e, hg1, -, -, -⟩ := insert_good hg key fuel hfuel
    rw [e] at hins
    simp only [Option.some.injEq, Prod.mk.injEq] at hins
    obtain ⟨rfl, rfl⟩ := hins
    exact ⟨t1, hg1⟩
  | erase fuel key _ hfuel hins ih =>
    obtain ⟨t, hg⟩ := ih
    obtain ⟨h2, s2, t1, e, hg1, -, -⟩ := erase_good hg key fuel hfuel
    rw [e] at hins
    simp only [Option.some.injEq, Prod.mk.injEq] at hins
    obtain ⟨rfl, rfl⟩ := hins
    exact ⟨t1, hg1⟩

/-! ## From the invariant to what the public functions return -/

/-- In a key-sorted sequence cut in two where the second part is exactly the keys with
property `P`, the least key with `P` is the first of the second part. -/
theorem least_is_head {A B : List (Nat × T)} {P : T → Prop}
    (hs : (A ++ B).Pairwise (fun a b => a.2 < b.2)) (hA : ∀ a ∈ A, ¬ P a.2)
    (hB : ∀ b ∈ B, P b.2) {y : T} (hy : y ∈ (A ++ B).map Prod.snd) (hPy : P y)
    (hleast : ∀ z ∈ (A ++ B).map Prod.snd, P z → y ≤ z) : ∃ q B1, B = (q, y) :: B1 := by
  cases B with
  | nil =>
    simp only [List.append_nil, List.mem_map] at hy
    obtain ⟨a, ha, rfl⟩ := hy
    exact absurd hPy (hA a ha)
  | cons b B1 =>
    have hyb : y ≤ b.2 := hleast b.2 (by simp) (hB b (by simp))
    simp only [List.map_append, List.map_cons, List.mem_append, List.mem_map, List.mem_cons] at hy
    rcases hy with ⟨a, ha, rfl⟩ | rfl | ⟨c, hc, rfl⟩
    · exact absurd hPy (hA a ha)
    · exact ⟨b.1, B1, rfl⟩
    · have hlt : b.2 < c.2 := by
        have := (List.pairwise_append.1 hs).2.1
        exact (List.pairwise_cons.1 this).1 c hc
      exact absurd hyb (not_le.2 hlt)

/-- Mirror image of `least_is_head`: the greatest key with `Q` is the last of the first
part. -/
theorem greatest_is_last {A B : List (Nat × T)} {Q : T → Prop}
    (hs : (A ++ B).Pairwise (fun a b => a.2 < b.2)) (hA : ∀ a ∈ A, Q a.2)
    (hB : ∀ b ∈ B, ¬ Q b.2) {y : T} (hy : y ∈ (A ++ B).map Prod.snd) (hQy : Q y)
    (hgreatest : ∀ z ∈ (A ++ B).map Prod.snd, Q z → z ≤ y) :
    ∃ q A1, A = A1 ++ [(q, y)] := by
  rcases List.eq_nil_or_concat A with rfl | ⟨A1, b, rfl⟩
  · simp only [List.nil_append, List.mem_map] at hy
    obtain ⟨a, ha, rfl⟩ := hy
    exact absurd hQy (hB a ha)
  · have hby : b.2 ≤ y := hgreatest b.2 (by simp) (hA b (by simp))
    simp only [List.concat_eq_append, List.map_append, List.map_cons, List.mem_append,
      List.mem_map, List.mem_cons, List.map_nil, List.mem_singleton, List.not_mem_nil,
      or_false] at hy
    rcases hy with (⟨c, hc, rfl⟩ | rfl) | ⟨a, ha, rfl⟩
    · have hlt : c.2 < b.2 := by
        have := (List.pairwise_append.1 hs).1
        rw [List.concat_eq_append] at this
        exact (List.pairwise_append.1 this).2.2 c hc b (by simp)
      exact absurd hby (not_le.2 hlt)
    · exact ⟨b.1, A1, by simp⟩
    · exact absurd hQy (hB a ha)

/-- In a search tree the search for a stored key ends at the node that holds it. -/
theorem Tree.find_of_mem : ∀ {t : Tree T} {u : Nat} {k : T}, Bst t → (u, k) ∈ t.nodes →
    t.find k = some u
  | node l a v ht r, u, k, hb, hm => by
    obtain ⟨hbl, hbr, hlv, hrv⟩ := hb
    rw [keys_eq_map] at hlv hrv
    simp only [nodes_node, List.mem_append, List.mem_cons, Prod.mk.injEq] at hm
    rcases hm with hm | ⟨rfl, rfl⟩ | hm
    · have : k < v := hlv k (List.mem_map.2 ⟨(u, k), hm, rfl⟩)
      simp only [find, this, ↓reduceIte]
      exact find_of_mem hbl hm
    · simp [find]
    · have : v < k := hrv k (List.mem_map.2 ⟨(u, k), hm, rfl⟩)
      simp only [find, this, not_lt_of_gt this, ↓reduceIte]
      exact find_of_mem hbr hm

theorem Tree.sorted_nodes {t : Tree T} (hb : Bst t) : t.nodes.Pairwise (fun a b => a.2 < b.2) := by
  rw [bst_iff_sorted, keys_eq_map, List.pairwise_map] at hb
  exact hb

theorem Tree.find_iff_mem {t : Tree T} (hb : Bst t) (k : T) :
    (∃ u, t.find k = some u) ↔ k ∈ t.keys := by
  constructor
  · rintro ⟨u, hu⟩
    rw [keys_eq_map]
    exact List.mem_map.2 ⟨(u, k), find_some hu, rfl⟩
  · intro hk
    by_contra hc
    have : t.find k = none := by
      cases hf : t.find k with
      | none => rfl
      | some u => exact absurd ⟨u, hf⟩ hc
    exact find_none hb this hk

theorem Good.traverse {h : Heap T} {s : Set T} {t : Tree T} (hg : Good h s t) (fuel : Nat)
    (hfuel : s.size_ < fuel) : Set.traverse fuel h s = some t.keys := by
  have := walk_spec hg.rep hg.nodup fuel (hg.depth_lt hfuel) t.nodes [] rfl fuel
    (by rw [← Tree.size_eq_length, ← hg.size]; omega)
  rw [Set.traverse, hg.first, Tree.addrs_eq_map, Tree.keys_eq_map, List.head?_map]
  exact this

theorem Good.find {h : Heap T} {s : Set T} {t : Tree T} (hg : Good h s t) (key : T)
    (fuel : Nat) (hfuel : s.size_ < fuel) : Set.find fuel h s key = some (t.find key) := by
  rw [Set.find, hg.root]
  exact find_node_spec key t fuel hg.rep (hg.depth_lt hfuel)

theorem Good.inc {h : Heap T} {s : Set T} {t : Tree T} (hg : Good h s t) {xs ys : List (Nat × T)}
    {m : Nat × T} (hdec : t.nodes = xs ++ m :: ys) (fuel : Nat) (hfuel : s.size_ < fuel) :
    iterator_inc fuel h (some m.1) = some (ys.head?.map Prod.fst) := by
  have := inc_spec t 1 hg.rep hg.nodup hg.exit_top (xs.map Prod.fst) m.1 (ys.map Prod.fst)
    (by rw [Tree.addrs_eq_map, hdec]; simp) fuel (by have := hg.depth_lt hfuel; omega)
  rw [this, Option.or_none, List.head?_map]

theorem Good.dec {h : Heap T} {s : Set T} {t : Tree T} (hg : Good h s t) {xs ys : List (Nat × T)}
    {m : Nat × T} (hdec : t.nodes = xs ++ m :: ys) (fuel : Nat) (hfuel : s.size_ < fuel) :
    iterator_dec fuel h s (some m.1) = some (xs.getLast?.map Prod.fst) := by
  have hup : ∀ a, t.ptr = some a → ∀ f, 1 ≤ f → exit_left f h a = some none := by
    intro a ha f hf
    obtain ⟨g, rfl⟩ : ∃ g, f = g + 1 := ⟨f - 1, by omega⟩
    cases t with
    | nil => simp at ha
    | node l a1 v ht r =>
      simp only [Tree.ptr_node, Option.some.injEq] at ha
      subst ha
      exact exit_left_top hg.rep.1 rfl g
  have := dec_spec s t 1 hg.rep hg.nodup hup (xs.map Prod.fst) m.1 (ys.map Prod.fst)
    (by rw [Tree.addrs_eq_map, hdec]; simp) fuel (by have := hg.depth_lt hfuel; omega)
  rw [this, Option.or_none, List.getLast?_map]

theorem Good.dec_end {h : Heap T} {s : Set T} {t : Tree T} (hg : Good h s t) (hne : t ≠ .nil)
    (fuel : Nat) (hfuel : s.size_ < fuel) :
    iterator_dec fuel h s none = some (t.nodes.getLast?.map Prod.fst) := by
  cases ht : t.ptr with
  | none => exact absurd (Tree.ptr_eq_none.1 ht) hne
  | some a =>
    obtain ⟨b, hb, hw⟩ := walk_right_spec t fuel hg.rep (le_of_lt (hg.depth_lt hfuel)) ht
    rw [Tree.addrs_eq_map, List.getLast?_map] at hb
    simp [iterator_dec, hg.root, ht, hw, hb]

theorem Reachable.run {fuel : Nat} : ∀ (ops : List (Op T)) {st st1 : Heap T × Set T},
    Reachable st.1 st.2 → run fuel ops st = some st1 → Reachable st1.1 st1.2
  | [], st, st1, hr, he => by
    simp only [Avl.run, Option.some.injEq] at he
    exact he ▸ hr
  | .ins key :: ops, st, st1, hr, he => by
    simp only [Avl.run] at he
    split_ifs at he with hf
    obtain ⟨st2, h2, h3⟩ := Option.bind_eq_some.1 he
    exact Reachable.run ops (Reachable.insert fuel key hr hf h2) h3
  | .del key :: ops, st, st1, hr, he => by
    simp only [Avl.run] at he
    split_ifs at he with hf
    obtain ⟨st2, h2, h3⟩ := Option.bind_eq_some.1 he
    exact Reachable.run ops (Reachable.erase fuel key hr hf h2) h3

/-- Every state a sequence of public calls on a fresh set ends in is reachable. -/
theorem reachable_of_run {fuel : Nat} {ops : List (Op T)} {h : Heap T} {s : Set T}
    (he : run fuel ops ([], Set.fresh) = some (h, s)) : Reachable h s :=
  Reachable.run ops (Reachable.empty []) he

/-- Inserting a key that is found leaves the heap and the container fields as they were. -/
theorem insert_found_noop {h : Heap T} {s : Set T} {t : Tree T} (hg : Good h s t) (key : T)
    (hf : t.find key ≠ none) (fuel : Nat) (hfuel : s.size_ < fuel) :
    Set.insert fuel h s key = some (h, s) := by
  obtain ⟨h1, s1, t1, e, hg1, e1, fr, len⟩ := insert_good hg key fuel hfuel
  obtain ⟨t2, e2, -, -, -, same⟩ := Tree.insert_inv h.length key t hg.inv
  have ht : t1 = t := by
    rw [e1] at e2
    simp only [Option.some.injEq] at e2
    rw [e2]
    exact same hf
  subst ht
  rw [if_neg hf] at len
  have hh : h1 = h := by
    apply heap_ext len
    intro y
    by_cases hy : y ∈ t1.addrs
    · exact Rep.rd_eq hg.rep hg1.rep y hy
    · by_cases hlt : y < h.length
      · exact fr y hy hlt
      · rw [rd_of_le (by omega), rd_of_le (by omega)]
  have hs : s1 = s := by
    cases s
    cases s1
    have h1 := hg.root
    have h2 := hg1.root
    have h3 := hg.size
    have h4 := hg1.size
    have h5 := hg.first
    have h6 := hg1.first
    simp only at h1 h2 h3 h4 h5 h6
    simp only [Set.mk.injEq]
    exact ⟨by rw [h1, h2], by rw [h3, h4], by rw [h5, h6]⟩
  rw [e, hh, hs]

/-! ## The claims -/

/-- C1: in every set reachable from the empty set by `insert` and `erase` calls, the walk from
`begin()` by repeated `++` until `end()` returns — with any fuel above the element count — and
the keys it visits are strictly increasing; they are the in-order keys of the tree the heap
holds under `root_`, which satisfies the BST ordering at every node. -/
theorem C1_traversal_strictly_increasing {h : Heap T} {s : Set T} (hr : Reachable h s) :
    ∃ ks : List T, (∀ fuel, s.size_ < fuel → Set.traverse fuel h s = some ks) ∧
      ks.Pairwise (· < ·) ∧
      ∃ t : Tree T, Rep h t none ∧ s.root_ = t.ptr ∧ t.Bst ∧ t.keys = ks := by
  obtain ⟨t, hg⟩ := hr.good
  exact ⟨t.keys, fun fuel hf => hg.traverse fuel hf, (Tree.bst_iff_sorted t).1 hg.bst,
    t, hg.rep, hg.root, hg.bst, rfl⟩

/-- C2: on a reachable set `insert(key)` returns, and the in-order key sequence afterwards is
the previous one with `key` placed at its sorted position when `key` was not stored, together
with `size()` one larger; when `key` was stored the sequence and `size()` are unchanged. -/
theorem C2_insert_places_key {h : Heap T} {s : Set T} (hr : Reachable h s) (key : T)
    (fuel : Nat) (hfuel : s.size_ < fuel) :
    ∃ h1 s1 ks ks1, Set.insert fuel h s key = some (h1, s1) ∧
      (∀ f, s.size_ < f → Set.traverse f h s = some ks) ∧
      (∀ f, s1.size_ < f → Set.traverse f h1 s1 = some ks1) ∧
      (key ∉ ks → (∃ xs ys, ks = xs ++ ys ∧ ks1 = xs ++ key :: ys ∧
          (∀ x ∈ xs, x < key) ∧ (∀ y ∈ ys, key < y)) ∧ s1.size = s.size + 1) ∧
      (key ∈ ks → ks1 = ks ∧ s1.size = s.size) := by
  obtain ⟨t, hg⟩ := hr.good
  obtain ⟨h1, s1, t1, e, hg1, e1, -, -⟩ := insert_good hg key fuel hfuel
  refine ⟨h1, s1, t.keys, t1.keys, e, fun f hf => hg.traverse f hf,
    fun f hf => hg1.traverse f hf, ?_, ?_⟩
  · intro hk
    have hf : t.find key = none := by
      cases hfind : t.find key with
      | none => rfl
      | some u => exact absurd ((Tree.find_iff_mem hg.bst key).1 ⟨u, hfind⟩) hk
    obtain ⟨xs, ys, d1, d2⟩ := (Tree.insert_nodes _ key t e1).2 hf
    have hs1 := (Tree.bst_iff_sorted t1).1 hg1.bst
    rw [Tree.keys_eq_map, d2] at hs1
    simp only [List.map_append, List.map_cons, List.pairwise_append, List.pairwise_cons,
      List.mem_cons] at hs1
    refine ⟨⟨xs.map Prod.snd, ys.map Prod.snd, by rw [Tree.keys_eq_map, d1]; simp,
      by rw [Tree.keys_eq_map, d2]; simp, ?_, ?_⟩, ?_⟩
    · intro x hx
      exact hs1.2.2 x hx key (Or.inl rfl)
    · intro y hy
      exact hs1.2.1.1 y hy
    · simp only [Set.size, hg.size, hg1.size, Tree.size_eq_length, d1, d2]
      simp
      omega
  · intro hk
    obtain ⟨u, hu⟩ := (Tree.find_iff_mem hg.bst key).2 hk
    have hn := (Tree.insert_nodes _ key t e1).1 (by rw [hu]; simp)
    exact ⟨by rw [Tree.keys_eq_map, Tree.keys_eq_map, hn],
      by simp only [Set.size, hg.size, hg1.size, Tree.size_eq_length, hn]⟩

/-- C3: on a reachable set `erase(key)` returns, and when `key` was stored the in-order key
sequence afterwards is the previous one with that key removed, every other key kept in the
same order, and `size()` is one less; when `key` was not stored the sequence and `size()` are
unchanged. -/
theorem C3_erase_removes_key {h : Heap T} {s : Set T} (hr : Reachable h s) (key : T)
    (fuel : Nat) (hfuel : s.size_ < fuel) :
    ∃ h1 s1 ks ks1, Set.erase fuel h s key = some (h1, s1) ∧
      (∀ f, s.size_ < f → Set.traverse f h s = some ks) ∧
      (∀ f, s1.size_ < f → Set.traverse f h1 s1 = some ks1) ∧
      (key ∈ ks → (∃ xs ys, ks = xs ++ key :: ys ∧ ks1 = xs ++ ys) ∧
          s1.size + 1 = s.size) ∧
      (key ∉ ks → ks1 = ks ∧ s1.size = s.size) := by
  obtain ⟨t, hg⟩ := hr.good
  obtain ⟨h1, s1, t1, e, hg1, e1, -, -⟩ := erase_good hg key fuel hfuel
  refine ⟨h1, s1, t.keys, t1.keys, e, fun f hf => hg.traverse f hf,
    fun f hf => hg1.traverse f hf, ?_, ?_⟩
  · intro hk
    obtain ⟨u, hu⟩ := (Tree.find_iff_mem hg.bst key).2 hk
    obtain ⟨xs, ys, d1, d2⟩ := (Tree.erase_nodes key t e1).2 u hu
    refine ⟨⟨xs.map Prod.snd, ys.map Prod.snd, by rw [Tree.keys_eq_map, d1]; simp,
      by rw [Tree.keys_eq_map, d2]; simp⟩, ?_⟩
    simp only [Set.size, hg.size, hg1.size, Tree.size_eq_length, d1, d2]
    simp
    omega
  · intro hk
    have hf : t.find key = none := by
      cases hfind : t.find key with
      | none => rfl
      | some u => exact absurd ((Tree.find_iff_mem hg.bst key).1 ⟨u, hfind⟩) hk
    have hn := (Tree.erase_nodes key t e1).1 hf
    exact ⟨by rw [Tree.keys_eq_map, Tree.keys_eq_map, hn],
      by simp only [Set.size, hg.size, hg1.size, Tree.size_eq_length, hn]⟩

/-- C5: on a reachable set `find(key)` returns; when a key equivalent to `key` is stored the
result is a position at a node whose key is neither less nor greater than `key`, otherwise it
is the end position. -/
theorem C5_find_position {h : Heap T} {s : Set T} (hr : Reachable h s) (key : T)
    (fuel : Nat) (hfuel : s.size_ < fuel) :
    ∃ ks q, (∀ f, s.size_ < f → Set.traverse f h s = some ks) ∧
      Set.find fuel h s key = some q ∧
      (key ∈ ks →
        ∃ p n, q = some p ∧ rd h p = some n ∧ ¬ n.value < key ∧ ¬ key < n.value) ∧
      (key ∉ ks → q = s.end) := by
  obtain ⟨t, hg⟩ := hr.good
  refine ⟨t.keys, t.find key, fun f hf => hg.traverse f hf, hg.find key fuel hfuel, ?_, ?_⟩
  · intro hk
    obtain ⟨u, hu⟩ := (Tree.find_iff_mem hg.bst key).2 hk
    obtain ⟨n, hn, hv⟩ := hg.rep.cell_of_mem (Tree.find_some hu)
    exact ⟨u, n, hu, hn, by rw [hv]; exact lt_irrefl _, by rw [hv]; exact lt_irrefl _⟩
  · intro hk
    cases hfind : t.find key with
    | none => rfl
    | some u => exact absurd ((Tree.find_iff_mem hg.bst key).1 ⟨u, hfind⟩) hk

/-- C8: on a reachable set `size()` is the number of nodes the walk from `begin()` to `end()`
visits, which is the number of nodes of the tree under `root_`, and `empty()` holds exactly
when that number is 0. -/
theorem C8_size_counts_nodes {h : Heap T} {s : Set T} (hr : Reachable h s) :
    ∃ ks : List T, (∀ fuel, s.size_ < fuel → Set.traverse fuel h s = some ks) ∧
      s.size = ks.length ∧ (s.empty = true ↔ ks.length = 0) ∧
      ∃ t : Tree T, Rep h t none ∧ s.root_ = t.ptr ∧ t.size = ks.length := by
  obtain ⟨t, hg⟩ := hr.good
  have hlen : t.size = t.keys.length := by
    rw [Tree.size_eq_length, Tree.keys_eq_map, List.length_map]
  refine ⟨t.keys, fun fuel hf => hg.traverse fuel hf, ?_, ?_, t, hg.rep, hg.root, hlen⟩
  · rw [Set.size, hg.size, hlen]
  · rw [Set.empty, hg.size, hlen]
    simp

/-- C9: on a reachable set, `insert(key)` of a key that is already stored returns and leaves
the whole heap — every node's key, child and parent links and cached height — and the
container fields `root_`, `size_`, `begin_` exactly as they were; and after any `insert(key)`
a second `insert(key)` changes nothing. -/
theorem C9_insert_present_is_noop {h : Heap T} {s : Set T} (hr : Reachable h s) (key : T)
    (fuel : Nat) (hfuel : s.size_ < fuel) :
    (∃ ks, (∀ f, s.size_ < f → Set.traverse f h s = some ks) ∧
      (key ∈ ks → Set.insert fuel h s key = some (h, s))) ∧
    (∃ h1 s1, Set.insert fuel h s key = some (h1, s1) ∧
      ∀ fuel1, s1.size_ < fuel1 → Set.insert fuel1 h1 s1 key = some (h1, s1)) := by
  obtain ⟨t, hg⟩ := hr.good
  constructor
  · refine ⟨t.keys, fun f hf => hg.traverse f hf, fun hk => ?_⟩
    obtain ⟨u, hu⟩ := (Tree.find_iff_mem hg.bst key).2 hk
    exact insert_found_noop hg key (by rw [hu]; simp) fuel hfuel
  · obtain ⟨h1, s1, t1, e, hg1, e1, -, -⟩ := insert_good hg key fuel hfuel
    refine ⟨h1, s1, e, fun fuel1 hf1 => ?_⟩
    have hk : key ∈ t1.keys := by
      rw [Tree.keys_eq_map]
      by_cases hf : t.find key = none
      · obtain ⟨xs, ys, -, d2⟩ := (Tree.insert_nodes _ key t e1).2 hf
        rw [d2]
        simp
      · rw [(Tree.insert_nodes _ key t e1).1 hf, ← Tree.keys_eq_map]
        obtain ⟨u, hu⟩ := Option.ne_none_iff_exists'.1 hf
        exact (Tree.find_iff_mem hg.bst key).1 ⟨u, hu⟩
    obtain ⟨u, hu⟩ := (Tree.find_iff_mem hg1.bst key).2 hk
    exact insert_found_noop hg1 key (by rw [hu]; simp) fuel1 hf1

theorem Good.deref {h : Heap T} {s : Set T} {t : Tree T} (hg : Good h s t) {q : Nat} {y : T}
    (hm : (q, y) ∈ t.nodes) : iterator_deref h (some q) = some y := by
  obtain ⟨n, hn, hv⟩ := hg.rep.cell_of_mem hm
  simp [iterator_deref, hn, hv]

/-- C4: on a reachable set `lower_bound(key)` returns; when some stored key is `>= key` the
result is the position of the smallest such key (the position `find` gives for it, and it
dereferences to that key), and when no stored key is `>= key` — in particular on an empty
set — the result is the end position. -/
theorem C4_lower_bound_position {h : Heap T} {s : Set T} (hr : Reachable h s) (key : T)
    (fuel : Nat) (hfuel : s.size_ < fuel) :
    ∃ ks q, (∀ f, s.size_ < f → Set.traverse f h s = some ks) ∧
      Set.lower_bound fuel h s key = some q ∧
      (∀ y ∈ ks, key ≤ y → (∀ z ∈ ks, key ≤ z → y ≤ z) →
        q ≠ s.end ∧ Set.find fuel h s y = some q ∧ iterator_deref h q = some y) ∧
      ((∀ z ∈ ks, z < key) → q = s.end) := by
  obtain ⟨t, hg⟩ := hr.good
  by_cases hnil : t = .nil
  · subst hnil
    have hsz : s.size_ = 0 := hg.size
    exact ⟨[], none, fun f hf => hg.traverse f hf, by simp [Set.lower_bound, hsz],
      fun y hy => by simp at hy, fun _ => rfl⟩
  · obtain ⟨m, xs, ys, e1, d, hxs, hys⟩ := Tree.lower_bound_spec key t hg.bst hnil
    have hsz : s.size_ ≠ 0 := by
      rw [hg.size, Tree.size_eq_length, d]
      simp
    have hraw : lower_bound_node fuel h s.root_ key = some m.1 := by
      rw [hg.root, lower_bound_node_spec key t fuel hg.rep (le_of_lt (hg.depth_lt hfuel)) hnil,
        e1]
      rfl
    obtain ⟨n, hn, hv⟩ := hg.rep.cell_of_mem (x := m.1) (k := m.2) (by rw [d]; simp)
    have hsorted := Tree.sorted_nodes hg.bst
    by_cases c : m.2 < key
    · have hlb : Set.lower_bound fuel h s key = some (ys.head?.map Prod.fst) := by
        simp only [Set.lower_bound, hsz, ↓reduceIte, hraw, Option.bind_eq_bind,
          Option.some_bind, hn, hv, c]
        exact hg.inc d fuel hfuel
      have hA : ∀ a ∈ xs ++ [m], ¬ key ≤ a.2 := by
        intro a ha
        simp only [List.mem_append, List.mem_singleton] at ha
        rcases ha with ha | rfl
        · exact not_le.2 (hxs a ha)
        · exact not_le.2 c
      have hB : ∀ b ∈ ys, key ≤ b.2 := fun b hb => le_of_lt (hys b hb)
      have hd2 : t.nodes = (xs ++ [m]) ++ ys := by rw [d]; simp
      refine ⟨t.keys, _, fun f hf => hg.traverse f hf, hlb, ?_, ?_⟩
      · intro y hy hle hleast
        rw [Tree.keys_eq_map, hd2] at hy hleast
        rw [hd2] at hsorted
        obtain ⟨q, B1, hq⟩ :=
          least_is_head (P := fun z => key ≤ z) hsorted hA hB hy hle hleast
        have hmem : (q, y) ∈ t.nodes := by rw [d, hq]; simp
        rw [hq]
        exact ⟨by simp [Set.end], by
          rw [hg.find y fuel hfuel, Tree.find_of_mem hg.bst hmem]; rfl, hg.deref hmem⟩
      · intro hall
        have : ys = [] := by
          apply tail_empty_of_none (A := xs ++ [m]) hB
          intro z hz
          rw [← hd2, ← Tree.keys_eq_map] at hz
          exact not_le.2 (hall z hz)
        rw [this]
        rfl
    · have hlb : Set.lower_bound fuel h s key = some (some m.1) := by
        simp only [Set.lower_bound, hsz, ↓reduceIte, hraw, Option.bind_eq_bind,
          Option.some_bind, hn, hv, c]
        rfl
      have hA : ∀ a ∈ xs, ¬ key ≤ a.2 := fun a ha => not_le.2 (hxs a ha)
      have hB : ∀ b ∈ m :: ys, key ≤ b.2 := by
        intro b hb
        simp only [List.mem_cons] at hb
        rcases hb with rfl | hb
        · exact not_lt.1 c
        · exact le_of_lt (hys b hb)
      refine ⟨t.keys, _, fun f hf => hg.traverse f hf, hlb, ?_, ?_⟩
      · intro y hy hle hleast
        rw [Tree.keys_eq_map, d] at hy hleast
        rw [d] at hsorted
        obtain ⟨q, B1, hq⟩ :=
          least_is_head (P := fun z => key ≤ z) hsorted hA hB hy hle hleast
        simp only [List.cons.injEq] at hq
        obtain ⟨rfl, -⟩ := hq
        have hmem : (q, y) ∈ t.nodes := by rw [d]; simp
        exact ⟨by simp [Set.end], by
          rw [hg.find y fuel hfuel, Tree.find_of_mem hg.bst hmem], hg.deref hmem⟩
      · intro hall
        have : m.2 < key := hall m.2 (by rw [Tree.keys_eq_map, d]; simp)
        exact absurd this c

/-- C6: on a reachable set, from the position of a stored key `x` (the one `find(x)` returns),
`operator++` returns and lands on the position of the smallest stored key greater than `x`,
or on the end position when `x` is the maximum; `operator--` from the end position lands on
the position of the maximum key, and from the position of `x` on the position of the largest
stored key smaller than `x`, when there is one. -/
theorem C6_iterator_steps {h : Heap T} {s : Set T} (hr : Reachable h s) (x : T) (p : Nat)
    (fuel : Nat) (hfuel : s.size_ < fuel) (hp : Set.find fuel h s x = some (some p)) :
    ∃ ks, (∀ f, s.size_ < f → Set.traverse f h s = some ks) ∧
      (∀ y ∈ ks, x < y → (∀ z ∈ ks, x < z → y ≤ z) →
        ∃ q, iterator_inc fuel h (some p) = some (some q) ∧
          Set.find fuel h s y = some (some q)) ∧
      ((∀ z ∈ ks, z ≤ x) → iterator_inc fuel h (some p) = some s.end) ∧
      (∀ y ∈ ks, (∀ z ∈ ks, z ≤ y) →
        ∃ q, iterator_dec fuel h s s.end = some (some q) ∧
          Set.find fuel h s y = some (some q)) ∧
      (∀ y ∈ ks, y < x → (∀ z ∈ ks, z < x → z ≤ y) →
        ∃ q, iterator_dec fuel h s (some p) = some (some q) ∧
          Set.find fuel h s y = some (some q)) := by
  obtain ⟨t, hg⟩ := hr.good
  rw [hg.find x fuel hfuel] at hp
  simp only [Option.some.injEq] at hp
  have hmem := Tree.find_some hp
  obtain ⟨xs, ys, d⟩ := List.append_of_mem hmem
  have hsorted := Tree.sorted_nodes hg.bst
  have hsd := hsorted
  rw [d] at hsd
  have hxs : ∀ a ∈ xs, a.2 < x := fun a ha =>
    (List.pairwise_append.1 hsd).2.2 a ha (p, x) (by simp)
  have hys : ∀ b ∈ ys, x < b.2 := fun b hb =>
    (List.pairwise_cons.1 (List.pairwise_append.1 hsd).2.1).1 b hb
  refine ⟨t.keys, fun f hf => hg.traverse f hf, ?_, ?_, ?_, ?_⟩
  · intro y hy hlt hleast
    have hd2 : t.nodes = (xs ++ [(p, x)]) ++ ys := by rw [d]; simp
    have hA : ∀ a ∈ xs ++ [(p, x)], ¬ x < a.2 := by
      intro a ha
      simp only [List.mem_append, List.mem_singleton] at ha
      rcases ha with ha | rfl
      · exact not_lt_of_gt (hxs a ha)
      · exact lt_irrefl _
    rw [Tree.keys_eq_map, hd2] at hy hleast
    rw [hd2] at hsorted
    obtain ⟨q, B1, hq⟩ := least_is_head (P := fun z => x < z) hsorted hA hys hy hlt hleast
    have hm2 : (q, y) ∈ t.nodes := by rw [d, hq]; simp
    refine ⟨q, ?_, by rw [hg.find y fuel hfuel, Tree.find_of_mem hg.bst hm2]⟩
    have := hg.inc d fuel hfuel
    rw [hq] at this
    exact this
  · intro hall
    have hd2 : t.nodes = (xs ++ [(p, x)]) ++ ys := by rw [d]; simp
    have : ys = [] := by
      apply tail_empty_of_none (A := xs ++ [(p, x)]) (P := fun z => x < z) hys
      intro z hz
      rw [← hd2, ← Tree.keys_eq_map] at hz
      exact not_lt.2 (hall z hz)
    have hi := hg.inc d fuel hfuel
    rw [this] at hi
    exact hi
  · intro y hy hmax
    have hne : t ≠ .nil := by
      rintro rfl
      simp at hy
    rw [Tree.keys_eq_map] at hy hmax
    obtain ⟨q, A1, hq⟩ := greatest_is_last (A := t.nodes) (B := []) (Q := fun _ => True)
      (by simpa using hsorted) (fun _ _ => trivial) (fun b hb => by simp at hb)
      (by simpa using hy) trivial (fun z hz _ => hmax z (by simpa using hz))
    have hm2 : (q, y) ∈ t.nodes := by rw [hq]; simp
    refine ⟨q, ?_, by rw [hg.find y fuel hfuel, Tree.find_of_mem hg.bst hm2]⟩
    rw [Set.end, hg.dec_end hne fuel hfuel, hq]
    simp
  · intro y hy hlt hgreatest
    have hB : ∀ b ∈ (p, x) :: ys, ¬ b.2 < x := by
      intro b hb
      simp only [List.mem_cons] at hb
      rcases hb with rfl | hb
      · exact lt_irrefl _
      · exact not_lt_of_gt (hys b hb)
    rw [Tree.keys_eq_map, d] at hy hgreatest
    obtain ⟨q, A1, hq⟩ := greatest_is_last (Q := fun z => z < x) hsd hxs hB hy hlt hgreatest
    have hm2 : (q, y) ∈ t.nodes := by rw [d, hq]; simp
    refine ⟨q, ?_, by rw [hg.find y fuel hfuel, Tree.find_of_mem hg.bst hm2]⟩
    have := hg.dec d fuel hfuel
    rw [hq] at this
    simpa using this

/-- C11: on a reachable set, from the position of a stored key `operator++` followed by
`operator--` comes back to that position, also when the step forward lands on the end
position; from the position of a stored key other than `begin()` `operator--` followed by
`operator++` comes back to it; and from the end position of a non-empty set `operator--`
followed by `operator++` comes back to the end position. -/
theorem C11_step_round_trips {h : Heap T} {s : Set T} (hr : Reachable h s) (fuel : Nat)
    (hfuel : s.size_ < fuel) :
    (∀ x p, Set.find fuel h s x = some (some p) →
      ∃ q, iterator_inc fuel h (some p) = some q ∧
        iterator_dec fuel h s q = some (some p)) ∧
    (∀ x p, Set.find fuel h s x = some (some p) → some p ≠ s.begin →
      ∃ q, iterator_dec fuel h s (some p) = some (some q) ∧
        iterator_inc fuel h (some q) = some (some p)) ∧
    (s.size ≠ 0 →
      ∃ q, iterator_dec fuel h s s.end = some (some q) ∧
        iterator_inc fuel h (some q) = some s.end) := by
  obtain ⟨t, hg⟩ := hr.good
  refine ⟨?_, ?_, ?_⟩
  · intro x p hp
    rw [hg.find x fuel hfuel] at hp
    simp only [Option.some.injEq] at hp
    obtain ⟨xs, ys, d⟩ := List.append_of_mem (Tree.find_some hp)
    refine ⟨_, hg.inc d fuel hfuel, ?_⟩
    cases ys with
    | nil =>
      have hne : t ≠ .nil := by
        rintro rfl
        simp at d
      rw [List.head?_nil, Option.map_none', hg.dec_end hne fuel hfuel, d]
      simp
    | cons b ys =>
      have d2 : t.nodes = (xs ++ [(p, x)]) ++ b :: ys := by rw [d]; simp
      rw [List.head?_cons, Option.map_some', hg.dec d2 fuel hfuel]
      simp
  · intro x p hp hb
    rw [hg.find x fuel hfuel] at hp
    simp only [Option.some.injEq] at hp
    obtain ⟨xs, ys, d⟩ := List.append_of_mem (Tree.find_some hp)
    rcases List.eq_nil_or_concat xs with rfl | ⟨xs1, a, rfl⟩
    · exfalso
      apply hb
      rw [Set.begin, hg.first, Tree.addrs_eq_map, d]
      simp
    · refine ⟨a.1, ?_, ?_⟩
      · rw [hg.dec d fuel hfuel]
        simp
      · have d2 : t.nodes = xs1 ++ a :: ((p, x) :: ys) := by rw [d]; simp
        rw [hg.inc d2 fuel hfuel]
        simp
  · intro hsz
    have hne : t ≠ .nil := by
      rintro rfl
      exact hsz (by rw [Set.size, hg.size]; rfl)
    have hnodes : t.nodes ≠ [] := by
      intro e
      have := t.size_eq_length
      rw [e] at this
      exact hsz (by rw [Set.size, hg.size, this]; rfl)
    rcases List.eq_nil_or_concat t.nodes with e | ⟨xs1, a, d⟩
    · exact absurd e hnodes
    · refine ⟨a.1, ?_, ?_⟩
      · rw [Set.end, hg.dec_end hne fuel hfuel, d]
        simp
      · have d2 : t.nodes = xs1 ++ a :: [] := by rw [d, List.concat_eq_append]
        rw [hg.inc d2 fuel hfuel]
        simp [Set.end]

/-- C13: on a reachable set `begin()` is the end position exactly when `size()` is 0; on a
non-empty set `begin()` is the node `find_min` reaches from the root by descending left, that
node has no left child, and it holds the first and smallest key of the walk. -/
theorem C13_begin_is_leftmost {h : Heap T} {s : Set T} (hr : Reachable h s) :
    (s.begin = s.end ↔ s.size = 0) ∧
    (s.size ≠ 0 → ∀ fuel, s.size_ < fuel →
      ∃ r b n k ks, s.root_ = some r ∧ s.begin = some b ∧ find_min fuel h r = some b ∧
        rd h b = some n ∧ n.left = none ∧ n.value = k ∧
        Set.traverse fuel h s = some (k :: ks) ∧ (∀ z ∈ ks, k < z) ∧
        Set.find fuel h s k = some (some b)) := by
  obtain ⟨t, hg⟩ := hr.good
  cases t with
  | nil =>
    have hsz : s.size_ = 0 := hg.size
    have hb : s.begin_ = none := hg.first
    exact ⟨by simp [Set.begin, Set.end, Set.size, hsz, hb], fun hne => absurd hsz hne⟩
  | node l a v ht r =>
    have hsz : s.size_ ≠ 0 := by
      rw [hg.size]
      simp [Tree.size]
    obtain ⟨m, hm⟩ : ∃ m, (Tree.node l a v ht r).first = some m := by
      rw [Tree.first_eq_head]
      cases e : (Tree.node l a v ht r).nodes with
      | nil => simp at e
      | cons m ms => exact ⟨m, rfl⟩
    have hhead := hm
    rw [Tree.first_eq_head] at hhead
    obtain ⟨ms, d⟩ : ∃ ms, (Tree.node l a v ht r).nodes = m :: ms := by
      cases e : (Tree.node l a v ht r).nodes with
      | nil => rw [e] at hhead; simp at hhead
      | cons m1 ms =>
        rw [e] at hhead
        simp only [List.head?_cons, Option.some.injEq] at hhead
        exact ⟨ms, by rw [hhead]⟩
    have hb : s.begin_ = some m.1 := by
      rw [hg.first, Tree.addrs_eq_map, d]
      rfl
    refine ⟨by simp [Set.begin, Set.end, Set.size, hsz, hb], fun _ fuel hfuel => ?_⟩
    obtain ⟨rt, par, hm1, hcell⟩ := hg.rep.first_cell hm
    have hmem : (m.1, m.2) ∈ (Tree.node l a v ht r).nodes := by rw [d]; simp
    have hsorted := Tree.sorted_nodes hg.bst
    rw [d] at hsorted
    refine ⟨a, m.1, _, m.2, ms.map Prod.snd, hg.root, hb, ?_, hcell, rfl, rfl, ?_, ?_, ?_⟩
    · exact find_min_spec _ fuel hg.rep (le_of_lt (hg.depth_lt hfuel)) rfl hm
    · rw [hg.traverse fuel hfuel, Tree.keys_eq_map, d]
      rfl
    · intro z hz
      obtain ⟨b, hb1, rfl⟩ := List.mem_map.1 hz
      exact (List.pairwise_cons.1 hsorted).1 b hb1
    · rw [hg.find m.2 fuel hfuel, Tree.find_of_mem hg.bst hmem]

/-- C14: on a reachable set `lower_bound(key)` returns, and the result is the end position
exactly when every stored key is smaller than `key`, which on a non-empty set happens for
every `key` above the maximum; otherwise the result is the position of a stored key. -/
theorem C14_lower_bound_end_iff {h : Heap T} {s : Set T} (hr : Reachable h s) (key : T)
    (fuel : Nat) (hfuel : s.size_ < fuel) :
    ∃ ks q, (∀ f, s.size_ < f → Set.traverse f h s = some ks) ∧
      Set.lower_bound fuel h s key = some q ∧
      (q = s.end ↔ ∀ z ∈ ks, z < key) ∧
      (q ≠ s.end → ∃ y ∈ ks, Set.find fuel h s y = some q) := by
  obtain ⟨t, hg⟩ := hr.good
  by_cases hnil : t = .nil
  · subst hnil
    have hsz : s.size_ = 0 := hg.size
    exact ⟨[], none, fun f hf => hg.traverse f hf, by simp [Set.lower_bound, hsz],
      by simp [Set.end], fun hq => absurd rfl hq⟩
  · obtain ⟨m, xs, ys, e1, d, hxs, hys⟩ := Tree.lower_bound_spec key t hg.bst hnil
    have hsz : s.size_ ≠ 0 := by
      rw [hg.size, Tree.size_eq_length, d]
      simp
    have hraw : lower_bound_node fuel h s.root_ key = some m.1 := by
      rw [hg.root, lower_bound_node_spec key t fuel hg.rep (le_of_lt (hg.depth_lt hfuel)) hnil,
        e1]
      rfl
    obtain ⟨n, hn, hv⟩ := hg.rep.cell_of_mem (x := m.1) (k := m.2) (by rw [d]; simp)
    by_cases c : m.2 < key
    · have hlb : Set.lower_bound fuel h s key = some (ys.head?.map Prod.fst) := by
        simp only [Set.lower_bound, hsz, ↓reduceIte, hraw, Option.bind_eq_bind,
          Option.some_bind, hn, hv, c]
        exact hg.inc d fuel hfuel
      refine ⟨t.keys, ys.head?.map Prod.fst, fun f hf => hg.traverse f hf, hlb, ?_⟩
      clear hlb
      cases ys with
      | nil =>
        refine ⟨⟨fun _ z hz => ?_, fun _ => rfl⟩, fun hq => absurd rfl hq⟩
        rw [Tree.keys_eq_map, d] at hz
        obtain ⟨b, hb, rfl⟩ := List.mem_map.1 hz
        simp only [List.mem_append, List.mem_singleton] at hb
        rcases hb with hb | rfl
        · exact hxs b hb
        · exact c
      | cons b ys =>
        have hmem : (b.1, b.2) ∈ t.nodes := by rw [d]; simp
        have hk : b.2 ∈ t.keys := by
          rw [Tree.keys_eq_map]
          exact List.mem_map.2 ⟨b, hmem, rfl⟩
        refine ⟨⟨fun e => by simp [Set.end] at e, fun hall => ?_⟩, fun _ => ⟨b.2, hk, ?_⟩⟩
        · exact absurd (hall b.2 hk) (not_lt_of_gt (hys b (by simp)))
        · rw [hg.find b.2 fuel hfuel, Tree.find_of_mem hg.bst hmem]
          rfl
    · have hlb : Set.lower_bound fuel h s key = some (some m.1) := by
        simp only [Set.lower_bound, hsz, ↓reduceIte, hraw, Option.bind_eq_bind,
          Option.some_bind, hn, hv, c]
        rfl
      have hmem : (m.1, m.2) ∈ t.nodes := by rw [d]; simp
      have hk : m.2 ∈ t.keys := by
        rw [Tree.keys_eq_map]
        exact List.mem_map.2 ⟨m, hmem, rfl⟩
      refine ⟨t.keys, some m.1, fun f hf => hg.traverse f hf, hlb,
        ⟨fun e => by simp [Set.end] at e, fun hall => absurd (hall m.2 hk) c⟩,
        fun _ => ⟨m.2, hk, ?_⟩⟩
      rw [hg.find m.2 fuel hfuel, Tree.find_of_mem hg.bst hmem]

/-- C16: on a reachable set the root's `parent` field is null; every node's left and right
child, when present, has its `parent` field naming that node; and every node other than the
root is the left or the right child of the node its `parent` field names. The nodes are the
positions `find` returns for the stored keys. -/
theorem C16_parent_links {h : Heap T} {s : Set T} (hr : Reachable h s) (fuel : Nat)
    (hfuel : s.size_ < fuel) :
    (∀ r, s.root_ = some r → ∃ n, rd h r = some n ∧ n.parent = none) ∧
    (∀ x p, Set.find fuel h s x = some (some p) → ∃ n, rd h p = some n ∧
      (∀ c, n.left = some c → ∃ m, rd h c = some m ∧ m.parent = some p) ∧
      (∀ c, n.right = some c → ∃ m, rd h c = some m ∧ m.parent = some p) ∧
      (s.root_ ≠ some p → ∃ q m, n.parent = some q ∧ rd h q = some m ∧
        (m.left = some p ∨ m.right = some p))) := by
  obtain ⟨t, hg⟩ := hr.good
  refine ⟨fun r hroot => hg.rep.root_cell (by rw [← hg.root, hroot]), ?_⟩
  intro x p hp
  rw [hg.find x fuel hfuel] at hp
  simp only [Option.some.injEq] at hp
  have hmem : p ∈ t.addrs := by
    rw [Tree.addrs_eq_map]
    exact List.mem_map.2 ⟨(p, x), Tree.find_some hp, rfl⟩
  obtain ⟨n, hn, hl, hrt⟩ := hg.rep.parents p hmem
  refine ⟨n, hn, hl, hrt, fun hne => ?_⟩
  obtain ⟨n1, q, m, hn1, hq, hm, hc⟩ := hg.rep.child_of_parent p hmem (by rw [← hg.root]; exact hne)
  rw [hn] at hn1
  simp only [Option.some.injEq] at hn1
  subst hn1
  exact ⟨q, m, hq, hm, hc⟩

/-- C20: on a reachable set, at every node (the position `find` returns for a stored key) the
cached heights of the two children, 0 for an absent child, differ by at most 1; a node with a
child has cached height 1 + the larger of them; a childless node has cached height 0 or 1;
and the true height of the subtree at the node is at most its cached height plus 1. -/
theorem C20_cached_height_invariant {h : Heap T} {s : Set T} (hr : Reachable h s) (fuel : Nat)
    (hfuel : s.size_ < fuel) :
    ∀ x p, Set.find fuel h s x = some (some p) →
      ∃ n hl hr d, rd h p = some n ∧ get_height h n.left = some hl ∧
        get_height h n.right = some hr ∧ |hl - hr| ≤ 1 ∧
        ((n.left ≠ none ∨ n.right ≠ none) → n.height = 1 + max hl hr) ∧
        ((n.left = none ∧ n.right = none) → n.height = 0 ∨ n.height = 1) ∧
        true_height fuel h (some p) = some d ∧ (d : Int) ≤ n.height + 1 := by
  obtain ⟨t, hg⟩ := hr.good
  intro x p hp
  rw [hg.find x fuel hfuel] at hp
  simp only [Option.some.injEq] at hp
  have hmem : p ∈ t.addrs := by
    rw [Tree.addrs_eq_map]
    exact List.mem_map.2 ⟨(p, x), Tree.find_some hp, rfl⟩
  obtain ⟨l, v, ht, r, q, hrep, hi, hd⟩ := hg.rep.subtree hg.inv hmem
  have hdep := hi.depth_le
  have hth := true_height_spec _ fuel hrep (lt_of_le_of_lt hd (hg.depth_lt hfuel))
  obtain ⟨hil, hir, h1, h2, hh⟩ := hi
  refine ⟨_, l.hgt, r.hgt, _, hrep.1, hrep.2.1.height_eq, hrep.2.2.height_eq, ?_, ?_, ?_,
    hth, hdep⟩
  · rw [abs_le]
    constructor <;> omega
  · intro hc
    rcases hh with hh | ⟨rfl, rfl, -⟩
    · simp only [hh]
      omega
    · simp at hc
  · rintro ⟨hl0, hr0⟩
    simp only at hl0 hr0
    rw [Tree.ptr_eq_none] at hl0 hr0
    subst hl0 hr0
    rcases hh with hh | ⟨-, -, hh⟩
    · right
      simpa [Tree.hgt] using hh
    · left
      exact hh

/-! ## Observed `rebalance` calls in `insert` and `erase` -/

theorem insert_node_with_rebalance (key : T) : ∀ (fuel : Nat) (h : Heap T) (s : Set T)
    (u : Option Nat), insert_node_with rebalance fuel h s u key = insert_node fuel h s u key
  | 0, _, _, _ => rfl
  | _ + 1, _, _, none => rfl
  | fuel + 1, h, s, some u => by
    simp only [insert_node_with, insert_node, insert_node_with_rebalance key fuel]

theorem erase_node_with_rebalance (key : T) : ∀ (fuel : Nat) (h : Heap T) (s : Set T)
    (u : Option Nat), erase_node_with rebalance fuel h s u key = erase_node fuel h s u key
  | 0, _, _, _ => rfl
  | _ + 1, _, _, none => rfl
  | fuel + 1, h, s, some u => by
    simp only [erase_node_with, erase_node, erase_node_with_rebalance key fuel,
      remove_min_with_rebalance]

/-- With the plain `rebalance` as the parameter, `Set.insert_with` is `Set.insert`. -/
theorem Set.insert_with_rebalance (fuel : Nat) (h : Heap T) (s : Set T) (key : T) :
    Set.insert_with rebalance fuel h s key = Set.insert fuel h s key := by
  simp only [Set.insert_with, Set.insert, insert_node_with_rebalance]

/-- With the plain `rebalance` as the parameter, `Set.erase_with` is `Set.erase`. -/
theorem Set.erase_with_rebalance (fuel : Nat) (h : Heap T) (s : Set T) (key : T) :
    Set.erase_with rebalance fuel h s key = Set.erase fuel h s key := by
  simp only [Set.erase_with, Set.erase, erase_node_with_rebalance]

/-- With the plain `rebalance` as the parameter, `run_with` is `run`. -/
theorem run_with_rebalance (fuel : Nat) : ∀ (ops : List (Op T)) (st : Heap T × Set T),
    run_with rebalance fuel ops st = run fuel ops st
  | [], _ => rfl
  | .ins key :: ops, st => by
    have ih : run_with rebalance fuel ops = run fuel ops :=
      funext (run_with_rebalance fuel ops)
    simp only [run_with, run, Set.insert_with_rebalance, ih]
  | .del key :: ops, st => by
    have ih : run_with rebalance fuel ops = run fuel ops :=
      funext (run_with_rebalance fuel ops)
    simp only [run_with, run, Set.erase_with_rebalance, ih]

theorem Tree.erase_addrs_mem {key : T} {t t1 : Tree T} (he : t.erase key = some t1) :
    ∀ y ∈ t1.addrs, y ∈ t.addrs := by
  intro y hy
  rw [Tree.addrs_eq_map] at hy ⊢
  cases hfind : t.find key with
  | none => rw [(Tree.erase_nodes key t he).1 hfind] at hy; exact hy
  | some u =>
    obtain ⟨xs, ys, e1, e2⟩ := (Tree.erase_nodes key t he).2 u hfind
    rw [e2] at hy
    rw [e1]
    simp only [List.map_append, List.map_cons, List.mem_append, List.mem_cons] at hy ⊢
    tauto

/-- Every `rebalance` call of `insert(Node*, key)` passes the checks of the observed
`rebalance`. -/
theorem insert_node_checked {h : Heap T} (s : Set T) (key : T)
    (hb : ∀ b, s.begin_ = some b → ∃ bn, rd h b = some bn) :
    ∀ (t : Tree T) {p : Option Nat} (fuel : Nat), Rep h t p → t.addrs.Nodup → t.Inv →
      t.depth < fuel →
      insert_node_with rebalance_checked fuel h s t.ptr key = insert_node fuel h s t.ptr key
  | .nil, p, fuel, _, _, _, hfuel => by
    obtain ⟨f, rfl⟩ : ∃ f, fuel = f + 1 := ⟨fuel - 1, by simp at hfuel; omega⟩
    rfl
  | .node l a v ht r, p, fuel, hrep, hnd, hinv, hfuel => by
    obtain ⟨f, rfl⟩ : ∃ f, fuel = f + 1 := ⟨fuel - 1, by simp at hfuel; omega⟩
    simp only [Tree.depth_node, Nat.add_lt_add_iff_right, max_lt_iff] at hfuel
    obtain ⟨ha, hl, hr⟩ := hrep
    obtain ⟨hln, hrn, hal, har, hlr⟩ := Tree.nodup_node.1 hnd
    obtain ⟨hil, hir, g1, g2, -⟩ := hinv
    have hlen := rd_lt ha
    by_cases c1 : key < v
    · obtain ⟨l1, hl1, hil1, b1, b2, -⟩ := Tree.insert_inv h.length key l hil
      have ih := insert_node_checked s key hb l f hl hln hil hfuel.1
      obtain ⟨h1, c, e1, hc, ⟨p1, rep1⟩, fr1, len1⟩ :=
        insert_node_spec s key hb l f hl hln hl1 hfuel.1
      have hmem := Tree.insert_addrs_mem hl1
      have hfresh : h.length ∉ l.addrs := fun hx => absurd (hl.lt _ hx) (lt_irrefl _)
      have ha1 : rd h1 a = some ⟨l.ptr, r.ptr, p, ht, v⟩ := by rw [fr1 a hal hlen]; exact ha
      have hr1 : Rep h1 r (some a) := hr.frame fun y hy =>
        fr1 y (fun hy2 => hlr y hy2 hy) (hr.lt y hy)
      have hal1 : a ∉ l1.addrs := fun hx => by
        rcases hmem a hx with hx | hx
        · exact hal hx
        · omega
      have hnd1 : (Tree.node l1 a v ht r).addrs.Nodup := by
        refine Tree.nodup_node.2 ⟨Tree.insert_nodup hl1 hln hfresh, hrn, hal1, har, ?_⟩
        intro y hy hy2
        rcases hmem y hy with hx | hx
        · exact hlr y hx hy2
        · have := hr.lt y hy2; omega
      obtain ⟨h2, e2, rep2, fr2, len2⟩ := link_left_spec ha1 rep1 hr1 hnd1
      obtain ⟨h3, e3, rep3, fr3, len3⟩ := update_spec rep2 hnd1
      have e4 := rebalance_checked_eq rep3 hil1 hir (by omega) (by omega)
      rw [hc] at e2
      simp [insert_node_with, insert_node, ha, c1, ih, e1, e2, e3, e4]
    by_cases c2 : v < key
    · obtain ⟨r1, hr1, hir1, b1, b2, -⟩ := Tree.insert_inv h.length key r hir
      have ih := insert_node_checked s key hb r f hr hrn hir hfuel.2
      obtain ⟨h1, c, e1, hc, ⟨p1, rep1⟩, fr1, len1⟩ :=
        insert_node_spec s key hb r f hr hrn hr1 hfuel.2
      have hmem := Tree.insert_addrs_mem hr1
      have hfresh : h.length ∉ r.addrs := fun hx => absurd (hr.lt _ hx) (lt_irrefl _)
      have ha1 : rd h1 a = some ⟨l.ptr, r.ptr, p, ht, v⟩ := by rw [fr1 a har hlen]; exact ha
      have hl1 : Rep h1 l (some a) := hl.frame fun y hy =>
        fr1 y (fun hy2 => hlr y hy hy2) (hl.lt y hy)
      have har1 : a ∉ r1.addrs := fun hx => by
        rcases hmem a hx with hx | hx
        · exact har hx
        · omega
      have hnd1 : (Tree.node l a v ht r1).addrs.Nodup := by
        refine Tree.nodup_node.2 ⟨hln, Tree.insert_nodup hr1 hrn hfresh, hal, har1, ?_⟩
        intro y hy hy2
        rcases hmem y hy2 with hx | hx
        · exact hlr y hy hx
        · have := hl.lt y hy; omega
      obtain ⟨h2, e2, rep2, fr2, len2⟩ := link_right_spec ha1 hl1 rep1 hnd1
      obtain ⟨h3, e3, rep3, fr3, len3⟩ := update_spec rep2 hnd1
      have e4 := rebalance_checked_eq rep3 hil hir1 (by omega) (by omega)
      rw [hc] at e2
      simp [insert_node_with, insert_node, ha, c1, c2, ih, e1, e2, e3, e4]
    · simp [insert_node_with, insert_node, ha, c1, c2]

/-- The `rebalance` calls of `erase(Node*, key)` at the node holding `key`, when it has a right
child, pass the checks of the observed `rebalance`. -/
theorem erase_found_checked {h : Heap T} (s : Set T) (key : T) {l rl rr : Tree T} {a b : Nat}
    {v vb : T} {ht hb : Int} {p : Option Nat} (f : Nat)
    (hrep : Rep h (.node l a v ht (.node rl b vb hb rr)) p)
    (hnd : (Tree.node l a v ht (.node rl b vb hb rr)).addrs.Nodup)
    (hinv : (Tree.node l a v ht (.node rl b vb hb rr)).Inv)
    (hfuel : (Tree.node l a v ht (.node rl b vb hb rr)).depth < f + 1)
    (c1 : ¬ key < v) (c2 : ¬ v < key) :
    erase_node_with rebalance_checked (f + 1) h s (some a) key =
      erase_node (f + 1) h s (some a) key := by
  obtain ⟨ha, hl, hr⟩ := hrep
  obtain ⟨hln, hrn, hal, har, hlr⟩ := Tree.nodup_node.1 hnd
  obtain ⟨hil, hir, g1, g2, -⟩ := hinv
  have hdr : (Tree.node rl b vb hb rr).depth ≤ f := by
    rw [Tree.depth_node] at hfuel
    omega
  obtain ⟨r1, hr1, hir1, b1, b2⟩ := Tree.remove_min_inv _ hir (by simp)
  obtain ⟨m, hm⟩ : ∃ m, (Tree.node rl b vb hb rr).first = some m := by
    rw [Tree.first_eq_head]
    cases e : (Tree.node rl b vb hb rr).nodes with
    | nil => simp at e
    | cons m ms => exact ⟨m, rfl⟩
  have efm := find_min_spec (Tree.node rl b vb hb rr) f hr hdr rfl hm
  have ihrm := remove_min_checked (Tree.node rl b vb hb rr) f hr hrn hir hdr rfl
  obtain ⟨h1, e1, ⟨p1, rep1⟩, fr1, len1⟩ :=
    remove_min_spec (Tree.node rl b vb hb rr) f hr hrn hr1 hdr rfl
  have hradd := Tree.first_remove_min_addrs hm hr1
  rw [hradd] at hrn har hlr
  obtain ⟨hm1, hr1n⟩ := List.nodup_cons.1 hrn
  simp only [List.mem_cons, not_or] at har hlr
  obtain ⟨rt, par, hm0, hcell⟩ := hr.first_cell hm
  have hcell1 : rd h1 m.1 = some ⟨(Tree.nil : Tree T).ptr, rt, par, hm0, m.2⟩ := by
    rw [fr1 _ hm1]; exact hcell
  have hnd2 : (Tree.node .nil m.1 m.2 hm0 r1).addrs.Nodup :=
    Tree.nodup_node.2 ⟨List.nodup_nil, hr1n, by simp, hm1, by simp⟩
  obtain ⟨h2, e2, rep2, fr2, len2⟩ :=
    link_right_spec (l := .nil) hcell1 trivial rep1 hnd2
  have ha2 : rd h2 a = some ⟨l.ptr, some b, p, ht, v⟩ := by
    rw [fr2 a har.1 har.2, fr1 a har.2]; exact ha
  have hl2 : Rep h2 l (some a) := hl.frame fun y hy => by
    rw [fr2 y (hlr y hy).1 (hlr y hy).2, fr1 y (hlr y hy).2]
  have hml : m.1 ∉ l.addrs := fun hx => (hlr _ hx).1 rfl
  have hnd3 : (Tree.node l m.1 m.2 hm0 r1).addrs.Nodup :=
    Tree.nodup_node.2 ⟨hln, hr1n, hml, hm1, fun y hy => (hlr y hy).2⟩
  obtain ⟨h3, e3, rep3, fr3, len3⟩ := link_left_spec rep2.1 hl2 rep2.2.2 hnd3
  obtain ⟨h4, e4, rep4, fr4, len4⟩ := update_spec rep3 hnd3
  rw [Tree.update_node] at rep4
  have ham : a ∉ (Tree.node l m.1 m.2 (max l.hgt r1.hgt + 1) r1).addrs := by
    simp only [Tree.addrs_node, List.mem_append, List.mem_cons, not_or]
    exact ⟨hal, har.1, har.2⟩
  have rep5 := rep4.dealloc_other ham
  have e6 := rebalance_checked_eq rep5 hil hir1 (by omega) (by omega)
  obtain ⟨t6, hreb, -⟩ := Tree.rebalance_inv m.1 m.2 hil hir1 (by omega) (by omega)
  obtain ⟨h6, c, e7, -⟩ := rebalance_spec rep5 hnd3 hreb
  rw [e7] at e6
  simp only [Tree.ptr_node] at ha
  by_cases hb : s.begin_ = some a
  · cases hi : iterator_inc f h (some a) with
    | none => simp [erase_node_with, erase_node, ha, c1, c2, hb, hi]
    | some nb =>
      simp [erase_node_with, erase_node, ha, c1, c2, hb, hi, efm, ihrm, e1, e2, ha2, e3, e4,
        e6, e7]
  · simp [erase_node_with, erase_node, ha, c1, c2, hb, efm, ihrm, e1, e2, ha2, e3, e4, e6, e7]

/-- Every `rebalance` call of `erase(Node*, key)`, those of its `remove_min` included, passes
the checks of the observed `rebalance`. -/
theorem erase_node_checked {h : Heap T} (s : Set T) (key : T) (nb : Option Nat) :
    ∀ (t : Tree T) {p : Option Nat} (fuel : Nat), Rep h t p → t.addrs.Nodup → t.Inv →
      t.depth < fuel →
      (∀ u, t.find key = some u → s.begin_ = some u →
        ∀ f, t.subdepth key ≤ f → iterator_inc f h (some u) = some nb) →
      erase_node_with rebalance_checked fuel h s t.ptr key = erase_node fuel h s t.ptr key
  | .nil, p, fuel, _, _, _, hfuel, _ => by
    obtain ⟨f, rfl⟩ : ∃ f, fuel = f + 1 := ⟨fuel - 1, by simp at hfuel; omega⟩
    rfl
  | .node l a v ht r, p, fuel, hrep, hnd, hinv, hfuel, hinc => by
    obtain ⟨f, rfl⟩ : ∃ f, fuel = f + 1 := ⟨fuel - 1, by simp at hfuel; omega⟩
    have hfuel' := hfuel
    simp only [Tree.depth_node, Nat.add_lt_add_iff_right, max_lt_iff] at hfuel
    obtain ⟨ha, hl, hr⟩ := hrep
    obtain ⟨hln, hrn, hal, har, hlr⟩ := Tree.nodup_node.1 hnd
    obtain ⟨hil, hir, g1, g2, hh⟩ := hinv
    by_cases c1 : key < v
    · obtain ⟨l1, hl1, hil1, b1, b2⟩ := Tree.erase_inv key l hil
      simp only [Tree.find, Tree.subdepth, c1, ↓reduceIte] at hinc
      have ih := erase_node_checked s key nb l f hl hln hil hfuel.1 hinc
      obtain ⟨h1, e1, ⟨p1, rep1⟩, fr1, len1⟩ :=
        erase_node_spec s key nb l f hl hln hl1 hfuel.1 hinc
      have hsub := Tree.erase_addrs_mem hl1
      have hal1 : a ∉ l1.addrs := fun hx => hal (hsub a hx)
      have ha1 : rd h1 a = some ⟨l.ptr, r.ptr, p, ht, v⟩ := by rw [fr1 a hal]; exact ha
      have hr1 : Rep h1 r (some a) := hr.frame fun y hy => fr1 y (fun hy2 => hlr y hy2 hy)
      have hnd1 : (Tree.node l1 a v ht r).addrs.Nodup :=
        Tree.nodup_node.2 ⟨Tree.erase_nodup hln hl1, hrn, hal1, har,
          fun y hy => hlr y (hsub y hy)⟩
      obtain ⟨h2, e2, rep2, fr2, len2⟩ := link_left_spec ha1 rep1 hr1 hnd1
      obtain ⟨h3, e3, rep3, fr3, len3⟩ := update_spec rep2 hnd1
      have e4 := rebalance_checked_eq rep3 hil1 hir (by omega) (by omega)
      simp [erase_node_with, erase_node, ha, c1, ih, e1, e2, e3, e4]
    by_cases c2 : v < key
    · obtain ⟨r1, hr1, hir1, b1, b2⟩ := Tree.erase_inv key r hir
      simp only [Tree.find, Tree.subdepth, c1, c2, ↓reduceIte] at hinc
      have ih := erase_node_checked s key nb r f hr hrn hir hfuel.2 hinc
      obtain ⟨h1, e1, ⟨p1, rep1⟩, fr1, len1⟩ :=
        erase_node_spec s key nb r f hr hrn hr1 hfuel.2 hinc
      have hsub := Tree.erase_addrs_mem hr1
      have har1 : a ∉ r1.addrs := fun hx => har (hsub a hx)
      have ha1 : rd h1 a = some ⟨l.ptr, r.ptr, p, ht, v⟩ := by rw [fr1 a har]; exact ha
      have hl1 : Rep h1 l (some a) := hl.frame fun y hy => fr1 y (fun hy2 => hlr y hy hy2)
      have hnd1 : (Tree.node l a v ht r1).addrs.Nodup :=
        Tree.nodup_node.2 ⟨hln, Tree.erase_nodup hrn hr1, hal, har1,
          fun y hy hy2 => hlr y hy (hsub y hy2)⟩
      obtain ⟨h2, e2, rep2, fr2, len2⟩ := link_right_spec ha1 hl1 rep1 hnd1
      obtain ⟨h3, e3, rep3, fr3, len3⟩ := update_spec rep2 hnd1
      have e4 := rebalance_checked_eq rep3 hil hir1 (by omega) (by omega)
      simp [erase_node_with, erase_node, ha, c1, c2, ih, e1, e2, e3, e4]
    · simp only [Tree.find, Tree.subdepth, c1, c2, ↓reduceIte] at hinc
      cases r with
      | nil =>
        simp only [Tree.ptr_nil] at ha
        simp [erase_node_with, erase_node, ha, c1, c2]
      | node rl b vb hb rr =>
        exact erase_found_checked s key f ⟨ha, hl, hr⟩ hnd ⟨hil, hir, g1, g2, hh⟩ hfuel' c1 c2

/-- On a container holding a tree with all the invariants, every `rebalance` call of the
public `insert` passes the checks of the observed `rebalance`. -/
theorem Good.insert_checked {h : Heap T} {s : Set T} {t : Tree T} (hg : Good h s t) (key : T)
    (fuel : Nat) (hfuel : s.size_ < fuel) :
    Set.insert_with rebalance_checked fuel h s key = Set.insert fuel h s key := by
  have hb : ∀ b, s.begin_ = some b → ∃ bn, rd h b = some bn := by
    intro b hb
    rw [hg.first] at hb
    have hmem : b ∈ t.addrs := List.mem_of_mem_head? hb
    rw [Tree.addrs_eq_map] at hmem
    obtain ⟨⟨x, k⟩, hxk, rfl⟩ := List.mem_map.1 hmem
    obtain ⟨n, hn, -⟩ := hg.rep.cell_of_mem hxk
    exact ⟨n, hn⟩
  have := insert_node_checked s key hb t fuel hg.rep hg.nodup hg.inv (hg.depth_lt hfuel)
  rw [← hg.root] at this
  simp only [Set.insert_with, Set.insert, this]

/-- On a container holding a tree with all the invariants, every `rebalance` call of the
public `erase` passes the checks of the observed `rebalance`. -/
theorem Good.erase_checked {h : Heap T} {s : Set T} {t : Tree T} (hg : Good h s t) (key : T)
    (fuel : Nat) (hfuel : s.size_ < fuel) :
    Set.erase_with rebalance_checked fuel h s key = Set.erase fuel h s key := by
  have hinc : ∀ u, t.find key = some u → s.begin_ = some u →
      ∀ f, t.subdepth key ≤ f → iterator_inc f h (some u) = some t.addrs.tail.head? := by
    intro u hu hb f hf
    rw [hg.first] at hb
    have := inc_first key t hg.rep hg.nodup hg.exit_top u hu hb f hf
    rwa [Option.or_none] at this
  have := erase_node_checked s key t.addrs.tail.head? t fuel hg.rep hg.nodup hg.inv
    (hg.depth_lt hfuel) hinc
  rw [← hg.root] at this
  simp only [Set.erase_with, Set.erase, this]

/-- C19: on a reachable set, `insert(key)` and `erase(key)` return, and they return the same
heap and container when every `rebalance` call they make (those of `remove_min` included) is
replaced by the observed one, which fails unless the cached difference `get_diff(u)` it sees
lies in -2..2 and, for -2 or 2, the child the rotation pivots on and, for a double rotation,
that child's inner child are present. So every call passes these checks and no call
dereferences an absent node. -/
theorem C19_rebalance_calls_in_range {h : Heap T} {s : Set T} (hr : Reachable h s) (key : T)
    (fuel : Nat) (hfuel : s.size_ < fuel) :
    (∃ h1 s1, Set.insert fuel h s key = some (h1, s1) ∧
      Set.insert_with rebalance_checked fuel h s key = some (h1, s1)) ∧
    (∃ h1 s1, Set.erase fuel h s key = some (h1, s1) ∧
      Set.erase_with rebalance_checked fuel h s key = some (h1, s1)) := by
  obtain ⟨t, hg⟩ := hr.good
  obtain ⟨h1, s1, -, e1, -⟩ := insert_good hg key fuel hfuel
  obtain ⟨h2, s2, -, e2, -⟩ := erase_good hg key fuel hfuel
  exact ⟨⟨h1, s1, e1, by rw [hg.insert_checked key fuel hfuel, e1]⟩,
    ⟨h2, s2, e2, by rw [hg.erase_checked key fuel hfuel, e2]⟩⟩

/-! ## Copies: two containers in one heap -/

theorem Tree.copy_bst (b : Nat) {t : Tree T} (hb : t.Bst) : (t.copy b).Bst := by
  rw [Tree.bst_iff_sorted] at hb ⊢
  rw [Tree.copy_keys]
  exact hb

/-- A container is not affected by writes outside the cells of its tree. -/
theorem Good.unaffected {h h1 : Heap T} {s : Set T} {t : Tree T} (hg : Good h s t)
    (hfr : ∀ x ∈ t.addrs, rd h1 x = rd h x) : Good h1 s t :=
  ⟨hg.rep.frame hfr, hg.nodup, hg.inv, hg.bst, hg.root, hg.size, hg.first⟩

/-- The copy constructor returns a container holding the copy of the tree. -/
theorem copy_good {h : Heap T} {s : Set T} {t : Tree T} (hg : Good h s t) (fuel : Nat)
    (hfuel : s.size_ < fuel) :
    ∃ h1 c, Set.copy_construct fuel h s = some (h1, c) ∧ Good h1 c (t.copy h.length) ∧
      (∀ y, y < h.length → rd h1 y = rd h y) ∧ h.length ≤ h1.length := by
  obtain ⟨h1, e1, rep1, fr1, len1⟩ := copy_spec t fuel hg.rep (hg.depth_lt hfuel)
  have hb := begin_of_spec fuel rep1 (by rw [Tree.copy_depth]; exact hg.depth_lt hfuel)
  refine ⟨h1, ⟨(t.copy h.length).ptr, s.size_, (t.copy h.length).addrs.head?⟩, ?_,
    ⟨rep1, Tree.copy_nodup _ _, Tree.copy_inv _ hg.inv, Tree.copy_bst _ hg.bst, rfl, ?_, rfl⟩,
    fr1, by omega⟩
  · simp only [Set.copy_construct, hg.root, e1, Option.bind_eq_bind, Option.some_bind, hb]
    rfl
  · rw [Tree.copy_size]
    exact hg.size

/-- Copy assignment to another container returns a container holding the copy of the source
tree; the cells of the source tree do not change. -/
theorem assign_good {h : Heap T} {a b : Set T} {ta tb : Tree T} (hga : Good h a ta)
    (hgb : Good h b tb) (hdis : ∀ x ∈ ta.addrs, x ∉ tb.addrs) (fuel : Nat)
    (hfa : a.size_ < fuel) (hfb : b.size_ < fuel) :
    ∃ h1 c, Set.assign fuel h b a false = some (h1, c) ∧ Good h1 c (ta.copy h.length) ∧
      (∀ y, y < h.length → y ∉ tb.addrs → rd h1 y = rd h y) ∧ h.length ≤ h1.length := by
  obtain ⟨h0, e0, fr0, len0⟩ := free_spec tb fuel hgb.rep hgb.nodup (hgb.depth_lt hfb)
  have hga0 : Good h0 a ta := hga.unaffected fun x hx => fr0 x (hdis x hx)
  obtain ⟨h1, e1, rep1, fr1, len1⟩ := copy_spec ta fuel hga0.rep (hga.depth_lt hfa)
  rw [len0] at e1 rep1 fr1 len1
  have hb := begin_of_spec fuel rep1 (by rw [Tree.copy_depth]; exact hga.depth_lt hfa)
  refine ⟨h1, ⟨(ta.copy h.length).ptr, a.size_, (ta.copy h.length).addrs.head?⟩, ?_,
    ⟨rep1, Tree.copy_nodup _ _, Tree.copy_inv _ hga.inv, Tree.copy_bst _ hga.bst, rfl, ?_,
      rfl⟩, ?_, by omega⟩
  · simp only [Set.assign, hgb.root, hga.root, e0, e1, Option.bind_eq_bind, Option.some_bind,
      hb]
    rfl
  · rw [Tree.copy_size]
    exact hga.size
  · intro y hy hyb
    rw [fr1 y hy, fr0 y hyb]

/-- Every reachable container is the first of a reachable pair. -/
theorem Reachable.pair {h : Heap T} {s : Set T} (hr : Reachable h s) :
    Reachable2 h s Set.fresh := by
  induction hr with
  | empty h => exact .empty h
  | insert fuel key _ hfuel hins ih => exact .insert fuel key ih hfuel hins
  | erase fuel key _ hfuel he ih => exact .erase fuel key ih hfuel he

/-- Two reachable containers in one heap hold trees with all the invariants, in disjoint
cells. -/
theorem Reachable2.both_good {h : Heap T} {a b : Set T} (hp : Reachable2 h a b) :
    ∃ ta tb, Good h a ta ∧ Good h b tb ∧ ∀ x ∈ ta.addrs, x ∉ tb.addrs := by
  induction hp with
  | empty h => exact ⟨.nil, .nil, good_empty h, good_empty h, fun x hx => by simp at hx⟩
  | swap _ ih =>
    obtain ⟨ta, tb, ga, gb, hd⟩ := ih
    exact ⟨tb, ta, gb, ga, fun x hx hx2 => hd x hx2 hx⟩
  | insert fuel key _ hfuel hins ih =>
    obtain ⟨ta, tb, ga, gb, hd⟩ := ih
    obtain ⟨h2, s2, t1, e, g1, ht1, fr, -⟩ := insert_good ga key fuel hfuel
    rw [e] at hins
    simp only [Option.some.injEq, Prod.mk.injEq] at hins
    obtain ⟨rfl, rfl⟩ := hins
    refine ⟨t1, tb, g1,
      gb.unaffected fun x hx => fr x (fun hx2 => hd x hx2 hx) (gb.rep.lt x hx), ?_⟩
    intro x hx hx2
    rcases Tree.insert_addrs_mem ht1 x hx with hx1 | rfl
    · exact hd x hx1 hx2
    · exact absurd (gb.rep.lt _ hx2) (lt_irrefl _)
  | erase fuel key _ hfuel he ih =>
    obtain ⟨ta, tb, ga, gb, hd⟩ := ih
    obtain ⟨h2, s2, t1, e, g1, ht1, fr, -⟩ := erase_good ga key fuel hfuel
    rw [e] at he
    simp only [Option.some.injEq, Prod.mk.injEq] at he
    obtain ⟨rfl, rfl⟩ := he
    exact ⟨t1, tb, g1, gb.unaffected fun x hx => fr x (fun hx2 => hd x hx2 hx),
      fun x hx hx2 => hd x (Tree.erase_addrs_mem ht1 x hx) hx2⟩
  | copy fuel _ hfuel hc ih =>
    obtain ⟨ta, tb, ga, gb, hd⟩ := ih
    obtain ⟨h2, c, e, gc, fr, -⟩ := copy_good ga fuel hfuel
    rw [e] at hc
    simp only [Option.some.injEq, Prod.mk.injEq] at hc
    obtain ⟨rfl, rfl⟩ := hc
    refine ⟨ta, _, ga.unaffected fun x hx => fr x (ga.rep.lt x hx), gc, ?_⟩
    intro x hx hx2
    have := ga.rep.lt x hx
    have := Tree.copy_addrs_mem _ ta x hx2
    omega
  | assign fuel _ hfa hfb hc ih =>
    obtain ⟨ta, tb, ga, gb, hd⟩ := ih
    obtain ⟨h2, c, e, gc, fr, -⟩ := assign_good ga gb hd fuel hfa hfb
    rw [e] at hc
    simp only [Option.some.injEq, Prod.mk.injEq] at hc
    obtain ⟨rfl, rfl⟩ := hc
    refine ⟨ta, _, ga.unaffected fun x hx => fr x (ga.rep.lt x hx) (hd x hx), gc, ?_⟩
    intro x hx hx2
    have := ga.rep.lt x hx
    have := Tree.copy_addrs_mem _ ta x hx2
    omega

/-- In a container holding a tree with all the invariants `begin()` is the end position
exactly when no key is stored, and otherwise the position of the first key of the walk. -/
theorem Good.begin_min {h : Heap T} {s : Set T} {t : Tree T} (hg : Good h s t) (fuel : Nat)
    (hfuel : s.size_ < fuel) :
    (s.begin = s.end ↔ t.keys = []) ∧
      ∀ k, t.keys.head? = some k → Set.find fuel h s k = some s.begin := by
  rw [Set.begin, Set.end, hg.first, Tree.addrs_eq_map, Tree.keys_eq_map]
  cases e : t.nodes with
  | nil => simp
  | cons m ms =>
    refine ⟨by simp, fun k hk => ?_⟩
    simp only [List.map_cons, List.head?_cons, Option.some.injEq] at hk
    subst hk
    have hmem : (m.1, m.2) ∈ t.nodes := by rw [e]; simp
    rw [hg.find m.2 fuel hfuel, Tree.find_of_mem hg.bst hmem]
    rfl

/-- C12: for two reachable containers `a` and `b` in one heap (any reachable container is
the `a` of such a pair, and a copy together with its source is such a pair, in either order),
copy construction from `a` and copy assignment of `a` to `b` return a container with the
size and the walk of `a`, whose `begin()` is the end position when the walk is empty and
otherwise the position of its own node holding the first key; they leave the walk of `a`
unchanged, and self-assignment changes nothing; `insert` and `erase` on `b` leave the walk of
`a` unchanged, and `insert` and `erase` on `a` leave the walk of `b` unchanged. -/
theorem C12_copy_is_independent {h : Heap T} {a b : Set T} (hp : Reachable2 h a b)
    (fuel : Nat) (hfa : a.size_ < fuel) (hfb : b.size_ < fuel) :
    ∃ ks, Set.traverse fuel h a = some ks ∧
      (∃ h1 c, Set.copy_construct fuel h a = some (h1, c) ∧ Reachable2 h1 a c ∧
        c.size = a.size ∧ Set.traverse fuel h1 c = some ks ∧
        Set.traverse fuel h1 a = some ks ∧ (c.begin = c.end ↔ ks = []) ∧
        ∀ k, ks.head? = some k → Set.find fuel h1 c k = some c.begin) ∧
      (∃ h1 c, Set.assign fuel h b a false = some (h1, c) ∧ Reachable2 h1 a c ∧
        c.size = a.size ∧ Set.traverse fuel h1 c = some ks ∧
        Set.traverse fuel h1 a = some ks ∧ (c.begin = c.end ↔ ks = []) ∧
        ∀ k, ks.head? = some k → Set.find fuel h1 c k = some c.begin) ∧
      Set.assign fuel h a a true = some (h, a) ∧
      (∀ key, ∃ h1 b1, Set.insert fuel h b key = some (h1, b1) ∧
        Set.traverse fuel h1 a = some ks) ∧
      (∀ key, ∃ h1 b1, Set.erase fuel h b key = some (h1, b1) ∧
        Set.traverse fuel h1 a = some ks) ∧
      ∃ kb, Set.traverse fuel h b = some kb ∧
        (∀ key, ∃ h1 a1, Set.insert fuel h a key = some (h1, a1) ∧
          Set.traverse fuel h1 b = some kb) ∧
        (∀ key, ∃ h1 a1, Set.erase fuel h a key = some (h1, a1) ∧
          Set.traverse fuel h1 b = some kb) := by
  obtain ⟨ta, tb, ga, gb, hd⟩ := hp.both_good
  refine ⟨ta.keys, ga.traverse fuel hfa, ?_, ?_, rfl, ?_, ?_, tb.keys, gb.traverse fuel hfb,
    ?_, ?_⟩
  · obtain ⟨h1, c, e, gc, fr, -⟩ := copy_good ga fuel hfa
    have hsz : c.size_ = a.size_ := by rw [gc.size, Tree.copy_size, ga.size]
    have ga1 : Good h1 a ta := ga.unaffected fun x hx => fr x (ga.rep.lt x hx)
    have hbm := gc.begin_min fuel (by omega)
    rw [Tree.copy_keys] at hbm
    refine ⟨h1, c, e, .copy fuel hp hfa e, hsz, ?_, ga1.traverse fuel hfa, hbm⟩
    rw [gc.traverse fuel (by omega), Tree.copy_keys]
  · obtain ⟨h1, c, e, gc, fr, -⟩ := assign_good ga gb hd fuel hfa hfb
    have hsz : c.size_ = a.size_ := by rw [gc.size, Tree.copy_size, ga.size]
    have ga1 : Good h1 a ta := ga.unaffected fun x hx => fr x (ga.rep.lt x hx) (hd x hx)
    have hbm := gc.begin_min fuel (by omega)
    rw [Tree.copy_keys] at hbm
    refine ⟨h1, c, e, .assign fuel hp hfa hfb e, hsz, ?_, ga1.traverse fuel hfa, hbm⟩
    rw [gc.traverse fuel (by omega), Tree.copy_keys]
  · intro key
    obtain ⟨h1, b1, t1, e, -, -, fr, -⟩ := insert_good gb key fuel hfb
    have ga1 : Good h1 a ta :=
      ga.unaffected fun x hx => fr x (fun hx2 => hd x hx hx2) (ga.rep.lt x hx)
    exact ⟨h1, b1, e, ga1.traverse fuel hfa⟩
  · intro key
    obtain ⟨h1, b1, t1, e, -, -, fr, -⟩ := erase_good gb key fuel hfb
    have ga1 : Good h1 a ta := ga.unaffected fun x hx => fr x (fun hx2 => hd x hx hx2)
    exact ⟨h1, b1, e, ga1.traverse fuel hfa⟩
  · intro key
    obtain ⟨h1, a1, t1, e, -, -, fr, -⟩ := insert_good ga key fuel hfa
    have gb1 : Good h1 b tb :=
      gb.unaffected fun x hx => fr x (fun hx2 => hd x hx2 hx) (gb.rep.lt x hx)
    exact ⟨h1, a1, e, gb1.traverse fuel hfb⟩
  · intro key
    obtain ⟨h1, a1, t1, e, -, -, fr, -⟩ := erase_good ga key fuel hfa
    have gb1 : Good h1 b tb := gb.unaffected fun x hx => fr x (fun hx2 => hd x hx2 hx)
    exact ⟨h1, a1, e, gb1.traverse fuel hfb⟩

end ordered

/-! ## Concrete runs -/

theorem run6 : run 8 [.ins 5, .ins 3, .ins 8, .ins 1, .ins 4, .ins 7] ([], Set.fresh) =
    some (heap6, set6) := by decide

theorem run7 : run 8 [.ins 5, .ins 3, .ins 8, .ins 1, .ins 4, .ins 7, .ins 9]
    ([], Set.fresh) = some (heap7, set7) := by decide

theorem run123 : run 4 [.ins 1, .ins 2, .ins 3] ([], Set.fresh) = some (heap123, set123) := by
  decide

theorem reach6 : Reachable heap6 set6 :=
  reachable_of_run run6

theorem reach7 : Reachable heap7 set7 :=
  reachable_of_run run7

theorem reach123 : Reachable heap123 set123 :=
  reachable_of_run run123

/-- C7 (evaluation at the failing input): after `insert` of 1, 2, 3 into an empty set the tree
is the chain 1 → 2 → 3 to the right; at the root the left subtree is absent, height 0, and the
right subtree has height 2, so the two heights differ by 2. -/
theorem C7_chain_after_1_2_3 :
    run 4 [.ins 1, .ins 2, .ins 3] ([], Set.fresh) = some (heap123, set123) ∧
      set123.root_ = some 0 ∧
      rd heap123 0 = some ⟨none, some 1, none, 2, 1⟩ ∧
      true_height 4 heap123 none = some 0 ∧
      true_height 4 heap123 (some 1) = some 2 := by
  decide

/-- C10 (evaluation at the failing input): after `insert` of 3, 2, 1 the key 0 is not stored,
yet `erase(0)` rotates: the root moves from the node holding 3 to the node holding 2, and the
cached heights of the nodes holding 1 and 3 change. On the one-element set holding 5,
`erase(7)` changes the node's cached height from 0 to 1. -/
theorem C10_erase_absent_changes_tree :
    (run 4 [.ins 3, .ins 2, .ins 1] ([], Set.fresh) = some (heap321, set321) ∧
      Set.find 4 heap321 set321 0 = some none ∧
      Set.erase 4 heap321 set321 0 = some (heap321e, set321e) ∧
      set321.root_ = some 0 ∧ set321e.root_ = some 1 ∧
      rd heap321 2 = some ⟨none, none, some 1, 0, 1⟩ ∧
      rd heap321e 2 = some ⟨none, none, some 1, 1, 1⟩) ∧
    (run 2 [.ins 5] ([], Set.fresh) = some (heap5, set5) ∧
      Set.find 2 heap5 set5 7 = some none ∧
      Set.erase 2 heap5 set5 7 = some (heap5e, set5) ∧
      rd heap5 0 = some ⟨none, none, none, 0, 5⟩ ∧
      rd heap5e 0 = some ⟨none, none, none, 1, 5⟩) :=
  ⟨by decide, by decide⟩

/-- Witness for C1: the set built by inserting 5, 3, 8, 1, 4, 7, 9. -/
theorem C1_witness :
    Reachable heap7 set7 ∧
      ∃ ks : List Int,
        (∀ fuel, set7.size_ < fuel → Set.traverse fuel heap7 set7 = some ks) ∧
        ks.Pairwise (· < ·) ∧
        ∃ t : Tree Int, Rep heap7 t none ∧ set7.root_ = t.ptr ∧ t.Bst ∧ t.keys = ks :=
  ⟨reach7, C1_traversal_strictly_increasing reach7⟩

/-- Witness for C2: inserting 9 into the set built from 5, 3, 8, 1, 4, 7; the whole sequence
gives size 7 and the walk 1, 3, 4, 5, 7, 8, 9. -/
theorem C2_witness :
    (Reachable heap6 set6 ∧ set6.size_ < 8) ∧
      (∃ h1 s1 ks ks1, Set.insert 8 heap6 set6 9 = some (h1, s1) ∧
        (∀ f, set6.size_ < f → Set.traverse f heap6 set6 = some ks) ∧
        (∀ f, s1.size_ < f → Set.traverse f h1 s1 = some ks1) ∧
        (9 ∉ ks → (∃ xs ys, ks = xs ++ ys ∧ ks1 = xs ++ 9 :: ys ∧
            (∀ x ∈ xs, x < 9) ∧ (∀ y ∈ ys, 9 < y)) ∧ s1.size = set6.size + 1) ∧
        (9 ∈ ks → ks1 = ks ∧ s1.size = set6.size)) ∧
      (Set.insert 8 heap6 set6 9 = some (heap7, set7) ∧ set7.size = 7 ∧
        Set.traverse 8 heap7 set7 = some [1, 3, 4, 5, 7, 8, 9]) :=
  ⟨⟨reach6, by decide⟩, C2_insert_places_key reach6 9 8 (by decide), by decide⟩

/-- Witness for C3: erasing 5, a node with two children, from the set built from
5, 3, 8, 1, 4, 7, 9 gives size 6 and the walk 1, 3, 4, 7, 8, 9. -/
theorem C3_witness :
    (Reachable heap7 set7 ∧ set7.size_ < 8) ∧
      (∃ h1 s1 ks ks1, Set.erase 8 heap7 set7 5 = some (h1, s1) ∧
        (∀ f, set7.size_ < f → Set.traverse f heap7 set7 = some ks) ∧
        (∀ f, s1.size_ < f → Set.traverse f h1 s1 = some ks1) ∧
        (5 ∈ ks → (∃ xs ys, ks = xs ++ 5 :: ys ∧ ks1 = xs ++ ys) ∧
            s1.size + 1 = set7.size) ∧
        (5 ∉ ks → ks1 = ks ∧ s1.size = set7.size)) ∧
      (Set.erase 8 heap7 set7 5 = some (heap7e, set7e) ∧ set7e.size = 6 ∧
        Set.traverse 8 heap7e set7e = some [1, 3, 4, 7, 8, 9]) :=
  ⟨⟨reach7, by decide⟩, C3_erase_removes_key reach7 5 8 (by decide), by decide⟩

/-- Witness for C4: on the set holding 1, 3, 4, 5, 7, 8, 9 `lower_bound(6)` is the position
of 7, the smallest stored key that is at least 6; `lower_bound(10)` is the end position and
`lower_bound(-3)` the position of 1; on the empty set `lower_bound(42)` is the end
position. -/
theorem C4_witness :
    (Reachable heap7 set7 ∧ set7.size_ < 8) ∧
      (∃ ks q, (∀ f, set7.size_ < f → Set.traverse f heap7 set7 = some ks) ∧
        Set.lower_bound 8 heap7 set7 6 = some q ∧
        (∀ y ∈ ks, 6 ≤ y → (∀ z ∈ ks, 6 ≤ z → y ≤ z) →
          q ≠ set7.end ∧ Set.find 8 heap7 set7 y = some q ∧
            iterator_deref heap7 q = some y) ∧
        ((∀ z ∈ ks, z < 6) → q = set7.end)) ∧
      (Set.traverse 8 heap7 set7 = some [1, 3, 4, 5, 7, 8, 9] ∧
        Set.lower_bound 8 heap7 set7 6 = some (some 5) ∧
        Set.find 8 heap7 set7 7 = some (some 5) ∧
        iterator_deref heap7 (some 5) = some 7 ∧
        Set.lower_bound 8 heap7 set7 10 = some set7.end ∧
        Set.lower_bound 8 heap7 set7 (-3) = some (some 3) ∧
        iterator_deref heap7 (some 3) = some 1 ∧
        Set.lower_bound 1 ([] : Heap Int) Set.fresh 42 = some none) :=
  ⟨⟨reach7, by decide⟩, C4_lower_bound_position reach7 6 8 (by decide), by decide⟩

/-- Witness for C5: `find(2)` and `find(4)` on the set holding 1, 2, 3. -/
theorem C5_witness :
    (Reachable heap123 set123 ∧ set123.size_ < 4) ∧
      (∃ ks q, (∀ f, set123.size_ < f → Set.traverse f heap123 set123 = some ks) ∧
        Set.find 4 heap123 set123 2 = some q ∧
        (2 ∈ ks → ∃ p n, q = some p ∧ rd heap123 p = some n ∧ ¬ n.value < 2 ∧
          ¬ 2 < n.value) ∧
        (2 ∉ ks → q = set123.end)) ∧
      (Set.find 4 heap123 set123 2 = some (some 1) ∧
        Set.find 4 heap123 set123 4 = some none) :=
  ⟨⟨reach123, by decide⟩, C5_find_position reach123 2 4 (by decide), by decide⟩

/-- Witness for C6: after inserting 1, 2, 3, `find(2)` incremented dereferences to 3. -/
theorem C6_witness :
    (Reachable heap123 set123 ∧ set123.size_ < 4 ∧
        Set.find 4 heap123 set123 2 = some (some 1)) ∧
      (∃ ks, (∀ f, set123.size_ < f → Set.traverse f heap123 set123 = some ks) ∧
        (∀ y ∈ ks, 2 < y → (∀ z ∈ ks, 2 < z → y ≤ z) →
          ∃ q, iterator_inc 4 heap123 (some 1) = some (some q) ∧
            Set.find 4 heap123 set123 y = some (some q)) ∧
        ((∀ z ∈ ks, z ≤ 2) → iterator_inc 4 heap123 (some 1) = some set123.end) ∧
        (∀ y ∈ ks, (∀ z ∈ ks, z ≤ y) →
          ∃ q, iterator_dec 4 heap123 set123 set123.end = some (some q) ∧
            Set.find 4 heap123 set123 y = some (some q)) ∧
        (∀ y ∈ ks, y < 2 → (∀ z ∈ ks, z < 2 → z ≤ y) →
          ∃ q, iterator_dec 4 heap123 set123 (some 1) = some (some q) ∧
            Set.find 4 heap123 set123 y = some (some q))) ∧
      ((iterator_inc 4 heap123 (some 1)).bind (iterator_deref heap123) = some 3 ∧
        (iterator_dec 4 heap123 set123 none).bind (iterator_deref heap123) = some 3 ∧
        (iterator_dec 4 heap123 set123 (some 1)).bind (iterator_deref heap123) = some 1) :=
  ⟨⟨reach123, by decide, by decide⟩,
    C6_iterator_steps reach123 2 1 4 (by decide) (by decide), by decide⟩

/-- Witness for C8: the set built by inserting 5, 3, 8, 1, 4, 7, 9 has size 7. -/
theorem C8_witness :
    Reachable heap7 set7 ∧
      (∃ ks : List Int,
        (∀ fuel, set7.size_ < fuel → Set.traverse fuel heap7 set7 = some ks) ∧
        set7.size = ks.length ∧ (set7.empty = true ↔ ks.length = 0) ∧
        ∃ t : Tree Int, Rep heap7 t none ∧ set7.root_ = t.ptr ∧ t.size = ks.length) ∧
      (set7.size = 7 ∧ set7.empty = false) :=
  ⟨reach7, C8_size_counts_nodes reach7, by decide⟩

/-- Witness for C9: inserting 4 again into the set built from 5, 3, 8, 1, 4, 7, 9. -/
theorem C9_witness :
    (Reachable heap7 set7 ∧ set7.size_ < 8) ∧
      ((∃ ks, (∀ f, set7.size_ < f → Set.traverse f heap7 set7 = some ks) ∧
          (4 ∈ ks → Set.insert 8 heap7 set7 4 = some (heap7, set7))) ∧
        (∃ h1 s1, Set.insert 8 heap7 set7 4 = some (h1, s1) ∧
          ∀ fuel1, s1.size_ < fuel1 → Set.insert fuel1 h1 s1 4 = some (h1, s1))) ∧
      Set.insert 8 heap7 set7 4 = some (heap7, set7) :=
  ⟨⟨reach7, by decide⟩, C9_insert_present_is_noop reach7 4 8 (by decide), by decide⟩

theorem run50 : run 6 [.ins 10, .ins 20, .ins 30, .ins 40, .ins 50] ([], Set.fresh) =
    some (heap50, set50) := by decide

theorem reach50 : Reachable heap50 set50 :=
  reachable_of_run run50

/-- The set built by inserting 5, 3, 8, 1, 4, 7, 9 together with its copy. -/
theorem pair7 : Reachable2 heap7c set7 set7c :=
  .copy 8 (Reachable.pair reach7) (by decide) (by decide)

/-- C14 (counterexample): the set holding 1, 2, 3 is reachable and not empty, and
`lower_bound(4)` on it returns the end position, not the position of a stored key. -/
theorem C14_end_on_nonempty_set :
    Reachable heap123 set123 ∧ set123.size = 3 ∧
      Set.traverse 4 heap123 set123 = some [1, 2, 3] ∧
      Set.lower_bound 4 heap123 set123 4 = some set123.end ∧
      ¬ ∃ p, Set.lower_bound 4 heap123 set123 4 = some (some p) := by
  refine ⟨reach123, by decide, by decide, by decide, ?_⟩
  rintro ⟨p, hp⟩
  have e : Set.lower_bound 4 heap123 set123 4 = some none := by decide
  rw [e] at hp
  simp at hp

/-- C15 (evaluation at the failing input): after `insert` of 5 into an empty set the only
node is a leaf, and its cached height is 0, not 1; `update` on that node would write 1. After
`insert` of 10, 20, 30, 40, 50 the leaf holding 50 has cached height 0 and its parent, the
node holding 40, has cached height 1, the same as a leaf would have after `update`. -/
theorem C15_fresh_leaf_height_zero :
    (run 2 [.ins 5] ([], Set.fresh) = some (heap5, set5) ∧
      set5.root_ = some 0 ∧
      rd heap5 0 = some ⟨none, none, none, 0, 5⟩ ∧
      (update heap5 0).bind (fun h1 => rd h1 0) = some ⟨none, none, none, 1, 5⟩) ∧
    (run 6 [.ins 10, .ins 20, .ins 30, .ins 40, .ins 50] ([], Set.fresh) =
        some (heap50, set50) ∧
      rd heap50 4 = some ⟨none, none, some 3, 0, 50⟩ ∧
      rd heap50 3 = some ⟨none, some 4, some 2, 1, 40⟩ ∧
      true_height 6 heap50 (some 3) = some 2) :=
  ⟨by decide, by decide⟩

/-- C17 (counterexample): in the run that inserts 5, 3, 8, 1, 4, 7, 9 into an empty set no
call of `rebalance` rotates: the run in which a rotating `rebalance` call fails does not
fail, it ends in the same heap and container as the plain run. -/
theorem C17_no_call_rotates :
    run 8 [.ins 5, .ins 3, .ins 8, .ins 1, .ins 4, .ins 7, .ins 9] ([], Set.fresh) =
        some (heap7, set7) ∧
      run_with rebalance_idle 8 [.ins 5, .ins 3, .ins 8, .ins 1, .ins 4, .ins 7, .ins 9]
        ([], Set.fresh) ≠ none ∧
      run_with rebalance_idle 4 [.ins 3, .ins 2, .ins 1, .del 0] ([], Set.fresh) = none :=
  ⟨by decide, by decide, by decide⟩

/-- Balance in the claims' sense is not implied by the absence of rotations: the run that
inserts 1, 2, 3 makes no rotating `rebalance` call and ends in a chain that is not
balanced. -/
theorem balanced_can_fail :
    run_with rebalance_idle 4 [.ins 1, .ins 2, .ins 3] ([], Set.fresh) =
        some (heap123, set123) ∧
      balanced 4 heap123 set123.root_ = some false :=
  ⟨by decide, by decide⟩

/-- C17 (amended): inserting 5, 3, 8, 1, 4, 7, 9 into an empty set never rotates: every
`rebalance` call sees a cached difference in -1..1 and returns the node it was given, so the
run with the observed `rebalance` ends as the plain run does. After each of the seven
insertions (and before the first) the tree is balanced, at every node the true heights of
the two subtrees differ by at most 1, and its true height is 0, 1, 2, 2, 3, 3, 3, 3 in turn.
The final tree has 5 at the root, 3 and 8 below it and the leaves 1, 4, 7, 9: true height 3,
walk 1, 3, 4, 5, 7, 8, 9. -/
theorem C17_insertions_keep_balance :
    run_with rebalance_idle 8 ops7 ([], Set.fresh) = some (heap7, set7) ∧
      run 8 ops7 ([], Set.fresh) = some (heap7, set7) ∧
      ((List.range 8).map fun k =>
        (run_with rebalance_idle 8 (ops7.take k) ([], Set.fresh)).bind fun st =>
          balanced 8 st.1 st.2.root_) = List.replicate 8 (some true) ∧
      ((List.range 8).map fun k =>
        (run_with rebalance_idle 8 (ops7.take k) ([], Set.fresh)).bind fun st =>
          true_height 8 st.1 st.2.root_) =
        [some 0, some 1, some 2, some 2, some 3, some 3, some 3, some 3] ∧
      set7.root_ = some 0 ∧
      rd heap7 0 = some ⟨some 1, some 2, none, 2, 5⟩ ∧
      rd heap7 1 = some ⟨some 3, some 4, some 0, 1, 3⟩ ∧
      rd heap7 2 = some ⟨some 5, some 6, some 0, 1, 8⟩ ∧
      rd heap7 3 = some ⟨none, none, some 1, 0, 1⟩ ∧
      rd heap7 4 = some ⟨none, none, some 1, 0, 4⟩ ∧
      rd heap7 5 = some ⟨none, none, some 2, 0, 7⟩ ∧
      rd heap7 6 = some ⟨none, none, some 2, 0, 9⟩ ∧
      true_height 8 heap7 set7.root_ = some 3 ∧
      Set.traverse 8 heap7 set7 = some [1, 3, 4, 5, 7, 8, 9] :=
  ⟨by decide, by decide, by decide, by decide, by decide, by decide, by decide, by decide,
    by decide, by decide, by decide, by decide, by decide, by decide⟩

/-- C18: after `insert` of 10, 20, 30, 40, 50 into an empty set the longest path from the
root down has 4 nodes (20, 30, 40, 50), which is at most `⌈log2 6⌉ + 1 = 4` and is not 5. -/
theorem C18_height_after_10_to_50 :
    ∃ (h : Heap Int) (s : Set Int) (n : Nat),
      run 6 [.ins 10, .ins 20, .ins 30, .ins 40, .ins 50] ([], Set.fresh) = some (h, s) ∧
      true_height 6 h s.root_ = some n ∧ n ≤ Nat.clog 2 6 + 1 ∧ Nat.clog 2 6 + 1 = 4 ∧
      n ≠ 5 :=
  ⟨heap50, set50, 4, by decide, by decide, by simp [Nat.clog], by simp [Nat.clog], by decide⟩

/-- Witness for C11: the set holding 1, 2, 3; from the position of 3, the maximum, `++` gives
the end position and `--` comes back; from the position of 2 `--` then `++` comes back. -/
theorem C11_witness :
    (Reachable heap123 set123 ∧ set123.size_ < 4) ∧
      ((∀ (x : Int) (p : Nat), Set.find 4 heap123 set123 x = some (some p) →
          ∃ q, iterator_inc 4 heap123 (some p) = some q ∧
            iterator_dec 4 heap123 set123 q = some (some p)) ∧
        (∀ (x : Int) (p : Nat), Set.find 4 heap123 set123 x = some (some p) →
          some p ≠ set123.begin →
          ∃ q, iterator_dec 4 heap123 set123 (some p) = some (some q) ∧
            iterator_inc 4 heap123 (some q) = some (some p)) ∧
        (set123.size ≠ 0 →
          ∃ q, iterator_dec 4 heap123 set123 set123.end = some (some q) ∧
            iterator_inc 4 heap123 (some q) = some set123.end)) ∧
      (Set.find 4 heap123 set123 3 = some (some 2) ∧
        iterator_inc 4 heap123 (some 2) = some none ∧
        iterator_dec 4 heap123 set123 none = some (some 2) ∧
        Set.find 4 heap123 set123 2 = some (some 1) ∧
        iterator_dec 4 heap123 set123 (some 1) = some (some 0) ∧
        iterator_inc 4 heap123 (some 0) = some (some 1)) :=
  ⟨⟨reach123, by decide⟩, C11_step_round_trips reach123 4 (by decide), by decide⟩

/-- Witness for C12: the set built by inserting 5, 3, 8, 1, 4, 7, 9 and its copy; erasing 5
from the copy leaves the walk of the original as it was, and inserting 6 into the original
leaves the walk of the copy as it was. -/
theorem C12_witness :
    (Reachable2 heap7c set7 set7c ∧ set7.size_ < 8 ∧ set7c.size_ < 8) ∧
      (∃ ks, Set.traverse 8 heap7c set7 = some ks ∧
        (∃ h1 c, Set.copy_construct 8 heap7c set7 = some (h1, c) ∧ Reachable2 h1 set7 c ∧
          c.size = set7.size ∧ Set.traverse 8 h1 c = some ks ∧
          Set.traverse 8 h1 set7 = some ks ∧ (c.begin = c.end ↔ ks = []) ∧
          ∀ k, ks.head? = some k → Set.find 8 h1 c k = some c.begin) ∧
        (∃ h1 c, Set.assign 8 heap7c set7c set7 false = some (h1, c) ∧ Reachable2 h1 set7 c ∧
          c.size = set7.size ∧ Set.traverse 8 h1 c = some ks ∧
          Set.traverse 8 h1 set7 = some ks ∧ (c.begin = c.end ↔ ks = []) ∧
          ∀ k, ks.head? = some k → Set.find 8 h1 c k = some c.begin) ∧
        Set.assign 8 heap7c set7 set7 true = some (heap7c, set7) ∧
        (∀ key, ∃ h1 b1, Set.insert 8 heap7c set7c key = some (h1, b1) ∧
          Set.traverse 8 h1 set7 = some ks) ∧
        (∀ key, ∃ h1 b1, Set.erase 8 heap7c set7c key = some (h1, b1) ∧
          Set.traverse 8 h1 set7 = some ks) ∧
        ∃ kb, Set.traverse 8 heap7c set7c = some kb ∧
          (∀ key, ∃ h1 a1, Set.insert 8 heap7c set7 key = some (h1, a1) ∧
            Set.traverse 8 h1 set7c = some kb) ∧
          (∀ key, ∃ h1 a1, Set.erase 8 heap7c set7 key = some (h1, a1) ∧
            Set.traverse 8 h1 set7c = some kb)) ∧
      (Set.copy_construct 8 heap7 set7 = some (heap7c, set7c) ∧
        Set.traverse 8 heap7c set7c = some [1, 3, 4, 5, 7, 8, 9] ∧
        Set.find 8 heap7c set7c 1 = some set7c.begin ∧
        ((Set.erase 8 heap7c set7c 5).bind fun st => Set.traverse 8 st.1 st.2) =
          some [1, 3, 4, 7, 8, 9] ∧
        ((Set.erase 8 heap7c set7c 5).bind fun st => Set.traverse 8 st.1 set7) =
          some [1, 3, 4, 5, 7, 8, 9] ∧
        ((Set.insert 8 heap7c set7 6).bind fun st => Set.traverse 8 st.1 set7c) =
          some [1, 3, 4, 5, 7, 8, 9]) :=
  ⟨⟨pair7, by decide, by decide⟩, C12_copy_is_independent pair7 8 (by decide) (by decide),
    by decide, by decide, by decide, by decide, by decide, by decide⟩

/-- Witness for C13: in the set built by inserting 5, 3, 8, 1, 4, 7, 9 `begin()` is the node
holding 1, reached from the root by `find_min`. -/
theorem C13_witness :
    Reachable heap7 set7 ∧
      ((set7.begin = set7.end ↔ set7.size = 0) ∧
        (set7.size ≠ 0 → ∀ fuel, set7.size_ < fuel →
          ∃ r b n k ks, set7.root_ = some r ∧ set7.begin = some b ∧
            find_min fuel heap7 r = some b ∧ rd heap7 b = some n ∧ n.left = none ∧
            n.value = k ∧ Set.traverse fuel heap7 set7 = some (k :: ks) ∧
            (∀ z ∈ ks, k < z) ∧ Set.find fuel heap7 set7 k = some (some b))) ∧
      (set7.begin = some 3 ∧ find_min 8 heap7 0 = some 3 ∧
        iterator_deref heap7 (some 3) = some 1 ∧
        (Set.fresh : Set Int).begin = (Set.fresh : Set Int).end) :=
  ⟨reach7, C13_begin_is_leftmost reach7, by decide⟩

/-- Witness for C14: on the set holding 1, 2, 3 `lower_bound(4)` is the end position, every
stored key being smaller than 4, and `lower_bound(2)` is the position of 2. -/
theorem C14_witness :
    (Reachable heap123 set123 ∧ set123.size_ < 4) ∧
      (∃ ks q, (∀ f, set123.size_ < f → Set.traverse f heap123 set123 = some ks) ∧
        Set.lower_bound 4 heap123 set123 4 = some q ∧
        (q = set123.end ↔ ∀ z ∈ ks, z < 4) ∧
        (q ≠ set123.end → ∃ y ∈ ks, Set.find 4 heap123 set123 y = some q)) ∧
      (Set.lower_bound 4 heap123 set123 4 = some none ∧
        Set.lower_bound 4 heap123 set123 2 = some (some 1) ∧
        Set.find 4 heap123 set123 2 = some (some 1)) :=
  ⟨⟨reach123, by decide⟩, C14_lower_bound_end_iff reach123 4 4 (by decide), by decide⟩

/-- Witness for C16: the set built by inserting 5, 3, 8, 1, 4, 7, 9; the root holds 5 and has
a null parent, and the node holding 3 is the left child of the root. -/
theorem C16_witness :
    (Reachable heap7 set7 ∧ set7.size_ < 8) ∧
      ((∀ r, set7.root_ = some r → ∃ n, rd heap7 r = some n ∧ n.parent = none) ∧
        (∀ (x : Int) (p : Nat), Set.find 8 heap7 set7 x = some (some p) →
          ∃ n, rd heap7 p = some n ∧
            (∀ c, n.left = some c → ∃ m, rd heap7 c = some m ∧ m.parent = some p) ∧
            (∀ c, n.right = some c → ∃ m, rd heap7 c = some m ∧ m.parent = some p) ∧
            (set7.root_ ≠ some p → ∃ q m, n.parent = some q ∧ rd heap7 q = some m ∧
              (m.left = some p ∨ m.right = some p)))) ∧
      (set7.root_ = some 0 ∧ rd heap7 0 = some ⟨some 1, some 2, none, 2, 5⟩ ∧
        Set.find 8 heap7 set7 3 = some (some 1) ∧
        rd heap7 1 = some ⟨some 3, some 4, some 0, 1, 3⟩) :=
  ⟨⟨reach7, by decide⟩, C16_parent_links reach7 8 (by decide), by decide⟩

/-- The checks of the observed `rebalance` can fail. In this heap, which no run produces, the
root holds 5 and has a left child of cached height 3 and no right child, so `get_diff` at the
root is 3: the observed `rebalance` fails, the plain one rotates. -/
theorem rebalance_checked_can_fail :
    rebalance_checked [some ⟨some 1, none, none, 4, (5 : Int)⟩, some ⟨none, none, some 0, 3, 3⟩]
        0 = none ∧
      (rebalance [some ⟨some 1, none, none, 4, (5 : Int)⟩, some ⟨none, none, some 0, 3, 3⟩]
        0).isSome = true :=
  ⟨by decide, by decide⟩

/-- Witness for C19: on the set built by inserting 5, 3, 8, 1, 4, 7, 9, `insert(5)` and
`erase(5)`, which goes through `remove_min`, give the same result with the observed
`rebalance`. -/
theorem C19_witness :
    (Reachable heap7 set7 ∧ set7.size_ < 8) ∧
      ((∃ h1 s1, Set.insert 8 heap7 set7 5 = some (h1, s1) ∧
          Set.insert_with rebalance_checked 8 heap7 set7 5 = some (h1, s1)) ∧
        (∃ h1 s1, Set.erase 8 heap7 set7 5 = some (h1, s1) ∧
          Set.erase_with rebalance_checked 8 heap7 set7 5 = some (h1, s1))) ∧
      (Set.erase 8 heap7 set7 5 = some (heap7e, set7e) ∧
        Set.erase_with rebalance_checked 8 heap7 set7 5 = some (heap7e, set7e)) :=
  ⟨⟨reach7, by decide⟩, C19_rebalance_calls_in_range reach7 5 8 (by decide), by decide⟩

/-- Witness for C20: the set built by inserting 10, 20, 30, 40, 50; the leaf holding 50 has
cached height 0, and the subtree at the node holding 30 has true height 3 and cached
height 2. -/
theorem C20_witness :
    (Reachable heap50 set50 ∧ set50.size_ < 6) ∧
      (∀ (x : Int) (p : Nat), Set.find 6 heap50 set50 x = some (some p) →
        ∃ n hl hr d, rd heap50 p = some n ∧ get_height heap50 n.left = some hl ∧
          get_height heap50 n.right = some hr ∧ |hl - hr| ≤ 1 ∧
          ((n.left ≠ none ∨ n.right ≠ none) → n.height = 1 + max hl hr) ∧
          ((n.left = none ∧ n.right = none) → n.height = 0 ∨ n.height = 1) ∧
          true_height 6 heap50 (some p) = some d ∧ (d : Int) ≤ n.height + 1) ∧
      (Set.find 6 heap50 set50 50 = some (some 4) ∧
        rd heap50 4 = some ⟨none, none, some 3, 0, 50⟩ ∧
        Set.find 6 heap50 set50 30 = some (some 2) ∧
        rd heap50 2 = some ⟨none, some 3, some 1, 2, 30⟩ ∧
        true_height 6 heap50 (some 2) = some 3) :=
  ⟨⟨reach50, by decide⟩, C20_cached_height_invariant reach50 6 (by decide), by decide⟩

end Avl
